import Mathlib

/-!
Verification of the porcupine linearizability checker against its
natural-language specification.  The Go source is shallowly embedded:
pure data (bitsets, entries, events) become Lean values, the mutable
search loop of `checkSingle` becomes an explicit small-step function on a
search-state record iterated with fuel (fuel exhaustion models the
cooperative `kill` flag, which the Go worker polls at the top of each
loop iteration), the doubly-linked ribbon is modelled both functionally
(for the checker, whose live list is always the subsequence of unlifted
entries) and as a pointer store (for the lift/unlift splicing claims),
and the partition driver's select loop becomes a function of the
sequence of events (worker results / timeout firing) it observes.
-/

namespace Porcupine

/-! ## Bitset (bitset.go)

A bitset is a slice of 64-bit words; bits 0-63 live in word 0, the next
64 in word 1, and so on.  Go `uint64` words are modelled as `Nat` kept
below `2 ^ 64` by construction; `&^` (AND NOT) is written as a
conjunction with the complemented 64-bit mask, which agrees with Go on
words below `2 ^ 64`. -/

def bitset : Type := List Nat

instance : DecidableEq bitset := inferInstanceAs (DecidableEq (List Nat))

instance : BEq bitset := inferInstanceAs (BEq (List Nat))

instance : Membership Nat bitset := inferInstanceAs (Membership Nat (List Nat))

instance : GetElem bitset Nat Nat (fun l i => i < l.length) :=
  inferInstanceAs (GetElem (List Nat) Nat Nat (fun l i => i < l.length))

instance : LawfulBEq bitset := inferInstanceAs (LawfulBEq (List Nat))

/-- Allocate storage for `bits/64` words, plus one extra word when
`bits` is not a multiple of 64 (`newBitset`). -/
def newBitset (bits : Nat) : bitset :=
  let extra : Nat := if bits % 64 ≠ 0 then 1 else 0
  let chunks := bits / 64 + extra
  List.replicate chunks 0

/-- Deep copy of the word slice (`clone`).  In the pure embedding the
copy is the value itself; the heap model below accounts for aliasing. -/
def bitset.clone (b : bitset) : bitset := b

/-- Split a bit position into word index and in-word offset
(`bitsetIndex`). -/
def bitsetIndex (pos : Nat) : Nat × Nat := (pos / 64, pos % 64)

/-- `set(pos)`: `b[major] |= 1 << minor`. -/
def bitset.set (b : bitset) (pos : Nat) : bitset :=
  List.set b (bitsetIndex pos).1
    ((b.getD (bitsetIndex pos).1 0) ||| (1 <<< (bitsetIndex pos).2))

/-- `clear(pos)`: `b[major] &^= 1 << minor`; AND NOT is expressed with
the complemented 64-bit mask. -/
def bitset.clear (b : bitset) (pos : Nat) : bitset :=
  List.set b (bitsetIndex pos).1
    ((b.getD (bitsetIndex pos).1 0) &&& ((2 ^ 64 - 1) ^^^ (1 <<< (bitsetIndex pos).2)))

/-- `get(pos)`: `b[major] & (1 << minor) != 0`. -/
def bitset.get (b : bitset) (pos : Nat) : Bool :=
  decide ((b.getD (bitsetIndex pos).1 0) &&& (1 <<< (bitsetIndex pos).2) ≠ 0)

/-- Modelled from the spec: `bitset.equals` is absent from the sources
(only its call sites survive); §4.1 specifies elementwise equality of
the word arrays, which for same-capacity bitsets is word-list
equality. -/
def bitset.equals (b other : bitset) : Bool := b == other

/-- Modelled from the spec: `bitset.hash` is absent from the sources;
§4.1 requires a deterministic hash of the word array that agrees with
`equals`.  Any pure function of the word list qualifies; we use a
simple 64-bit polynomial fold. -/
def bitset.hash (b : bitset) : Nat :=
  b.foldl (fun acc w => (acc * 31 + w) % 2 ^ 64) 0

/-! ### Slice-aliasing model for the bitset

Go bitsets are slices: `set`/`clear` mutate the shared backing array in
place and return the receiver, while `newBitset`/`clone` allocate fresh
arrays.  The heap is the list of allocated word arrays; a bitset value
is an address into it. -/

abbrev BitsetHeap : Type := List bitset

/-- Dereference an allocated bitset. -/
def heapRead (h : BitsetHeap) (r : Nat) : bitset := (h[r]?).getD []

/-- `newBitset(n)` allocates a fresh zeroed array and returns its
address. -/
def heapNew (h : BitsetHeap) (bits : Nat) : BitsetHeap × Nat :=
  (h ++ [newBitset bits], h.length)

/-- `clone` allocates a copy of the dereferenced words. -/
def heapClone (h : BitsetHeap) (r : Nat) : BitsetHeap × Nat :=
  (h ++ [(heapRead h r).clone], h.length)

/-- `set` mutates the receiver's array in place and returns the
receiver. -/
def heapSet (h : BitsetHeap) (r p : Nat) : BitsetHeap × Nat :=
  (h.set r ((heapRead h r).set p), r)

/-- `clear` mutates the receiver's array in place and returns the
receiver. -/
def heapClear (h : BitsetHeap) (r p : Nat) : BitsetHeap × Nat :=
  (h.set r ((heapRead h r).clear p), r)

/-- `get` reads a bit through a reference. -/
def heapGet (h : BitsetHeap) (r p : Nat) : Bool := (heapRead h r).get p

/-! ## Histories and models (model.go)

Operations carry invocation/response timestamps; events are relatively
ordered call/return records matched by id.  A model is a sequential
specification; visualization-only fields (`DescribeOperation`) are
omitted, and the partition functions are `Option`s, `none` standing for
Go's `nil` (substituted by `fillDefault`). -/

structure Operation (I O : Type) where
  clientId : Int
  input : I
  call : Int
  output : O
  ret : Int

/-- EventKind: a call event (`false`) or a return event (`true`). -/
abbrev EventKind := Bool

def CallEvent : EventKind := false

def ReturnEvent : EventKind := true

structure Event (I O : Type) where
  clientId : Int
  kind : EventKind
  value : I ⊕ O
  id : Int

structure Model (S I O : Type) where
  partition : Option (List (Operation I O) → List (List (Operation I O))) := none
  partitionEvent : Option (List (Event I O) → List (List (Event I O))) := none
  init : S
  step : S → I → O → Bool × S
  sEq : S → S → Bool

/-- Fallback partitioner: a single partition with all operations. -/
def noPartition {I O : Type} (history : List (Operation I O)) :
    List (List (Operation I O)) := [history]

/-- Fallback event partitioner: a single partition with all events. -/
def noPartitionEvent {I O : Type} (history : List (Event I O)) :
    List (List (Event I O)) := [history]

/-- The partitioner after `fillDefault`: Go substitutes `noPartition`
for a `nil` `Partition`. -/
def modelPartition {S I O : Type} (m : Model S I O) :
    List (Operation I O) → List (List (Operation I O)) :=
  m.partition.getD noPartition

/-- The event partitioner after `fillDefault`. -/
def modelPartitionEvent {S I O : Type} (m : Model S I O) :
    List (Event I O) → List (List (Event I O)) :=
  m.partitionEvent.getD noPartitionEvent

/-- CheckResult.  Go declares it as a string type; `Unknown`, `Ok` and
`Illegal` are the only values the package ever produces. -/
inductive CheckResult
  | Unknown
  | Ok
  | Illegal
deriving DecidableEq, Repr

/-! ## Entries (checking.go)

An entry is a call or return record with a timestamp.  Entry ids are
dense `[0, n)` by construction (`makeEntries` numbers operations in
input order, `renumber` renumbers event ids densely), so they are
`Nat`s here. -/

/-- Entry kind: call (`false`) or return (`true`). -/
abbrev entryKind := Bool

def callEntry : entryKind := false

def returnEntry : entryKind := true

structure entry (I O : Type) where
  kind : entryKind
  value : I ⊕ O
  id : Nat
  time : Int
  clientId : Int

/-- The `byTime.Less` comparison: timestamps ascending, and on equal
timestamps calls order before returns. -/
def byTimeLess {I O : Type} (a b : entry I O) : Bool :=
  if a.time ≠ b.time then a.time < b.time
  else a.kind == callEntry && b.kind == returnEntry

/-- Sorting relation induced by `byTime.Less`: `a` may appear before
`b` when `Less b a` is false. -/
def byTimeLE {I O : Type} (a b : entry I O) : Prop := byTimeLess b a = false

instance {I O : Type} : DecidableRel (byTimeLE (I := I) (O := O)) := fun _ _ =>
  decEq _ _

/-- Rank function witnessing that `byTime.Less` is the strict
lexicographic order on (time, kind). -/
def entryRank {I O : Type} (e : entry I O) : Int :=
  2 * e.time + (cond e.kind 1 0)

instance {I O : Type} : IsTotal (entry I O) byTimeLE :=
  ⟨fun a b => by
    have hrank : ∀ x y : entry I O, byTimeLE x y ↔ entryRank x ≤ entryRank y := by
      intro x y
      unfold byTimeLE
      rw [← Bool.not_eq_true, ← not_lt]
      refine not_congr ?_
      unfold byTimeLess entryRank
      by_cases ht : y.time = x.time
      all_goals rcases hy : y.kind <;> rcases hx : x.kind <;>
        simp [ht, hy, hx, callEntry, returnEntry] <;> omega
    rw [hrank, hrank]
    omega⟩

instance {I O : Type} : IsTrans (entry I O) byTimeLE :=
  ⟨fun a b c hab hbc => by
    have hrank : ∀ x y : entry I O, byTimeLE x y ↔ entryRank x ≤ entryRank y := by
      intro x y
      unfold byTimeLE
      rw [← Bool.not_eq_true, ← not_lt]
      refine not_congr ?_
      unfold byTimeLess entryRank
      by_cases ht : y.time = x.time
      all_goals rcases hy : y.kind <;> rcases hx : x.kind <;>
        simp [ht, hy, hx, callEntry, returnEntry] <;> omega
    rw [hrank] at hab hbc ⊢
    omega⟩

/-- The interleaved call/return entries of an operation history, in
input order, numbering operations `0, 1, 2, …` (the loop body of
`makeEntries` before the sort). -/
def opEntries {I O : Type} (history : List (Operation I O)) : List (entry I O) :=
  history.enum.flatMap fun p =>
    [⟨callEntry, Sum.inl p.2.input, p.1, p.2.call, p.2.clientId⟩,
     ⟨returnEntry, Sum.inr p.2.output, p.1, p.2.ret, p.2.clientId⟩]

/-- `makeEntries`: build the interleaved entries and sort them by
`byTime.Less` (Go calls the standard library's comparison sort; any
sort correct for the comparison realizes it). -/
def makeEntries {I O : Type} (history : List (Operation I O)) : List (entry I O) :=
  List.insertionSort byTimeLE (opEntries history)

/-- Witness operation for the normalization claims: call and return at
the same timestamp. -/
def tieOp : Operation Nat Nat := ⟨0, 1, 0, 2, 0⟩

/-! ## Event renumbering and conversion (checking.go) -/

/-- Loop body of `renumber`: `m` is the Go `map[int]int` as an
association list, `idc` the next dense id. -/
def renumberAux {I O : Type} (m : List (Int × Nat)) (idc : Nat) :
    List (Event I O) → List (Event I O)
  | [] => []
  | v :: rest =>
    match m.lookup v.id with
    | some r => ⟨v.clientId, v.kind, v.value, (r : Int)⟩ :: renumberAux m idc rest
    | none =>
        ⟨v.clientId, v.kind, v.value, (idc : Int)⟩ ::
          renumberAux ((v.id, idc) :: m) (idc + 1) rest

/-- `renumber`: ids are replaced by dense ids assigned in order of
first appearance; all other fields are kept. -/
def renumber {I O : Type} (events : List (Event I O)) : List (Event I O) :=
  renumberAux [] 0 events

/-- `convertEntries`: the event's position is its synthetic timestamp;
the (renumbered, hence nonnegative) id becomes the entry id. -/
def convertEntries {I O : Type} (events : List (Event I O)) : List (entry I O) :=
  events.enum.map fun p =>
    ⟨if p.2.kind == ReturnEvent then returnEntry else callEntry,
      p.2.value, p.2.id.toNat, (p.1 : Int), p.2.clientId⟩

/-- Specification helper (C7's wording): the distinct values of a list
in order of first appearance, extending an accumulator. -/
def firstAppsFrom (acc : List Int) (xs : List Int) : List Int :=
  xs.foldl (fun a v => if v ∈ a then a else a ++ [v]) acc

/-- Specification helper: the distinct original event ids in order of
first appearance. -/
def firstAppearances {I O : Type} (events : List (Event I O)) : List Int :=
  firstAppsFrom [] (events.map (fun e => e.id))

/-- Witness events for C7: one operation in event form with sparse
original id 42. -/
def wEvents : List (Event Nat Nat) :=
  [⟨7, CallEvent, Sum.inl 5, 42⟩, ⟨7, ReturnEvent, Sum.inr 6, 42⟩]

/-! ## Pointer model of the history ribbon (checking.go)

Nodes live in a store addressed by naturals; `none` is Go's `nil`
pointer.  `lift`/`unlift` run the Go statements in order, each reading
the pointers from the store as it stands when that statement runs; a
nil dereference yields `none` (Go would panic). -/

structure PNode (V : Type) where
  value : V
  matchNode : Option Nat
  id : Int
  next : Option Nat
  prev : Option Nat

/-- The node store: Go heap addresses to node records. -/
def NodeStore (V : Type) : Type := Nat → PNode V

/-- Write the `next` field of node `i`. -/
def setNext {V : Type} (s : NodeStore V) (i : Nat) (pt : Option Nat) : NodeStore V :=
  Function.update s i { s i with next := pt }

/-- Write the `prev` field of node `i`. -/
def setPrev {V : Type} (s : NodeStore V) (i : Nat) (pt : Option Nat) : NodeStore V :=
  Function.update s i { s i with prev := pt }

/-- `lift`: splice the call `c` out of the list, then splice its
matching return out; the return may be at the tail (`next` nil). -/
def lift? {V : Type} (s : NodeStore V) (c : Nat) : Option (NodeStore V) :=
  match (s c).prev with
  | none => none
  | some p =>
    -- entry.prev.next = entry.next
    let s1 := setNext s p ((s c).next)
    match (s1 c).next with
    | none => none
    | some a =>
      -- entry.next.prev = entry.prev
      let s2 := setPrev s1 a ((s1 c).prev)
      match (s2 c).matchNode with
      | none => none
      | some m =>
        match (s2 m).prev with
        | none => none
        | some q =>
          -- match.prev.next = match.next
          let s3 := setNext s2 q ((s2 m).next)
          match (s3 m).next with
          | some r =>
            -- match.next.prev = match.prev
            some (setPrev s3 r ((s3 m).prev))
          | none => some s3

/-- `unlift`: reinsert the matching return, then the call, using the
nodes' own (stale but, under stack discipline, still valid)
pointers. -/
def unlift? {V : Type} (s : NodeStore V) (c : Nat) : Option (NodeStore V) :=
  match (s c).matchNode with
  | none => none
  | some m =>
    match (s m).prev with
    | none => none
    | some q =>
      -- match.prev.next = match
      let s1 := setNext s q (some m)
      let s2 := match (s1 m).next with
        | some r =>
          -- match.next.prev = match
          setPrev s1 r (some m)
        | none => s1
      match (s2 c).prev with
      | none => none
      | some p =>
        -- entry.prev.next = entry
        let s3 := setNext s2 p (some c)
        match (s3 c).next with
        | none => none
        | some a =>
          -- entry.next.prev = entry
          some (setPrev s3 a (some c))

/-- Doubly-linked adjacency in the store. -/
def nodeAdj {V : Type} (s : NodeStore V) (x y : Nat) : Prop :=
  (s x).next = some y ∧ (s y).prev = some x

/-- The store represents the given address list as a doubly-linked list
(distinct nodes, consistent next/prev pointers, nil at both ends). -/
def chain {V : Type} (s : NodeStore V) (l : List Nat) : Prop :=
  l.Nodup ∧ l.Chain' (nodeAdj s) ∧
  (∀ x ∈ l.head?, (s x).prev = none) ∧
  (∀ x ∈ l.getLast?, (s x).next = none)

/-- Witness store for C9: head sentinel (0), one call (1) whose return
(2) sits at the tail of the ribbon. -/
def wStore : NodeStore Nat := fun i =>
  match i with
  | 0 => ⟨0, none, -1, some 1, none⟩
  | 1 => ⟨10, some 2, 0, some 2, some 0⟩
  | 2 => ⟨20, none, 0, none, some 1⟩
  | _ => ⟨0, none, 0, none, none⟩

/-! ## Partition driver (checkParallel, checking.go)

The driver runs one worker per partition and aggregates verdicts in a
select loop.  The loop is embedded as a function of the sequence of
events it observes: `result b` is a worker verdict received from the
results channel, `timeoutFire` the expiry of the timeout channel.  The
kill flag is only ever stored as the loop breaks, so every verdict
received inside the loop is genuine (not a cancellation artifact); the
`received` field records those verdicts (ghost data for the
statements).  An exhausted schedule — possible only if a worker never
reported, which cannot happen — yields `none`. -/

inductive DriverEvent
  | result (ok : Bool)
  | timeoutFire
deriving DecidableEq, Repr

structure DriverExit where
  ok : Bool
  timedOut : Bool
  count : Nat
  received : List Bool
deriving DecidableEq, Repr

/-- The select loop of `checkParallel`, with state `(ok, count)` and
exits as in the Go code: early stop on a rejection in non-verbose mode,
normal exit when all `n` workers reported, timeout exit. -/
def driverLoop (computeInfo : Bool) (n : Nat) :
    List DriverEvent → Bool → Nat → List Bool → Option DriverExit
  | [], _, _, _ => none
  | .result b :: rest, ok, count, recv =>
      let count' := count + 1
      let ok' := ok && b
      let recv' := recv ++ [b]
      if !ok' && !computeInfo then some ⟨ok', false, count', recv'⟩
      else if count' ≥ n then some ⟨ok', false, count', recv'⟩
      else driverLoop computeInfo n rest ok' count' recv'
  | .timeoutFire :: _, ok, count, recv => some ⟨ok, true, count, recv⟩

/-- The overall result computed after the loop: `Illegal` when some
conjunct failed, else `Unknown` on timeout, else `Ok`. -/
def checkParallelResult (computeInfo : Bool) (n : Nat)
    (sched : List DriverEvent) : Option CheckResult :=
  (driverLoop computeInfo n sched true 0 []).map fun e =>
    if !e.ok then CheckResult.Illegal
    else if e.timedOut then CheckResult.Unknown
    else CheckResult.Ok

/-! ## Memoization cache (checkSingle, checking.go)

Go's `map[uint64][]cacheEntry[S]` is embedded as a function from hash
values to buckets. -/

structure cacheEntry (S : Type) where
  linearized : bitset
  state : S

def Cache (S : Type) : Type := Nat → List (cacheEntry S)

def emptyCache (S : Type) : Cache S := fun _ => []

/-- `cacheContains`: scan the bucket at the bitset's hash; an entry
matches when its bitset is elementwise equal and its state equal under
the model's `Equals`. -/
def cacheContains {S : Type} (sEq : S → S → Bool) (cache : Cache S)
    (e : cacheEntry S) : Bool :=
  (cache e.linearized.hash).any fun elem =>
    e.linearized.equals elem.linearized && sEq e.state elem.state

/-- `cache[hash] = append(cache[hash], entry)`. -/
def cacheInsert {S : Type} (cache : Cache S) (h : Nat) (e : cacheEntry S) : Cache S :=
  Function.update cache h (cache h ++ [e])

/-- Invariant maintained by `checkSingle`: every entry sits in the
bucket of its own bitset hash. -/
def wellBucketed {S : Type} (cache : Cache S) : Prop :=
  ∀ (h : Nat) (e : cacheEntry S), e ∈ cache h → e.linearized.hash = h

/-- Witness bitset and cache for C6. -/
def wB : bitset := (newBitset 1).set 0

/-- Witness cache: one entry, inserted at its own hash. -/
def wCache : Cache Nat := cacheInsert (emptyCache Nat) wB.hash ⟨wB, 5⟩

/-! ## Single-partition checker (checkSingle, checking.go)

The worker's loop becomes a small-step function on an explicit search
state.  The ribbon is represented functionally: the live list is
always the subsequence of entries whose ids are not in the `linearized`
bitset (the §4.2 invariant), the scanning pointer `entry` is the index
of a live entry (`none` is the nil pointer), `headEntry.next` is the
first live index, and `node.next` from a live node is the next live
index.  The calls stack keeps the most recent frame first (Go appends
frames at the slice's tail).  A nil dereference or a failed payload
type assertion is `stuck` (Go would panic); both are unreachable on
histories built by `makeEntries`/`convertEntries`. -/

structure callsEntry (S : Type) where
  entryIdx : Nat
  state : S

structure SearchState (S : Type) where
  pos : Option Nat
  linearized : bitset
  state : S
  cache : Cache S
  calls : List (callsEntry S)
  longest : List (Option (List Nat))

/-- Position of the first entry satisfying a predicate, carrying the
absolute index. -/
def findPos {I O : Type} (pred : entry I O → Bool) :
    List (entry I O) → Nat → Option Nat
  | [], _ => none
  | e :: rest, j => if pred e then some j else findPos pred rest (j + 1)

/-- The `match` pointer set up by `makeLinkedEntries`: scanning right
to left, each return is recorded in a map keyed by id and each call
reads the map, so a call's match is the nearest matching return after
it — nil when there is none (the node is then treated as a return by
the search), and nil for return nodes. -/
def matchOf {I O : Type} (es : List (entry I O)) (i : Nat) : Option Nat :=
  match es[i]? with
  | none => none
  | some e =>
    if e.kind == callEntry then
      findPos (fun e' => e'.kind == returnEntry && e'.id == e.id) (es.drop (i + 1))
        (i + 1)
    else none

/-- Scan a suffix of the entries for the first live one, carrying its
absolute index. -/
def firstLiveAux {I O : Type} (lin : bitset) : List (entry I O) → Nat → Option Nat
  | [], _ => none
  | e :: rest, i => if lin.get e.id then firstLiveAux lin rest (i + 1) else some i

/-- First live entry at index `i` or later (`headEntry.next` when
`i = 0`; `node.next` of the live node at `i - 1` otherwise). -/
def firstLiveFrom {I O : Type} (es : List (entry I O)) (lin : bitset) (i : Nat) :
    Option Nat :=
  firstLiveAux lin (es.drop i) i

/-- Id carried by a stack frame's call node. -/
def frameId {S I O : Type} (es : List (entry I O)) (f : callsEntry S) : Nat :=
  ((es[f.entryIdx]?).map (fun e => e.id)).getD 0

/-- Ids of the calls stack, oldest first (Go's `seq`). -/
def callsSeq {S I O : Type} (es : List (entry I O)) (calls : List (callsEntry S)) :
    List Nat :=
  calls.reverse.map (frameId es)

/-- The `longest` update on backtracking: every frame whose recorded
sequence is missing or shorter than the current stack gets a reference
to the current stack's id sequence. -/
def updateLongest {S I O : Type} (es : List (entry I O)) (calls : List (callsEntry S))
    (longest : List (Option (List Nat))) : List (Option (List Nat)) :=
  let callsLen := calls.length
  let seq := callsSeq es calls
  calls.reverse.foldl (fun lg f =>
    let vid := ((es[f.entryIdx]?).map (fun e => e.id)).getD 0
    match lg[vid]? with
    | some none => lg.set vid (some seq)
    | some (some s) => if callsLen > s.length then lg.set vid (some seq) else lg
    | none => lg) longest

/-- Loop exit when the live list is empty: `calls` is the complete
linearization and every `longest[i]` is pointed at it. -/
def finishTrue {S I O : Type} (es : List (entry I O)) (st : SearchState S) :
    SearchState S :=
  { st with longest :=
      List.replicate (es.length / 2) (some (callsSeq es st.calls)) }

inductive StepRes (S : Type)
  | next (st : SearchState S)
  | done (accepted : Bool) (st : SearchState S)
  | stuck

/-- One iteration of the `checkSingle` loop body (after the loop
condition `headEntry.next != nil` and the kill check). -/
def checkStep {S I O : Type} (m : Model S I O) (es : List (entry I O))
    (verbose : Bool) (st : SearchState S) : StepRes S :=
  match firstLiveFrom es st.linearized 0 with
  | none => StepRes.done true (finishTrue es st)
  | some _ =>
    match st.pos with
    | none => StepRes.stuck
    | some p =>
      match es[p]? with
      | none => StepRes.stuck
      | some e =>
        match matchOf es p with
        | some mi =>
          -- a call whose match is present: try to extend the prefix
          match es[mi]? with
          | none => StepRes.stuck
          | some matching =>
            match e.value, matching.value with
            | Sum.inl input, Sum.inr output =>
              let r := m.step st.state input output
              if r.1 then
                let newLinearized := (st.linearized.clone).set e.id
                let newCacheEntry : cacheEntry S := ⟨newLinearized, r.2⟩
                if !cacheContains m.sEq st.cache newCacheEntry then
                  let hash := newLinearized.hash
                  StepRes.next
                    { pos := firstLiveFrom es (st.linearized.set e.id) 0,
                      linearized := st.linearized.set e.id,
                      state := r.2,
                      cache := cacheInsert st.cache hash newCacheEntry,
                      calls := ⟨p, st.state⟩ :: st.calls,
                      longest := st.longest }
                else
                  StepRes.next { st with pos := firstLiveFrom es st.linearized (p + 1) }
              else
                StepRes.next { st with pos := firstLiveFrom es st.linearized (p + 1) }
            | _, _ => StepRes.stuck
        | none =>
          -- a return (or an unmatched call node): backtrack
          match st.calls with
          | [] => StepRes.done false st
          | top :: rest =>
            match es[top.entryIdx]? with
            | none => StepRes.stuck
            | some topEntry =>
              let longest' :=
                if verbose then updateLongest es st.calls st.longest else st.longest
              StepRes.next
                { pos :=
                    firstLiveFrom es (st.linearized.clear topEntry.id) (top.entryIdx + 1),
                  linearized := st.linearized.clear topEntry.id,
                  state := top.state,
                  cache := st.cache,
                  calls := rest,
                  longest := longest' }

inductive RunResult (S : Type)
  | done (accepted : Bool) (st : SearchState S)
  | killed (st : SearchState S)
  | stuck

/-- The `checkSingle` loop: fuel exhaustion models the cooperative
kill flag, observed after the loop condition but before the body; a
killed run returns `(false, longest)` like the Go worker. -/
def runCheck {S I O : Type} (m : Model S I O) (es : List (entry I O))
    (verbose : Bool) : Nat → SearchState S → RunResult S
  | 0, st =>
    match firstLiveFrom es st.linearized 0 with
    | none => RunResult.done true (finishTrue es st)
    | some _ => RunResult.killed st
  | fuel + 1, st =>
    match checkStep m es verbose st with
    | StepRes.next st' => runCheck m es verbose fuel st'
    | StepRes.done acc st' => RunResult.done acc st'
    | StepRes.stuck => RunResult.stuck

/-- Initial search state of a worker. -/
def initState {S I O : Type} (m : Model S I O) (es : List (entry I O)) :
    SearchState S :=
  let n := es.length / 2
  { pos := firstLiveFrom es (newBitset n) 0,
    linearized := newBitset n,
    state := m.init,
    cache := emptyCache S,
    calls := [],
    longest := List.replicate n none }

/-- Sequential denotation of `checkParallel` with no timeout: every
worker runs to completion, the result is `Ok` iff every partition
accepted (`Illegal` otherwise; early stop in non-verbose mode does not
change this value).  `none` when the fuel does not cover some worker's
full run. -/
def checkPartitionsFuel {S I O : Type} (m : Model S I O)
    (parts : List (List (entry I O))) (verbose : Bool) (fuel : Nat) :
    Option CheckResult :=
  match parts.mapM (fun es =>
    match runCheck m es verbose fuel (initState m es) with
    | RunResult.done acc _ => some acc
    | _ => none) with
  | none => none
  | some accs => some (if accs.all id then CheckResult.Ok else CheckResult.Illegal)

/-- `checkOperations`: partition (default: no partitioning), normalize
each partition with `makeEntries`, run the workers. -/
def checkOperationsFuel {S I O : Type} (m : Model S I O)
    (history : List (Operation I O)) (verbose : Bool) (fuel : Nat) :
    Option CheckResult :=
  checkPartitionsFuel m ((modelPartition m history).map fun sub => makeEntries sub)
    verbose fuel

/-- `checkEvents`: partition, renumber ids densely, convert to entries,
run the workers. -/
def checkEventsFuel {S I O : Type} (m : Model S I O)
    (history : List (Event I O)) (verbose : Bool) (fuel : Nat) :
    Option CheckResult :=
  checkPartitionsFuel m
    ((modelPartitionEvent m history).map fun sub => convertEntries (renumber sub))
    verbose fuel

/-- Register model from the package's test suite: input is
(isWrite, value), output the read value, state the register. -/
def regModel : Model Nat (Bool × Nat) Nat where
  init := 0
  step := fun s i o => if i.1 then (true, i.2) else (o == s, s)
  sEq := fun a b => a == b

/-! ## Well-formed entry sequences and the search invariants

`WFEntries es n` captures the shape `makeEntries`/`convertEntries`
guarantee: `2n` entries, ids dense in `[0, n)`, one call and one return
per id with the call first, calls carrying inputs and returns outputs. -/

structure WFEntries {I O : Type} (es : List (entry I O)) (n : Nat) : Prop where
  len : es.length = 2 * n
  idlt : ∀ j : Fin es.length, (es.get j).id < n
  uniq : ∀ j k : Fin es.length, (es.get j).kind = (es.get k).kind →
    (es.get j).id = (es.get k).id → j = k
  exCall : ∀ i : Fin n, ∃ j : Fin es.length,
    (es.get j).kind = callEntry ∧ (es.get j).id = i
  exRet : ∀ i : Fin n, ∃ j : Fin es.length,
    (es.get j).kind = returnEntry ∧ (es.get j).id = i
  callBeforeRet : ∀ j k : Fin es.length, (es.get j).kind = callEntry →
    (es.get k).kind = returnEntry → (es.get j).id = (es.get k).id → (j : Nat) < k
  callVal : ∀ j : Fin es.length, (es.get j).kind = callEntry →
    (es.get j).value.isLeft = true
  retVal : ∀ j : Fin es.length, (es.get j).kind = returnEntry →
    (es.get j).value.isRight = true

/-- Position of the (unique, under `WFEntries`) call entry with id `i`. -/
def callPos {I O : Type} (es : List (entry I O)) (i : Nat) : Option Nat :=
  findPos (fun e => e.kind == callEntry && e.id == i) es 0

/-- Position of the (unique, under `WFEntries`) return entry with id `i`. -/
def retPos {I O : Type} (es : List (entry I O)) (i : Nat) : Option Nat :=
  findPos (fun e => e.kind == returnEntry && e.id == i) es 0

/-- Id stored at a position (`0` out of range). -/
def entryIdAt {I O : Type} (es : List (entry I O)) (c : Nat) : Nat :=
  ((es[c]?).map (fun e => e.id)).getD 0

/-- The model step the search performs when scanning position `p`: pair
the call's input with its match's output. -/
def stepAtPos {S I O : Type} (m : Model S I O) (es : List (entry I O))
    (s : S) (p : Nat) : Option (Bool × S) :=
  match matchOf es p with
  | none => none
  | some q =>
    match es[p]?, es[q]? with
    | some ce, some re =>
      match ce.value, re.value with
      | Sum.inl input, Sum.inr output => some (m.step s input output)
      | _, _ => none
    | _, _ => none

/-- Run a sequence of operation ids through the model from `s`,
resolving each id to its call entry and matching return: the acceptance
relation behind `calls`/`longest` sequences. -/
def idSeqRun {S I O : Type} (m : Model S I O) (es : List (entry I O)) :
    S → List Nat → Option S
  | s, [] => some s
  | s, i :: rest =>
    match callPos es i with
    | none => none
    | some c =>
      match stepAtPos m es s c with
      | some (true, s2) => idSeqRun m es s2 rest
      | _ => none

/-- The stack replays correctly: frames oldest first, each frame's
saved state is the state before its step, each step accepted. -/
def framesOk {S I O : Type} (m : Model S I O) (es : List (entry I O)) :
    S → List (callsEntry S) → S → Prop
  | s0, [], sfin => sfin = s0
  | s0, f :: rest, sfin => f.state = s0 ∧
      ∃ s1, stepAtPos m es s0 f.entryIdx = some (true, s1) ∧ framesOk m es s1 rest sfin

/-- Bitset value determined by a calls stack: ids of the stack set in
order, oldest first, over a fresh allocation. -/
def stackBits {S I O : Type} (es : List (entry I O)) (calls : List (callsEntry S)) :
    bitset :=
  (callsSeq es calls).foldl bitset.set (newBitset (es.length / 2))

/-- The scan pointer's invariant: a live position whose earlier live
entries are all calls, or no live entry at all. -/
def scanOk {I O : Type} (es : List (entry I O)) (L : bitset) : Option Nat → Prop
  | none => ∀ j, ∀ hj : j < es.length, L.get (es.get ⟨j, hj⟩).id = true
  | some p => ∃ hp : p < es.length, L.get (es.get ⟨p, hp⟩).id = false ∧
      ∀ j, j < p → ∀ hj : j < es.length, L.get (es.get ⟨j, hj⟩).id = false →
        (es.get ⟨j, hj⟩).kind = callEntry

/-- Master invariant of the `checkSingle` loop state. -/
structure Inv {S I O : Type} (m : Model S I O) (es : List (entry I O))
    (st : SearchState S) : Prop where
  linVal : st.linearized = stackBits es st.calls
  posOk : scanOk es st.linearized st.pos
  framesWF : ∀ f ∈ st.calls, ∃ hf : f.entryIdx < es.length,
    (es.get ⟨f.entryIdx, hf⟩).kind = callEntry
  framesNodup : (st.calls.map (frameId es)).Nodup
  framesRT : ∀ k, ∀ hk : k < st.calls.length, ∀ j,
    j < (st.calls.get ⟨k, hk⟩).entryIdx → ∀ hj : j < es.length,
    (es.get ⟨j, hj⟩).id ∉ (st.calls.drop (k + 1)).map (frameId es) →
    (es.get ⟨j, hj⟩).kind = callEntry
  replay : framesOk m es m.init st.calls.reverse st.state
  cacheWB : wellBucketed st.cache
  longestLen : st.longest.length = es.length / 2
  longestOk : ∀ i seq, st.longest[i]? = some (some seq) →
    i ∈ seq ∧ ∃ s2, idSeqRun m es m.init seq = some s2

/-- A position the scan would try from configuration `L`: a live call
all of whose earlier live entries are calls. -/
def candidate {I O : Type} (es : List (entry I O)) (L : bitset) (c : Nat) : Prop :=
  ∃ hc : c < es.length, L.get (es.get ⟨c, hc⟩).id = false ∧
    (es.get ⟨c, hc⟩).kind = callEntry ∧
    ∀ j, j < c → ∀ hj : j < es.length, L.get (es.get ⟨j, hj⟩).id = false →
      (es.get ⟨j, hj⟩).kind = callEntry

/-- Candidate `c` of configuration `(L, s)` is closed: if its step is
accepted, the extended configuration sits in the cache. -/
def extClosed {S I O : Type} (m : Model S I O) (es : List (entry I O))
    (cache : Cache S) (L : bitset) (s : S) (c : Nat) : Prop :=
  ∀ s2, stepAtPos m es s c = some (true, s2) →
    ∃ (h : Nat) (elem : cacheEntry S), elem ∈ cache h ∧
      elem.linearized = L.set (entryIdAt es c) ∧ elem.state = s2

/-- State of the configuration just above frame decomposition
`pre ++ f :: rest`: the saved state of the frame directly above `f`,
or the running state when `f` is the top. -/
def aboveState {S : Type} (top : S) (pre : List (callsEntry S)) : S :=
  match pre.getLast? with
  | none => top
  | some g => g.state

/-- Completeness invariant: candidates behind each frontier are closed,
every stack configuration above the root is cached, every cached
configuration is on the stack path or fully closed, and no cached
configuration is complete. -/
structure CompInv {S I O : Type} (m : Model S I O) (es : List (entry I O))
    (st : SearchState S) : Prop where
  topFrontier : ∀ c, candidate es st.linearized c →
    (∀ p, st.pos = some p → c < p) →
    extClosed m es st.cache st.linearized st.state c
  stackFrontier : ∀ pre f rest, st.calls = pre ++ f :: rest → ∀ c,
    candidate es (stackBits es rest) c → c < f.entryIdx →
    extClosed m es st.cache (stackBits es rest) f.state c
  onPath : ∀ pre f rest, st.calls = pre ++ f :: rest →
    ∃ (h : Nat) (elem : cacheEntry S), elem ∈ st.cache h ∧
      elem.linearized = stackBits es (f :: rest) ∧
      elem.state = aboveState st.state pre
  cachedClosed : ∀ h elem, elem ∈ st.cache h →
    (∃ pre f rest, st.calls = pre ++ f :: rest ∧
      elem.linearized = stackBits es (f :: rest) ∧
      elem.state = aboveState st.state pre) ∨
    (∀ c, candidate es elem.linearized c →
      extClosed m es st.cache elem.linearized elem.state c)
  notFull : ∀ h elem, elem ∈ st.cache h →
    (∃ j, ∃ hj : j < es.length, elem.linearized.get (es.get ⟨j, hj⟩).id = false) ∨
    firstLiveFrom es st.linearized 0 = none

/-- Real-time consistency of an id order against the entry positions:
whenever `a`'s return sits before `b`'s call on the ribbon, `a` is
ordered before `b`. -/
def rtConsistent {I O : Type} (es : List (entry I O)) (order : List Nat) : Prop :=
  ∀ a b ra cb, retPos es a = some ra → callPos es b = some cb → ra < cb →
    order.indexOf a < order.indexOf b

/-- Linearizability at the entry level: a real-time-consistent
permutation of the ids accepted by the model from `init`. -/
def LinearizableEntries {S I O : Type} (m : Model S I O) (es : List (entry I O))
    (n : Nat) : Prop :=
  ∃ order : List Nat, order.Perm (List.range n) ∧ rtConsistent es order ∧
    ∃ s2, idSeqRun m es m.init order = some s2

/-- Modelled from the spec: run the operations of a history in a given
order, stepping the model from a state and checking every step accepts. -/
def opsRun {S I O : Type} (m : Model S I O) (history : List (Operation I O)) :
    S → List Nat → Option S
  | s, [] => some s
  | s, a :: rest =>
    match history[a]? with
    | none => none
    | some op =>
      let r := m.step s op.input op.output
      if r.1 then opsRun m history r.2 rest else none

/-- Modelled from the spec: real-time precedence over operations —
`a` precedes `b` when `a`'s return timestamp is strictly before `b`'s
call timestamp (closed intervals), and the order must respect it. -/
def rtConsistentOps {I O : Type} (history : List (Operation I O))
    (order : List Nat) : Prop :=
  ∀ a b, ∀ ha : a < history.length, ∀ hb : b < history.length,
    (history.get ⟨a, ha⟩).ret < (history.get ⟨b, hb⟩).call →
    order.indexOf a < order.indexOf b

/-- Modelled from the spec: a total order of the operations, consistent
with real-time precedence, along which the model accepts every
operation starting from `init`. -/
def LinearizableOps {S I O : Type} (m : Model S I O)
    (history : List (Operation I O)) : Prop :=
  ∃ order : List Nat, order.Perm (List.range history.length) ∧
    rtConsistentOps history order ∧ ∃ s2, opsRun m history m.init order = some s2

/-- Digit of the termination measure for the scan pointer: `none` (ran
off the ribbon) dominates every position. -/
def scanDigit {I O : Type} (es : List (entry I O)) (pos : Option Nat) : Nat :=
  match pos with
  | none => es.length + 2
  | some p => p + 1

/-- Digits of the termination measure: stack frame positions oldest
first, then the scan digit. -/
def digitsOf {S I O : Type} (es : List (entry I O)) (st : SearchState S) :
    List Nat :=
  (st.calls.reverse.map (fun f => f.entryIdx + 1)) ++ [scanDigit es st.pos]

/-- Horner value of a digit list. -/
def hornerVal (B : Nat) (ds : List Nat) : Nat :=
  ds.foldl (fun acc d => acc * B + d) 0

/-- Digit list padded to width `M` (missing digits count as zero at the
least significant end). -/
def padVal (B M : Nat) (ds : List Nat) : Nat :=
  hornerVal B ds * B ^ (M - ds.length)

/-- Strictly increasing measure of the search loop. -/
def measureOf {S I O : Type} (es : List (entry I O)) (st : SearchState S) : Nat :=
  padVal (es.length + 3) (es.length / 2 + 2) (digitsOf es st)

/-- A model accepting every step, used to probe malformed histories:
whatever it returns comes from history structure alone. -/
def acceptAll : Model Nat Nat Nat where
  init := 0
  step := fun s _ _ => (true, s)
  sEq := fun a b => a == b

/-- All words of a bitset fit in 64 bits; holds for every bitset the
search builds and makes bitset values canonical in their bit content. -/
def wordsNorm (b : bitset) : Prop := ∀ w ∈ b, w < 2 ^ 64

/-- One write of the `longest` update fold. -/
def longestUpd {S I O : Type} (es : List (entry I O)) (seq : List Nat) (cl : Nat)
    (lg : List (Option (List Nat))) (f : callsEntry S) : List (Option (List Nat)) :=
  let vid := frameId es f
  match lg[vid]? with
  | some none => lg.set vid (some seq)
  | some (some s) => if cl > s.length then lg.set vid (some seq) else lg
  | none => lg

/-- Witness operation and entry list for the verbose-run claim. -/
def wOp4 : Operation (Bool × Nat) Nat := ⟨0, (false, 0), 0, 0, 10⟩

def wEs4 : List (entry (Bool × Nat) Nat) := makeEntries [wOp4]

def wRun4 : RunResult Nat := runCheck regModel wEs4 true 4 (initState regModel wEs4)

/-- The call entry `makeEntries` writes for operation `id`. -/
def callEntryOf {I O : Type} (id : Nat) (op : Operation I O) : entry I O :=
  ⟨callEntry, Sum.inl op.input, id, op.call, op.clientId⟩

/-- The return entry `makeEntries` writes for operation `id`. -/
def retEntryOf {I O : Type} (id : Nat) (op : Operation I O) : entry I O :=
  ⟨returnEntry, Sum.inr op.output, id, op.ret, op.clientId⟩

/-- One loop iteration of `makeEntries` (both appended entries). -/
def opEntryPair {I O : Type} (p : Nat × Operation I O) : List (entry I O) :=
  [callEntryOf p.1 p.2, retEntryOf p.1 p.2]

theorem getD_set_self (l : List Nat) (i w : Nat) (h : i < l.length) :
    (l.set i w).getD i 0 = w := by
  simp [List.getD_eq_getElem?_getD, List.getElem?_set_self h]

theorem getD_set_ne (l : List Nat) (w : Nat) {i j : Nat} (h : i ≠ j) :
    (l.set i w).getD j 0 = l.getD j 0 := by
  simp [List.getD_eq_getElem?_getD, List.getElem?_set_ne h]

theorem getD_oob (l : List Nat) {i : Nat} (h : l.length ≤ i) : l.getD i 0 = 0 := by
  simp [List.getD_eq_getElem?_getD, List.getElem?_eq_none h]

theorem bitset.get_eq_testBit (b : bitset) (p : Nat) :
    b.get p = (b.getD (p / 64) 0).testBit (p % 64) := by
  unfold bitset.get bitsetIndex
  rw [Nat.shiftLeft_eq, one_mul]
  have hand := Nat.and_two_pow (b.getD (p / 64) 0) (p % 64)
  rcases h : (b.getD (p / 64) 0).testBit (p % 64) with _ | _ <;> rw [h] at hand
  · simp only [Bool.toNat_false, Nat.zero_mul] at hand
    rw [hand]
    simp
  · simp only [Bool.toNat_true, Nat.one_mul] at hand
    rw [hand]
    have h2 : (0 : Nat) < 2 ^ (p % 64) := Nat.pow_pos (by omega)
    simp [h2.ne']

theorem bitset.length_set (b : bitset) (p : Nat) :
    (b.set p).length = b.length := List.length_set ..

theorem bitset.length_clear (b : bitset) (p : Nat) :
    (b.clear p).length = b.length := List.length_set ..

theorem bitset.length_newBitset (n : Nat) :
    (newBitset n).length = n / 64 + (if n % 64 ≠ 0 then 1 else 0) := by
  unfold newBitset; simp

theorem getD_replicate_zero (m i : Nat) : (List.replicate m (0 : Nat)).getD i 0 = 0 := by
  rcases Nat.lt_or_ge i m with h | h
  · rw [List.getD_eq_getElem?_getD, List.getElem?_replicate]
    simp [h]
  · exact getD_oob _ (by simpa using h)

theorem bitset.get_newBitset (n p : Nat) : (newBitset n).get p = false := by
  rw [bitset.get_eq_testBit]
  rw [show newBitset n = List.replicate (n / 64 + if n % 64 ≠ 0 then 1 else 0) 0 from rfl]
  rw [getD_replicate_zero]
  simp

theorem bitset.get_set_self (b : bitset) (p : Nat) (h : p / 64 < b.length) :
    (b.set p).get p = true := by
  rw [bitset.get_eq_testBit]
  unfold bitset.set bitsetIndex
  simp only [getD_set_self _ _ _ h, Nat.shiftLeft_eq, one_mul]
  simp [Nat.testBit_lor, Nat.testBit_two_pow_self]

theorem bitset.get_set_ne (b : bitset) (p q : Nat) (hpq : p ≠ q) :
    (b.set p).get q = b.get q := by
  rw [bitset.get_eq_testBit, bitset.get_eq_testBit]
  unfold bitset.set bitsetIndex
  rcases eq_or_ne (p / 64) (q / 64) with hw | hw
  · have hm : p % 64 ≠ q % 64 := fun hmm => hpq (by
      have := Nat.div_add_mod p 64
      have := Nat.div_add_mod q 64
      omega)
    rcases Nat.lt_or_ge (p / 64) b.length with hlen | hlen
    · rw [← hw, getD_set_self _ _ _ hlen]
      simp [Nat.shiftLeft_eq, Nat.testBit_lor, Nat.testBit_two_pow, hm]
    · simp only [List.set_eq_of_length_le hlen]
  · rw [getD_set_ne _ _ hw]

theorem bitset.get_clear_self (b : bitset) (p : Nat) :
    (b.clear p).get p = false := by
  rw [bitset.get_eq_testBit]
  unfold bitset.clear bitsetIndex
  have h64 : p % 64 < 64 := Nat.mod_lt _ (by omega)
  rcases Nat.lt_or_ge (p / 64) b.length with hlen | hlen
  · rw [getD_set_self _ _ _ hlen, Nat.shiftLeft_eq, one_mul, Nat.testBit_land,
      Nat.testBit_xor, Nat.testBit_two_pow_sub_one, Nat.testBit_two_pow_self]
    simp [h64]
  · rw [List.set_eq_of_length_le hlen, getD_oob _ hlen]
    simp

theorem bitset.get_clear_ne (b : bitset) (p q : Nat) (hpq : p ≠ q) :
    (b.clear p).get q = b.get q := by
  rw [bitset.get_eq_testBit, bitset.get_eq_testBit]
  unfold bitset.clear bitsetIndex
  rcases eq_or_ne (p / 64) (q / 64) with hw | hw
  · have hm : p % 64 ≠ q % 64 := fun hmm => hpq (by
      have := Nat.div_add_mod p 64
      have := Nat.div_add_mod q 64
      omega)
    rcases Nat.lt_or_ge (p / 64) b.length with hlen | hlen
    · rw [← hw, getD_set_self _ _ _ hlen]
      have hq64 : q % 64 < 64 := Nat.mod_lt _ (by omega)
      rw [Nat.shiftLeft_eq, one_mul, Nat.testBit_land, Nat.testBit_xor,
        Nat.testBit_two_pow_sub_one, Nat.testBit_two_pow]
      simp [hm, hq64]
    · simp only [List.set_eq_of_length_le hlen]
  · rw [getD_set_ne _ _ hw]

theorem heapRead_set_self (h : BitsetHeap) (r : Nat) (w : bitset) (hr : r < h.length) :
    heapRead (h.set r w) r = w := by
  unfold heapRead
  rw [List.getElem?_set_self hr]
  rfl

theorem heapRead_set_ne (h : BitsetHeap) {r r' : Nat} (w : bitset) (hne : r ≠ r') :
    heapRead (h.set r w) r' = heapRead h r' := by
  unfold heapRead
  rw [List.getElem?_set_ne hne]

theorem heapRead_append_self (h : BitsetHeap) (w : bitset) :
    heapRead (h ++ [w]) h.length = w := by
  unfold heapRead
  rw [List.getElem?_append_right (Nat.le_refl _)]
  simp

theorem heapRead_append_lt (h : BitsetHeap) (w : bitset) {r : Nat} (hr : r < h.length) :
    heapRead (h ++ [w]) r = heapRead h r := by
  unfold heapRead
  rw [List.getElem?_append_left hr]

theorem heapRead_oob (h : BitsetHeap) {r : Nat} (hr : h.length ≤ r) : heapRead h r = [] := by
  unfold heapRead
  rw [List.getElem?_eq_none hr]
  rfl

/-- C10: `newBitset(n)` allocates `⌈n/64⌉` words; for every position
`p < n`, `get` after `set(p)` reads `true` and `get` after `clear(p)`
reads `false`; `set` and `clear` mutate the receiver's array in place
and return the receiver; and `clone` yields an independent copy, so
mutating the clone leaves the original unchanged and vice versa. -/
theorem newBitset_set_clear_clone_ok (h : BitsetHeap) (n p : Nat) (hp : p < n) :
    (heapRead (heapNew h n).1 (heapNew h n).2 = newBitset n ∧
      (newBitset n).length = (n + 63) / 64) ∧
    (∀ (h' : BitsetHeap) (r : Nat), (heapRead h' r).length = (n + 63) / 64 →
      (heapSet h' r p).2 = r ∧
      (heapClear h' r p).2 = r ∧
      heapGet (heapSet h' r p).1 r p = true ∧
      heapGet (heapClear h' r p).1 r p = false ∧
      heapRead (heapClone h' r).1 (heapClone h' r).2 = heapRead h' r ∧
      (∀ q, heapGet (heapSet (heapClone h' r).1 (heapClone h' r).2 p).1 r q =
        heapGet h' r q) ∧
      (∀ q, heapGet (heapSet (heapClone h' r).1 r p).1 (heapClone h' r).2 q =
        heapGet h' r q)) := by
  have hlenNew : (newBitset n).length = (n + 63) / 64 := by
    rw [bitset.length_newBitset]
    by_cases h0 : n % 64 = 0 <;> simp [h0] <;> omega
  refine ⟨⟨heapRead_append_self h (newBitset n), hlenNew⟩, ?_⟩
  intro h' r hlen
  have hr : r < h'.length := by
    by_contra hge
    rw [heapRead_oob h' (Nat.le_of_not_lt hge)] at hlen
    simp only [List.length_nil] at hlen
    omega
  have hmajor : p / 64 < (heapRead h' r).length := by
    rw [hlen]
    omega
  have hclone : heapRead (heapClone h' r).1 (heapClone h' r).2 = heapRead h' r :=
    heapRead_append_self h' _
  refine ⟨rfl, rfl, ?_, ?_, hclone, ?_, ?_⟩
  · unfold heapGet heapSet
    rw [heapRead_set_self h' r _ hr]
    exact bitset.get_set_self _ _ hmajor
  · unfold heapGet heapClear
    rw [heapRead_set_self h' r _ hr]
    exact bitset.get_clear_self _ _
  · intro q
    unfold heapGet heapSet
    rw [heapRead_set_ne _ _ (by unfold heapClone; simp; omega)]
    rw [show (heapClone h' r).1 = h' ++ [(heapRead h' r).clone] from rfl,
      heapRead_append_lt h' _ hr]
  · intro q
    unfold heapGet heapSet
    rw [heapRead_set_ne _ _ (by unfold heapClone; simp; omega)]
    rw [hclone]

/-- Witness for C10 at `n = 65`, `p = 64` (the second word), checking
the set/get round trip through the heap model. -/
theorem newBitset_set_clear_clone_ok_witness :
    heapGet (heapSet [newBitset 65] 0 64).1 0 64 = true :=
  (((newBitset_set_clear_clone_ok [] 65 64 (by decide)).2
    [newBitset 65] 0 (by decide)).2.2).1

theorem byTimeLess_iff_rank {I O : Type} (a b : entry I O) :
    byTimeLess a b = true ↔ entryRank a < entryRank b := by
  unfold byTimeLess entryRank
  by_cases ht : a.time = b.time
  all_goals rcases ha : a.kind <;> rcases hb : b.kind <;>
    simp [ht, ha, hb, callEntry, returnEntry] <;> omega

theorem byTimeLE_iff_rank {I O : Type} (a b : entry I O) :
    byTimeLE a b ↔ entryRank a ≤ entryRank b := by
  unfold byTimeLE
  rw [← Bool.not_eq_true, ← not_lt]
  exact not_congr (byTimeLess_iff_rank b a)

theorem makeEntries_perm {I O : Type} (history : List (Operation I O)) :
    (makeEntries history).Perm (opEntries history) :=
  List.perm_insertionSort _ _

theorem makeEntries_sorted {I O : Type} (history : List (Operation I O)) :
    List.Sorted byTimeLE (makeEntries history) :=
  List.sorted_insertionSort _ _

/-- C5: for every operation-form history, entry normalization
(`makeEntries`) produces a permutation of the interleaved call/return
entries that is totally ordered by timestamp ascending, and on equal
timestamps a return entry never precedes a call entry (calls order
before returns on ties — closed-interval semantics). -/
theorem makeEntries_ordered {I O : Type} (history : List (Operation I O)) :
    (makeEntries history).Perm (opEntries history) ∧
    ∀ (i j : Fin (makeEntries history).length), (i : Nat) < (j : Nat) →
      ((makeEntries history).get i).time ≤ ((makeEntries history).get j).time ∧
      (((makeEntries history).get i).time = ((makeEntries history).get j).time →
        ¬(((makeEntries history).get i).kind = returnEntry ∧
          ((makeEntries history).get j).kind = callEntry)) := by
  refine ⟨makeEntries_perm history, ?_⟩
  intro i j hij
  have hs := makeEntries_sorted history
  have hle : byTimeLE ((makeEntries history).get i) ((makeEntries history).get j) :=
    List.pairwise_iff_get.mp hs i j hij
  rw [byTimeLE_iff_rank] at hle
  unfold entryRank at hle
  refine ⟨?_, ?_⟩
  · rcases ha : ((makeEntries history).get i).kind <;>
      rcases hb : ((makeEntries history).get j).kind <;>
      rw [ha, hb] at hle <;>
      simp only [Bool.cond_false, Bool.cond_true] at hle <;> omega
  · rintro heq ⟨hki, hkj⟩
    rw [hki, hkj, heq] at hle
    simp only [returnEntry, callEntry, Bool.cond_false, Bool.cond_true] at hle
    omega

/-- Witness for C5 on a one-operation history whose call and return
share a timestamp. -/
theorem makeEntries_ordered_witness :
    ((makeEntries [tieOp]).get ⟨0, by decide⟩).time ≤
      ((makeEntries [tieOp]).get ⟨1, by decide⟩).time :=
  ((makeEntries_ordered [tieOp]).2 ⟨0, by decide⟩ ⟨1, by decide⟩ (by decide)).1

theorem firstAppsFrom_nil (acc : List Int) : firstAppsFrom acc [] = acc := rfl

theorem firstAppsFrom_cons (acc : List Int) (v : Int) (xs : List Int) :
    firstAppsFrom acc (v :: xs) =
      firstAppsFrom (if v ∈ acc then acc else acc ++ [v]) xs := rfl

theorem firstAppsFrom_eq_append (xs : List Int) :
    ∀ acc : List Int, ∃ t, firstAppsFrom acc xs = acc ++ t := by
  induction xs with
  | nil => exact fun acc => ⟨[], by simp [firstAppsFrom_nil]⟩
  | cons v xs ih =>
    intro acc
    rw [firstAppsFrom_cons]
    by_cases hv : v ∈ acc
    · simp only [hv, if_true]
      exact ih acc
    · simp only [hv, if_false]
      obtain ⟨t, ht⟩ := ih (acc ++ [v])
      exact ⟨[v] ++ t, by rw [ht, List.append_assoc]⟩

theorem indexOf_firstAppsFrom_of_mem (xs : List Int) (acc : List Int) {v : Int}
    (hv : v ∈ acc) : (firstAppsFrom acc xs).indexOf v = acc.indexOf v := by
  obtain ⟨t, ht⟩ := firstAppsFrom_eq_append xs acc
  rw [ht, List.indexOf_append_of_mem hv]

theorem mem_firstAppsFrom_of_mem (xs : List Int) (acc : List Int) {v : Int}
    (hv : v ∈ acc) : v ∈ firstAppsFrom acc xs := by
  obtain ⟨t, ht⟩ := firstAppsFrom_eq_append xs acc
  rw [ht]
  exact List.mem_append_left _ hv

theorem indexOf_append_self {l : List Int} {a : Int} (h : a ∉ l) :
    (l ++ [a]).indexOf a = l.length := by
  induction l with
  | nil => simp
  | cons b l ih =>
    have hba : b ≠ a := fun hba => h (hba ▸ List.mem_cons_self b l)
    have h' : a ∉ l := fun hal => h (List.mem_cons_of_mem _ hal)
    simp only [List.cons_append, List.indexOf_cons_ne _ hba, ih h', List.length_cons]

theorem mem_firstAppsFrom_iff (xs : List Int) :
    ∀ (acc : List Int) (v : Int), v ∈ firstAppsFrom acc xs ↔ v ∈ acc ∨ v ∈ xs := by
  induction xs with
  | nil => simp [firstAppsFrom_nil]
  | cons w xs ih =>
    intro acc v
    rw [firstAppsFrom_cons]
    by_cases hw : w ∈ acc
    · simp only [hw, if_true, ih]
      constructor
      · rintro (h | h)
        · exact Or.inl h
        · exact Or.inr (List.mem_cons_of_mem _ h)
      · rintro (h | h)
        · exact Or.inl h
        · rcases List.mem_cons.mp h with rfl | h
          · exact Or.inl hw
          · exact Or.inr h
    · simp only [hw, if_false, ih, List.mem_append, List.mem_singleton, List.mem_cons]
      tauto

theorem nodup_firstAppsFrom (xs : List Int) :
    ∀ acc : List Int, acc.Nodup → (firstAppsFrom acc xs).Nodup := by
  induction xs with
  | nil => exact fun acc h => h
  | cons v xs ih =>
    intro acc hacc
    rw [firstAppsFrom_cons]
    by_cases hv : v ∈ acc
    · simp only [hv, if_true]
      exact ih acc hacc
    · simp only [hv, if_false]
      refine ih _ (List.nodup_append.mpr ⟨hacc, List.nodup_singleton v, ?_⟩)
      intro a ha hav
      rw [List.mem_singleton] at hav
      exact hv (hav ▸ ha)

theorem length_renumberAux {I O : Type} (rest : List (Event I O)) :
    ∀ m idc, (renumberAux (I := I) (O := O) m idc rest).length = rest.length := by
  induction rest with
  | nil => intro m idc; rfl
  | cons v rest ih =>
    intro m idc
    unfold renumberAux
    rcases h : m.lookup v.id with _ | r <;> simp [h, ih]

theorem renumberAux_getElem? {I O : Type} (rest : List (Event I O)) :
    ∀ (m : List (Int × Nat)) (D : List Int),
      (∀ v : Int, m.lookup v = if v ∈ D then some (D.indexOf v) else none) →
      ∀ (k : Nat) (e : Event I O), rest[k]? = some e →
        (renumberAux m D.length rest)[k]? =
          some ⟨e.clientId, e.kind, e.value,
            ((firstAppsFrom D (rest.map (fun x => x.id))).indexOf e.id : Int)⟩ := by
  induction rest with
  | nil =>
    intro m D hm k e hk
    simp at hk
  | cons v rest ih =>
    intro m D hm k e hk
    unfold renumberAux
    have hmv := hm v.id
    rcases hl : m.lookup v.id with _ | r <;> rw [hl] at hmv
    · -- id not yet seen: assign the next dense id
      have hv : v.id ∉ D := by
        by_contra hvD
        rw [if_pos hvD] at hmv
        exact Option.noConfusion hmv
      rw [if_neg hv] at hmv
      have hD' : firstAppsFrom D ((v :: rest).map (fun x => x.id)) =
          firstAppsFrom (D ++ [v.id]) (rest.map (fun x => x.id)) := by
        rw [List.map_cons, firstAppsFrom_cons, if_neg hv]
      cases k with
      | zero =>
        simp only [List.getElem?_cons_zero, Option.some.injEq] at hk
        subst hk
        simp only [List.getElem?_cons_zero, Option.some.injEq]
        rw [hD', indexOf_firstAppsFrom_of_mem _ _
          (List.mem_append_right _ (List.mem_singleton_self v.id)),
          indexOf_append_self hv]
      | succ k' =>
        simp only [List.getElem?_cons_succ] at hk ⊢
        have hm' : ∀ w : Int, (((v.id, D.length) :: m).lookup w) =
            if w ∈ D ++ [v.id] then some ((D ++ [v.id]).indexOf w) else none := by
          intro w
          rw [List.lookup_cons]
          by_cases hw : w = v.id
          · rw [hw]
            simp only [beq_self_eq_true]
            rw [if_pos (List.mem_append_right _ (List.mem_singleton_self v.id)),
              indexOf_append_self hv]
          · have hbeq : (w == v.id) = false := beq_eq_false_iff_ne.mpr hw
            rw [hbeq]
            rw [hm w]
            by_cases hwD : w ∈ D
            · rw [if_pos hwD, if_pos (List.mem_append_left _ hwD),
                List.indexOf_append_of_mem hwD]
            · rw [if_neg hwD, if_neg (by
                intro hmem
                rcases List.mem_append.mp hmem with h | h
                · exact hwD h
                · exact hw (List.mem_singleton.mp h))]
        have := ih ((v.id, D.length) :: m) (D ++ [v.id]) hm' k' e hk
        rw [List.length_append, List.length_singleton] at this
        rw [this, hD']
    · -- id already mapped
      have hv : v.id ∈ D := by
        by_contra hvD
        rw [if_neg hvD] at hmv
        exact Option.noConfusion hmv
      rw [if_pos hv] at hmv
      have hr : r = D.indexOf v.id := Option.some.inj hmv
      have hD' : firstAppsFrom D ((v :: rest).map (fun x => x.id)) =
          firstAppsFrom D (rest.map (fun x => x.id)) := by
        rw [List.map_cons, firstAppsFrom_cons, if_pos hv]
      cases k with
      | zero =>
        simp only [List.getElem?_cons_zero, Option.some.injEq] at hk
        subst hk
        simp only [List.getElem?_cons_zero, Option.some.injEq]
        rw [hD', indexOf_firstAppsFrom_of_mem _ _ hv, hr]
      | succ k' =>
        simp only [List.getElem?_cons_succ] at hk ⊢
        rw [ih m D hm k' e hk, hD']

theorem length_convertEntries {I O : Type} (l : List (Event I O)) :
    (convertEntries l).length = l.length := by
  unfold convertEntries
  simp

theorem convertEntries_getElem? {I O : Type} (l : List (Event I O)) {k : Nat}
    {e : Event I O} (h : l[k]? = some e) :
    (convertEntries l)[k]? =
      some ⟨if e.kind == ReturnEvent then returnEntry else callEntry,
        e.value, e.id.toNat, (k : Int), e.clientId⟩ := by
  unfold convertEntries
  rw [List.getElem?_map, List.getElem?_enum, h]
  rfl

theorem convertEntries_time {I O : Type} (l : List (Event I O)) (k : Nat)
    (hk : k < (convertEntries l).length) :
    (convertEntries l)[k].time = (k : Int) := by
  have hk' : k < l.length := by rw [length_convertEntries] at hk; exact hk
  have h := convertEntries_getElem? l (List.getElem?_eq_getElem hk')
  rw [List.getElem?_eq_getElem hk] at h
  have h2 := Option.some.inj h
  rw [h2]

theorem convertEntries_sorted {I O : Type} (l : List (Event I O)) :
    List.Sorted byTimeLE (convertEntries l) := by
  rw [List.Sorted, List.pairwise_iff_getElem]
  intro i j hi hj hij
  unfold byTimeLE byTimeLess
  rw [convertEntries_time l i hi, convertEntries_time l j hj]
  have hne : (j : Int) ≠ (i : Int) := by
    intro h
    exact Nat.ne_of_gt hij (by exact_mod_cast h)
  have hnlt : ¬((j : Int) < (i : Int)) := by
    rw [not_lt]
    exact_mod_cast Nat.le_of_lt hij
  simp [hne, hnlt]

/-- C7: for every event-form history, normalization uses each event's
input position as its synthetic timestamp, and `renumber` renumbers
operation ids to dense `[0, n)` in order of first appearance, keeping
kind, value and client id, so the resulting entry sequence already
satisfies the required ordering. -/
theorem renumber_convertEntries_ok {I O : Type} (events : List (Event I O)) :
    ((renumber events).length = events.length ∧
      (convertEntries (renumber events)).length = events.length) ∧
    (∀ (k : Nat) (e : Event I O), events[k]? = some e →
      (renumber events)[k]? =
        some ⟨e.clientId, e.kind, e.value,
          ((firstAppearances events).indexOf e.id : Int)⟩ ∧
      (convertEntries (renumber events))[k]? =
        some ⟨if e.kind == ReturnEvent then returnEntry else callEntry, e.value,
          (firstAppearances events).indexOf e.id, (k : Int), e.clientId⟩) ∧
    (∀ e' ∈ renumber events,
      0 ≤ e'.id ∧ e'.id.toNat < (firstAppearances events).length) ∧
    (∀ j : Nat, j < (firstAppearances events).length →
      ∃ e' ∈ renumber events, e'.id = (j : Int)) ∧
    List.Sorted byTimeLE (convertEntries (renumber events)) := by
  have hbase : ∀ v : Int, (([] : List (Int × Nat)).lookup v) =
      if v ∈ ([] : List Int) then some ((([] : List Int)).indexOf v) else none := by
    intro v
    simp [List.lookup]
  have hmain : ∀ (k : Nat) (e : Event I O), events[k]? = some e →
      (renumber events)[k]? =
        some ⟨e.clientId, e.kind, e.value,
          ((firstAppearances events).indexOf e.id : Int)⟩ := by
    intro k e hk
    exact renumberAux_getElem? events [] [] hbase k e hk
  have hlen : (renumber events).length = events.length := length_renumberAux events [] 0
  refine ⟨⟨hlen, by rw [length_convertEntries, hlen]⟩, ?_, ?_, ?_, convertEntries_sorted _⟩
  · intro k e hk
    refine ⟨hmain k e hk, ?_⟩
    have h := convertEntries_getElem? (renumber events) (hmain k e hk)
    simpa using h
  · intro e' he'
    obtain ⟨k, hk⟩ := List.mem_iff_getElem?.mp he'
    have hkl : k < events.length := by
      rw [← hlen]
      exact (List.getElem?_eq_some.mp hk).1
    have hk? : events[k]? = some events[k] := List.getElem?_eq_getElem hkl
    have h2 := hmain k events[k] hk?
    rw [hk] at h2
    have he'eq := Option.some.inj h2
    have hmem : events[k].id ∈ firstAppearances events := by
      rw [firstAppearances, mem_firstAppsFrom_iff]
      exact Or.inr (List.mem_map.mpr ⟨events[k], List.getElem_mem hkl, rfl⟩)
    constructor
    · rw [he'eq]
      exact Int.natCast_nonneg _
    · rw [he'eq]
      simpa using List.indexOf_lt_length.mpr hmem
  · intro j hj
    have hnd : (firstAppearances events).Nodup :=
      nodup_firstAppsFrom _ _ List.nodup_nil
    have haD : (firstAppearances events).get ⟨j, hj⟩ ∈ firstAppearances events :=
      List.get_mem _ j hj
    have hmapmem : (firstAppearances events).get ⟨j, hj⟩ ∈
        events.map (fun e => e.id) := by
      rcases (mem_firstAppsFrom_iff _ [] _).mp haD with h | h
      · exact absurd h (List.not_mem_nil _)
      · exact h
    obtain ⟨e, he, heid⟩ := List.mem_map.mp hmapmem
    obtain ⟨k, hkl, hke⟩ := List.mem_iff_getElem.mp he
    have hk? : events[k]? = some e := by rw [List.getElem?_eq_getElem hkl, hke]
    have h2 := hmain k e hk?
    obtain ⟨hlt2, hgl2⟩ := List.getElem?_eq_some.mp h2
    refine ⟨_, hgl2 ▸ List.getElem_mem hlt2, ?_⟩
    simp only [Int.natCast_inj]
    rw [heid]
    exact List.get_indexOf hnd ⟨j, hj⟩

/-- Witness for C7: the first event of the concrete history is
renumbered to dense id 0 with all other fields kept. -/
theorem renumber_convertEntries_ok_witness :
    (renumber wEvents)[0]? =
      some ⟨7, CallEvent, Sum.inl 5, ((firstAppearances wEvents).indexOf 42 : Int)⟩ :=
  ((renumber_convertEntries_ok wEvents).2.1 0 ⟨7, CallEvent, Sum.inl 5, 42⟩ rfl).1

theorem setNext_same {V : Type} (s : NodeStore V) (i : Nat) (pt : Option Nat) :
    setNext s i pt i = { s i with next := pt } :=
  Function.update_same ..

theorem setNext_other {V : Type} {s : NodeStore V} {i j : Nat} {pt : Option Nat}
    (h : j ≠ i) : setNext s i pt j = s j :=
  Function.update_noteq h _ _

theorem setPrev_same {V : Type} (s : NodeStore V) (i : Nat) (pt : Option Nat) :
    setPrev s i pt i = { s i with prev := pt } :=
  Function.update_same ..

theorem setPrev_other {V : Type} {s : NodeStore V} {i j : Nat} {pt : Option Nat}
    (h : j ≠ i) : setPrev s i pt j = s j :=
  Function.update_noteq h _ _

/-- Round trip of `lift` then `unlift` when at least one node separates
the call from its return (`a` is the call's successor, `q` the
return's predecessor; `a = q` is allowed). -/
theorem lift_unlift_sep {V : Type} (s : NodeStore V) (p c a q m : Nat)
    (hcp : (s c).prev = some p) (hcn : (s c).next = some a)
    (hcm : (s c).matchNode = some m)
    (hpn : (s p).next = some c) (hap : (s a).prev = some c)
    (hmp : (s m).prev = some q) (hqn : (s q).next = some m)
    (hcp' : c ≠ p) (hpa : p ≠ a) (hpm : p ≠ m) (hpq : p ≠ q)
    (hca : c ≠ a) (hcm2 : c ≠ m) (hcq : c ≠ q)
    (ham : a ≠ m) (hqm : q ≠ m)
    (htail : (s m).next = none ∨
      ∃ r, (s m).next = some r ∧ (s r).prev = some m ∧
        r ≠ p ∧ r ≠ c ∧ r ≠ a ∧ r ≠ q ∧ r ≠ m) :
    ∃ s', lift? s c = some s' ∧ unlift? s' c = some s := by
  have hac : a ≠ c := fun h => hca h.symm
  have hmc : m ≠ c := fun h => hcm2 h.symm
  have hqc : q ≠ c := fun h => hcq h.symm
  have hap' : a ≠ p := fun h => hpa h.symm
  have hmp' : m ≠ p := fun h => hpm h.symm
  have hma : m ≠ a := fun h => ham h.symm
  have hmq : m ≠ q := fun h => hqm h.symm
  have hqp : q ≠ p := fun h => hpq h.symm
  rcases htail with hmn | ⟨r, hmn, hrp, hrpne, hrc, hra, hrq, hrm⟩
  · -- tail case: the return's next pointer is nil
    refine ⟨setNext (setPrev (setNext s p (some a)) a (some p)) q none, ?_, ?_⟩
    · unfold lift?
      simp only [setNext_other hcp', setPrev_other hca, setPrev_other hma,
        setNext_other hmp', setNext_other hmq, hcp, hcn, hcm, hmp, hmn]
    · unfold unlift?
      simp only [setNext_other hcq, setNext_other hcp', setNext_other hmq,
        setNext_other hmp', setPrev_other hca, setPrev_other hma,
        hcp, hcn, hcm, hmp, hmn]
      refine congrArg some ?_
      funext x
      by_cases hxa : x = a
      · subst hxa
        by_cases haq : x = q
        · subst haq
          simp only [setNext_other hap', setPrev_same, setNext_same]
          rw [show some c = (s x).prev from hap.symm,
            show some m = (s x).next from hqn.symm]
        · simp only [setNext_other hap', setNext_other haq, setPrev_same]
          rw [show some c = (s x).prev from hap.symm]
      · by_cases hxp : x = p
        · subst hxp
          simp only [setPrev_other hpa, setNext_other hpq, setNext_same]
          rw [show some c = (s x).next from hpn.symm]
        · by_cases hxq : x = q
          · subst hxq
            simp only [setPrev_other hxa, setNext_other hqp, setNext_same]
            rw [show some m = (s x).next from hqn.symm]
          · simp only [setPrev_other hxa, setNext_other hxp, setNext_other hxq]
  · -- the return has a successor `r`
    have hrc2 : c ≠ r := fun h => hrc h.symm
    have hrm2 : m ≠ r := fun h => hrm h.symm
    have hra2 : a ≠ r := fun h => hra h.symm
    have hrp2 : p ≠ r := fun h => hrpne h.symm
    have hrq2 : q ≠ r := fun h => hrq h.symm
    refine ⟨setPrev (setNext (setPrev (setNext s p (some a)) a (some p)) q (some r))
      r (some q), ?_, ?_⟩
    · unfold lift?
      simp only [setNext_other hcp', setPrev_other hca, setPrev_other hma,
        setNext_other hmp', setNext_other hmq, hcp, hcn, hcm, hmp, hmn]
    · unfold unlift?
      simp only [setPrev_other hrc2, setNext_other hcq, setNext_other hcp',
        setPrev_other hrm2, setNext_other hmq, setNext_other hmp',
        setPrev_other hca, setPrev_other hma,
        hcp, hcn, hcm, hmp, hmn]
      refine congrArg some ?_
      funext x
      by_cases hxa : x = a
      · subst hxa
        by_cases haq : x = q
        · subst haq
          simp only [setPrev_same, setNext_same, setPrev_other hra2,
            setNext_other hap']
          rw [show some c = (s x).prev from hap.symm,
            show some m = (s x).next from hqn.symm]
        · simp only [setPrev_same, setNext_other haq, setPrev_other hra2,
            setNext_other hap']
          rw [show some c = (s x).prev from hap.symm]
      · by_cases hxp : x = p
        · subst hxp
          simp only [setNext_same, setPrev_other hpa, setNext_other hpq,
            setPrev_other hrp2]
          rw [show some c = (s x).next from hpn.symm]
        · by_cases hxq : x = q
          · subst hxq
            simp only [setNext_same, setPrev_other hrq2, setNext_other hqp,
              setPrev_other hxa]
            rw [show some m = (s x).next from hqn.symm]
          · by_cases hxr : x = r
            · subst hxr
              simp only [setPrev_same, setNext_other hxq, setPrev_other hxa,
                setNext_other hxp]
              rw [show some m = (s x).prev from hrp.symm]
            · simp only [setPrev_other hxa, setNext_other hxp, setNext_other hxq,
                setPrev_other hxr]

/-- Round trip of `lift` then `unlift` when the return immediately
follows its call in the ribbon. -/
theorem lift_unlift_adj {V : Type} (s : NodeStore V) (p c m : Nat)
    (hcp : (s c).prev = some p) (hcn : (s c).next = some m)
    (hcm : (s c).matchNode = some m)
    (hpn : (s p).next = some c) (hmp : (s m).prev = some c)
    (hcp' : c ≠ p) (hpm : p ≠ m) (hcm2 : c ≠ m)
    (htail : (s m).next = none ∨
      ∃ r, (s m).next = some r ∧ (s r).prev = some m ∧
        r ≠ p ∧ r ≠ c ∧ r ≠ m) :
    ∃ s', lift? s c = some s' ∧ unlift? s' c = some s := by
  have hmp' : m ≠ p := fun h => hpm h.symm
  have hmc : m ≠ c := fun h => hcm2 h.symm
  rcases htail with hmn | ⟨r, hmn, hrp, hrpne, hrc, hrm⟩
  · refine ⟨setNext (setPrev (setNext s p (some m)) m (some p)) p none, ?_, ?_⟩
    · unfold lift?
      simp only [setNext_other hcp', setPrev_other hcm2, setPrev_same,
        setNext_other hmp', hcp, hcn, hcm, hmn]
    · unfold unlift?
      simp only [setNext_other hcp', setPrev_other hcm2, setPrev_same,
        setNext_other hmp', hcp, hcn, hcm, hmn]
      refine congrArg some ?_
      funext x
      by_cases hxp : x = p
      · subst hxp
        simp only [setNext_same, setPrev_other hpm]
        rw [show some c = (s x).next from hpn.symm]
      · by_cases hxm : x = m
        · subst hxm
          simp only [setPrev_same, setNext_other hmp']
          rw [show some c = (s x).prev from hmp.symm]
        · simp only [setNext_other hxp, setPrev_other hxm]
  · have hrc2 : c ≠ r := fun h => hrc h.symm
    have hrm2 : m ≠ r := fun h => hrm h.symm
    have hrp2 : p ≠ r := fun h => hrpne h.symm
    refine ⟨setPrev (setNext (setPrev (setNext s p (some m)) m (some p)) p (some r))
      r (some p), ?_, ?_⟩
    · unfold lift?
      simp only [setNext_other hcp', setPrev_other hcm2, setPrev_same,
        setNext_other hmp', hcp, hcn, hcm, hmn]
    · unfold unlift?
      simp only [setPrev_other hrc2, setPrev_other hrm2, setNext_other hcp',
        setPrev_other hcm2, setPrev_same, setNext_other hmp', hcp, hcn, hcm, hmn]
      refine congrArg some ?_
      funext x
      by_cases hxp : x = p
      · subst hxp
        simp only [setNext_same, setPrev_other hpm, setPrev_other hrp2]
        rw [show some c = (s x).next from hpn.symm]
      · by_cases hxm : x = m
        · subst hxm
          simp only [setPrev_same, setNext_other hmp', setPrev_other hrm2]
          rw [show some c = (s x).prev from hmp.symm]
        · by_cases hxr : x = r
          · subst hxr
            simp only [setPrev_same, setNext_other hxp, setPrev_other hxm]
            rw [show some m = (s x).prev from hrp.symm]
          · simp only [setNext_other hxp, setPrev_other hxm, setPrev_other hxr]

/-- C9: for every ribbon (doubly-linked list with a head sentinel
before the call) and every call node in the list whose matching return
node is also in the list (after it), `lift` followed immediately by
`unlift` restores the store exactly, including the tail case where the
return's next pointer is nil. -/
theorem lift_unlift_restores {V : Type} (s : NodeStore V) (l1 l2 l3 : List Nat)
    (c m : Nat) (hch : chain s (l1 ++ c :: (l2 ++ m :: l3)))
    (hl1 : l1 ≠ []) (hcm : (s c).matchNode = some m) :
    ∃ s', lift? s c = some s' ∧ unlift? s' c = some s := by
  obtain ⟨hnd, hchain, hhead, hlast⟩ := hch
  rw [List.nodup_append] at hnd
  obtain ⟨hnd1, hnd2, hdisj1⟩ := hnd
  rw [List.nodup_cons] at hnd2
  obtain ⟨hcmem, hnd2⟩ := hnd2
  rw [List.nodup_append] at hnd2
  obtain ⟨hndl2, hnd3, hdisj2⟩ := hnd2
  rw [List.nodup_cons] at hnd3
  obtain ⟨hmmem, hndl3⟩ := hnd3
  have hd1 := List.disjoint_left.mp hdisj1
  have hd2 := List.disjoint_left.mp hdisj2
  rw [List.chain'_append] at hchain
  obtain ⟨hch1, hch2, hjoin⟩ := hchain
  rw [List.chain'_cons'] at hch2
  obtain ⟨hcnext, hch3⟩ := hch2
  rw [List.chain'_append] at hch3
  obtain ⟨hchl2, hch4, hjoin2⟩ := hch3
  rw [List.chain'_cons'] at hch4
  obtain ⟨hmnext, hchl3⟩ := hch4
  have hpl1 : l1.getLast hl1 ∈ l1 := List.getLast_mem hl1
  have hp : nodeAdj s (l1.getLast hl1) c :=
    hjoin _ (by rw [List.getLast?_eq_getLast l1 hl1]; rfl) c rfl
  have hmtotal : m ∈ c :: (l2 ++ m :: l3) :=
    List.mem_cons_of_mem _ (List.mem_append_right _ (List.mem_cons_self m l3))
  have hcp' : c ≠ l1.getLast hl1 := fun h =>
    hd1 (show c ∈ l1 by rw [h]; exact hpl1) (List.mem_cons_self c _)
  have hpm : l1.getLast hl1 ≠ m := fun h =>
    hd1 hpl1 (by rw [h]; exact hmtotal)
  have hcm2 : c ≠ m := fun h =>
    hcmem (by rw [h]; exact List.mem_append_right _ (List.mem_cons_self m l3))
  cases l2 with
  | nil =>
    have hcmadj : nodeAdj s c m := hcnext m (by simp)
    cases l3 with
    | nil =>
      have hLlast : (l1 ++ c :: (([] : List Nat) ++ m :: [])).getLast? = some m := by
        rw [show l1 ++ c :: (([] : List Nat) ++ m :: []) =
          (l1 ++ [c]) ++ m :: [] by simp]
        rw [List.getLast?_append_cons]
        rfl
      have hmn : (s m).next = none := hlast m hLlast
      exact lift_unlift_adj s _ c m hp.2 hcmadj.1 hcm hp.1 hcmadj.2 hcp' hpm hcm2
        (Or.inl hmn)
    | cons r l3' =>
      have hradj : nodeAdj s m r := hmnext r rfl
      have hrl3 : r ∈ r :: l3' := List.mem_cons_self r l3'
      have hrtotal : r ∈ c :: (([] : List Nat) ++ m :: r :: l3') :=
        List.mem_cons_of_mem _ (List.mem_append_right _ (List.mem_cons_of_mem _ hrl3))
      exact lift_unlift_adj s _ c m hp.2 hcmadj.1 hcm hp.1 hcmadj.2 hcp' hpm hcm2
        (Or.inr ⟨r, hradj.1, hradj.2,
          fun h => hd1 hpl1 (by rw [← h]; exact hrtotal),
          fun h => hcmem (by
            rw [← h]
            exact List.mem_append_right _ (List.mem_cons_of_mem _ hrl3)),
          fun h => hmmem (by rw [← h]; exact hrl3)⟩)
  | cons a l2' =>
    have hcaadj : nodeAdj s c a := hcnext a rfl
    have hql2 : (a :: l2').getLast (List.cons_ne_nil a l2') ∈ a :: l2' :=
      List.getLast_mem _
    have hqadj : nodeAdj s ((a :: l2').getLast (List.cons_ne_nil a l2')) m :=
      hjoin2 _ (by rw [List.getLast?_eq_getLast _ (List.cons_ne_nil a l2')]; rfl) m rfl
    have hal2 : a ∈ a :: l2' := List.mem_cons_self a l2'
    have hmem2 : ∀ x ∈ a :: l2', x ∈ c :: ((a :: l2') ++ m :: l3) := fun x hx =>
      List.mem_cons_of_mem _ (List.mem_append_left _ hx)
    have hpa : l1.getLast hl1 ≠ a := fun h =>
      hd1 hpl1 (by rw [h]; exact hmem2 a hal2)
    have hpq : l1.getLast hl1 ≠ (a :: l2').getLast (List.cons_ne_nil a l2') :=
      fun h => hd1 hpl1 (by rw [h]; exact hmem2 _ hql2)
    have hca : c ≠ a := fun h => hcmem (by rw [h]; exact List.mem_append_left _ hal2)
    have hcq : c ≠ (a :: l2').getLast (List.cons_ne_nil a l2') :=
      fun h => hcmem (by rw [h]; exact List.mem_append_left _ hql2)
    have ham : a ≠ m := fun h => hd2 hal2 (by rw [h]; exact List.mem_cons_self m l3)
    have hqm : (a :: l2').getLast (List.cons_ne_nil a l2') ≠ m :=
      fun h => hd2 hql2 (by rw [h]; exact List.mem_cons_self m l3)
    cases l3 with
    | nil =>
      have hLlast : (l1 ++ c :: ((a :: l2') ++ m :: [])).getLast? = some m := by
        rw [show l1 ++ c :: ((a :: l2') ++ m :: []) =
          (l1 ++ c :: (a :: l2')) ++ m :: [] by simp]
        rw [List.getLast?_append_cons]
        rfl
      have hmn : (s m).next = none := hlast m hLlast
      exact lift_unlift_sep s _ c a _ m hp.2 hcaadj.1 hcm hp.1 hcaadj.2 hqadj.2
        hqadj.1 hcp' hpa hpm hpq hca hcm2 hcq ham hqm (Or.inl hmn)
    | cons r l3' =>
      have hradj : nodeAdj s m r := hmnext r rfl
      have hrl3 : r ∈ r :: l3' := List.mem_cons_self r l3'
      have hrtail : r ∈ m :: r :: l3' := List.mem_cons_of_mem _ hrl3
      have hrtotal : r ∈ c :: ((a :: l2') ++ m :: r :: l3') :=
        List.mem_cons_of_mem _ (List.mem_append_right _ hrtail)
      exact lift_unlift_sep s _ c a _ m hp.2 hcaadj.1 hcm hp.1 hcaadj.2 hqadj.2
        hqadj.1 hcp' hpa hpm hpq hca hcm2 hcq ham hqm
        (Or.inr ⟨r, hradj.1, hradj.2,
          fun h => hd1 hpl1 (by rw [← h]; exact hrtotal),
          fun h => hcmem (by rw [← h]; exact List.mem_append_right _ hrtail),
          fun h => hd2 hal2 (by rw [← h]; exact hrtail),
          fun h => hd2 hql2 (by rw [← h]; exact hrtail),
          fun h => hmmem (by rw [← h]; exact hrl3)⟩)

/-- Witness for C9 on the concrete three-node ribbon (tail case). -/
theorem lift_unlift_restores_witness :
    ∃ s', lift? wStore 1 = some s' ∧ unlift? s' 1 = some wStore := by
  have hch : chain wStore ([0] ++ 1 :: (([] : List Nat) ++ 2 :: [])) := by
    refine ⟨by decide, ?_, ?_, ?_⟩
    · simp only [List.nil_append, List.singleton_append]
      exact List.chain'_cons.mpr ⟨⟨rfl, rfl⟩, List.chain'_cons.mpr ⟨⟨rfl, rfl⟩,
        List.chain'_singleton 2⟩⟩
    · intro x hx
      simp at hx
      subst hx
      rfl
    · intro x hx
      simp at hx
      subst hx
      rfl
  exact lift_unlift_restores wStore [0] [] [] 1 2 hch (by simp) rfl

theorem driverLoop_spec (ci : Bool) (n : Nat) :
    ∀ (sched : List DriverEvent) (ok0 : Bool) (c0 : Nat) (recv0 : List Bool)
      (e : DriverExit), driverLoop ci n sched ok0 c0 recv0 = some e →
      ∃ new : List Bool, e.received = recv0 ++ new ∧
        e.ok = (ok0 && new.all id) ∧ e.count = c0 + new.length ∧
        (e.timedOut = true ∨ (e.ok = false ∧ ci = false) ∨ n ≤ e.count) := by
  intro sched
  induction sched with
  | nil =>
    intro ok0 c0 recv0 e h
    exact Option.noConfusion h
  | cons ev rest ih =>
    intro ok0 c0 recv0 e h
    cases ev with
    | result b =>
      unfold driverLoop at h
      by_cases h1 : (!(ok0 && b) && !ci) = true
      · rw [if_pos h1] at h
        obtain rfl := Option.some.inj h
        simp only [Bool.and_eq_true, Bool.not_eq_true'] at h1
        exact ⟨[b], rfl, by simp, by simp, Or.inr (Or.inl ⟨h1.1, h1.2⟩)⟩
      · rw [if_neg h1] at h
        by_cases h2 : c0 + 1 ≥ n
        · rw [if_pos h2] at h
          obtain rfl := Option.some.inj h
          exact ⟨[b], rfl, by simp, by simp, Or.inr (Or.inr h2)⟩
        · rw [if_neg h2] at h
          obtain ⟨new, hr, hok, hc, hexit⟩ := ih (ok0 && b) (c0 + 1) (recv0 ++ [b]) e h
          exact ⟨b :: new, by simpa using hr, by simpa [Bool.and_assoc] using hok,
            by simp at hc ⊢; omega, hexit⟩
    | timeoutFire =>
      unfold driverLoop at h
      obtain rfl := Option.some.inj h
      exact ⟨[], by simp, by simp, by simp, Or.inl rfl⟩

/-- Counterexample for C2: in verbose mode with two partitions, a
genuine rejection arrives and then the timeout fires while the second
partition is still running; the overall result is `Illegal`, not
`Unknown`, even though the timeout fired before all partitions
finished. -/
theorem checkParallel_timeout_illegal_cex :
    driverLoop true 2 [DriverEvent.result false, DriverEvent.timeoutFire] true 0 [] =
      some ⟨false, true, 1, [false]⟩ ∧
    checkParallelResult true 2 [DriverEvent.result false, DriverEvent.timeoutFire] =
      some CheckResult.Illegal := by
  constructor <;> rfl

/-- C2 (amended): `Ok` iff all `n` verdicts were received, all accepted
and no timeout fired; `Illegal` iff some received (genuine) verdict was
a rejection — possibly with the timeout firing afterwards; a timeout
with only accepting verdicts received gives `Unknown`.  In particular
cancellation alone never produces `Illegal`. -/
theorem checkParallel_result_ok (ci : Bool) (n : Nat) (sched : List DriverEvent)
    (e : DriverExit) (h : driverLoop ci n sched true 0 [] = some e) :
    (checkParallelResult ci n sched = some CheckResult.Ok ↔
      (e.received.all id = true ∧ e.timedOut = false)) ∧
    (checkParallelResult ci n sched = some CheckResult.Illegal ↔
      e.received.all id = false) ∧
    ((e.timedOut = true ∧ e.received.all id = true) →
      checkParallelResult ci n sched = some CheckResult.Unknown) ∧
    (checkParallelResult ci n sched = some CheckResult.Ok → n ≤ e.count) := by
  obtain ⟨new, hr, hok, -, hexit⟩ := driverLoop_spec ci n sched true 0 [] e h
  simp only [List.nil_append] at hr
  subst hr
  simp only [Bool.true_and] at hok
  unfold checkParallelResult
  rw [h]
  simp only [Option.map_some']
  rcases hall : e.received.all id with _ | _ <;> rw [hall] at hok
  · rw [hok]
    simp
  · rw [hok] at hexit ⊢
    rcases ht : e.timedOut with _ | _ <;> rw [ht] at hexit
    · simp
      tauto
    · simp

/-- Witness for the amended C2 on a two-partition schedule where both
workers accept and no timeout fires. -/
theorem checkParallel_result_ok_witness :
    checkParallelResult false 2 [DriverEvent.result true, DriverEvent.result true] =
      some CheckResult.Ok :=
  ((checkParallel_result_ok false 2 [DriverEvent.result true, DriverEvent.result true]
    ⟨true, false, 2, [true, true]⟩ rfl).1).mpr (by constructor <;> rfl)

/-- The cache membership test characterized over well-bucketed caches
(shared helper). -/
theorem cacheContains_spec {S : Type} (sEq : S → S → Bool) (cache : Cache S)
    (e : cacheEntry S) (hwb : wellBucketed cache) :
    cacheContains sEq cache e = true ↔
      ∃ (h : Nat) (elem : cacheEntry S), elem ∈ cache h ∧
        e.linearized.equals elem.linearized = true ∧
        sEq e.state elem.state = true := by
  unfold cacheContains
  rw [List.any_eq_true]
  constructor
  · rintro ⟨elem, hmem, hcond⟩
    rw [Bool.and_eq_true] at hcond
    exact ⟨e.linearized.hash, elem, hmem, hcond.1, hcond.2⟩
  · rintro ⟨h, elem, hmem, heq, hsEq⟩
    have heq' : e.linearized = elem.linearized := by
      have := (beq_iff_eq (a := e.linearized) (b := elem.linearized)).mp heq
      exact this
    have hh : e.linearized.hash = h := by
      rw [heq']
      exact hwb h elem hmem
    refine ⟨elem, ?_, ?_⟩
    · rw [hh]
      exact hmem
    · rw [Bool.and_eq_true]
      exact ⟨heq, hsEq⟩

/-- C6: the cache membership test holds exactly when some entry of the
(well-bucketed) cache has an elementwise-equal linearized bitset and an
equal state under the model's state equality — never on the bitset or
a hash alone. -/
theorem cacheContains_iff {S : Type} (sEq : S → S → Bool) (cache : Cache S)
    (e : cacheEntry S) (hwb : wellBucketed cache) :
    cacheContains sEq cache e = true ↔
      ∃ (h : Nat) (elem : cacheEntry S), elem ∈ cache h ∧
        e.linearized.equals elem.linearized = true ∧
        sEq e.state elem.state = true :=
  cacheContains_spec sEq cache e hwb

theorem wCache_wellBucketed : wellBucketed wCache := by
  intro h e he
  unfold wCache cacheInsert emptyCache at he
  rcases eq_or_ne h wB.hash with rfl | hne
  · rw [Function.update_same] at he
    simp only [List.nil_append, List.mem_singleton] at he
    rw [he]
  · rw [Function.update_noteq hne] at he
    exact absurd he (List.not_mem_nil e)

/-- Witness for C6: the concrete one-entry cache reports containment of
an entry with equal bitset and equal state. -/
theorem cacheContains_iff_witness :
    cacheContains (fun a b : Nat => a == b) wCache ⟨wB, 5⟩ = true :=
  (cacheContains_iff (fun a b : Nat => a == b) wCache ⟨wB, 5⟩
    wCache_wellBucketed).mpr
    ⟨wB.hash, ⟨wB, 5⟩, by unfold wCache cacheInsert; rw [Function.update_same]; simp,
      by rfl, by rfl⟩

theorem findPos_eq_none {I O : Type} (pred : entry I O → Bool) :
    ∀ (l : List (entry I O)) (j : Nat),
      findPos pred l j = none ↔ ∀ e ∈ l, pred e = false := by
  intro l
  induction l with
  | nil => intro j; simp [findPos]
  | cons e rest ih =>
    intro j
    unfold findPos
    by_cases hp : pred e = true
    · simp [hp]
    · rw [Bool.not_eq_true] at hp
      simp [hp, ih]

theorem findPos_eq_some {I O : Type} (pred : entry I O → Bool) :
    ∀ (l : List (entry I O)) (j q : Nat), findPos pred l j = some q →
      ∃ (k : Nat) (h : k < l.length), q = j + k ∧ pred l[k] = true ∧
        ∀ k', k' < k → ∀ (h' : k' < l.length), pred l[k'] = false := by
  intro l
  induction l with
  | nil => intro j q h; exact Option.noConfusion h
  | cons e rest ih =>
    intro j q h
    unfold findPos at h
    by_cases hp : pred e = true
    · rw [if_pos hp] at h
      obtain rfl := Option.some.inj h
      exact ⟨0, by simp, by simp, by simpa using hp, fun k' hk' _ => absurd hk' (by omega)⟩
    · rw [Bool.not_eq_true] at hp
      rw [if_neg (by simp [hp])] at h
      obtain ⟨k, hk, hq, hpk, hprev⟩ := ih (j + 1) q h
      refine ⟨k + 1, by simpa using hk, by omega, by simpa using hpk, ?_⟩
      intro k' hk' h'
      cases k' with
      | zero => simpa using hp
      | succ k'' =>
        have := hprev k'' (by omega) (by simpa using h')
        simpa using this

theorem findPos_isSome {I O : Type} (pred : entry I O → Bool) (l : List (entry I O))
    (j k : Nat) (h : k < l.length) (hp : pred l[k] = true) :
    (findPos pred l j).isSome := by
  cases hf : findPos pred l j with
  | some q => rfl
  | none =>
    have := (findPos_eq_none pred l j).mp hf l[k] (List.getElem_mem h)
    rw [this] at hp
    exact Bool.noConfusion hp

theorem firstLiveAux_eq_findPos {I O : Type} (lin : bitset) :
    ∀ (l : List (entry I O)) (i : Nat),
      firstLiveAux lin l i = findPos (fun e => !lin.get e.id) l i := by
  intro l
  induction l with
  | nil => intro i; rfl
  | cons e rest ih =>
    intro i
    unfold firstLiveAux findPos
    rcases hg : lin.get e.id with _ | _
    · simp [hg]
    · simp [hg, ih]

theorem findPos_drop_some {I O : Type} (pred : entry I O → Bool)
    (es : List (entry I O)) (i q : Nat)
    (h : findPos pred (es.drop i) i = some q) :
    i ≤ q ∧ ∃ hq : q < es.length, pred es[q] = true ∧
      ∀ j, i ≤ j → j < q → ∀ hj : j < es.length, pred es[j] = false := by
  obtain ⟨k, hk, hq, hpk, hprev⟩ := findPos_eq_some pred (es.drop i) i q h
  rw [List.length_drop] at hk
  subst hq
  have hqlen : i + k < es.length := by omega
  have hget : (es.drop i)[k] = es[i + k] := List.getElem_drop ..
  refine ⟨by omega, hqlen, ?_, ?_⟩
  · rw [hget] at hpk
    exact hpk
  · intro j hij hjq hj
    have hk' : j - i < k := by omega
    have hlt : j - i < (es.drop i).length := by rw [List.length_drop]; omega
    have hpf := hprev (j - i) hk' hlt
    rw [List.getElem_drop] at hpf
    simp only [Nat.add_sub_cancel' hij] at hpf
    exact hpf

theorem findPos_drop_none {I O : Type} (pred : entry I O → Bool)
    (es : List (entry I O)) (i : Nat)
    (h : findPos pred (es.drop i) i = none) :
    ∀ j, i ≤ j → ∀ hj : j < es.length, pred es[j] = false := by
  intro j hij hj
  have hlt : j - i < (es.drop i).length := by rw [List.length_drop]; omega
  have hg : (es.drop i).get ⟨j - i, hlt⟩ = es[j] := by
    simp only [List.get_eq_getElem, List.getElem_drop, Nat.add_sub_cancel' hij]
  have hmem : es[j] ∈ es.drop i := hg ▸ List.get_mem _ _ hlt
  exact (findPos_eq_none pred (es.drop i) i).mp h es[j] hmem

theorem findPos_drop_isSome {I O : Type} (pred : entry I O → Bool)
    (es : List (entry I O)) (i q : Nat) (hiq : i ≤ q) (hq : q < es.length)
    (hp : pred es[q] = true) : (findPos pred (es.drop i) i).isSome := by
  have hlt : q - i < (es.drop i).length := by rw [List.length_drop]; omega
  refine findPos_isSome pred (es.drop i) i (q - i) hlt ?_
  rw [List.getElem_drop]
  simp only [Nat.add_sub_cancel' hiq]
  exact hp

theorem firstLiveFrom_some {I O : Type} (es : List (entry I O)) (lin : bitset)
    (i q : Nat) (h : firstLiveFrom es lin i = some q) :
    i ≤ q ∧ ∃ hq : q < es.length, lin.get es[q].id = false ∧
      ∀ j, i ≤ j → j < q → ∀ hj : j < es.length, lin.get es[j].id = true := by
  unfold firstLiveFrom at h
  rw [firstLiveAux_eq_findPos] at h
  obtain ⟨hiq, hq, hpq, hprev⟩ := findPos_drop_some _ es i q h
  refine ⟨hiq, hq, by simpa using hpq, ?_⟩
  intro j hij hjq hj
  have := hprev j hij hjq hj
  simpa using this

theorem firstLiveFrom_none {I O : Type} (es : List (entry I O)) (lin : bitset)
    (i : Nat) (h : firstLiveFrom es lin i = none) :
    ∀ j, i ≤ j → ∀ hj : j < es.length, lin.get es[j].id = true := by
  unfold firstLiveFrom at h
  rw [firstLiveAux_eq_findPos] at h
  intro j hij hj
  have := findPos_drop_none _ es i h j hij hj
  simpa using this

theorem firstLiveFrom_isSome {I O : Type} (es : List (entry I O)) (lin : bitset)
    (i q : Nat) (hiq : i ≤ q) (hq : q < es.length)
    (hlive : lin.get es[q].id = false) : (firstLiveFrom es lin i).isSome := by
  unfold firstLiveFrom
  rw [firstLiveAux_eq_findPos]
  exact findPos_drop_isSome _ es i q hiq hq (by simpa using hlive)

example : checkOperationsFuel regModel
    [⟨0, (true, 100), 0, 0, 100⟩, ⟨1, (false, 0), 25, 100, 75⟩,
      ⟨2, (false, 0), 30, 0, 60⟩] false 100 = some CheckResult.Ok := by decide

example : checkOperationsFuel regModel
    [⟨0, (true, 200), 0, 0, 100⟩, ⟨1, (false, 0), 10, 200, 30⟩,
      ⟨2, (false, 0), 40, 0, 90⟩] false 100 = some CheckResult.Illegal := by decide

/-- C8: for a history of exactly one operation (default partitioner,
well-formed interval), the check returns `Ok` iff
`step(init, input, output)` accepts the operation. -/
theorem checkOperations_single_op (S I O : Type) (m : Model S I O)
    (hpart : m.partition = none) (op : Operation I O) (hwf : op.call ≤ op.ret) :
    checkOperationsFuel m [op] false 4 =
      some (if (m.step m.init op.input op.output).1 then CheckResult.Ok
        else CheckResult.Illegal) := by
  have hme : makeEntries [op] =
      [⟨callEntry, Sum.inl op.input, 0, op.call, op.clientId⟩,
        ⟨returnEntry, Sum.inr op.output, 0, op.ret, op.clientId⟩] := by
    have hByTime : byTimeLE
        (⟨callEntry, Sum.inl op.input, 0, op.call, op.clientId⟩ : entry I O)
        ⟨returnEntry, Sum.inr op.output, 0, op.ret, op.clientId⟩ := by
      rw [byTimeLE_iff_rank]
      unfold entryRank
      simp only [callEntry, returnEntry, Bool.cond_false, Bool.cond_true]
      omega
    unfold makeEntries opEntries
    simp [List.insertionSort, List.orderedInsert, hByTime]
  unfold checkOperationsFuel modelPartition
  rw [hpart]
  simp only [Option.getD_none, noPartition, List.map_cons, List.map_nil, hme]
  rcases hstep : m.step m.init op.input op.output with ⟨ok, s'⟩
  cases ok
  all_goals simp [checkPartitionsFuel, List.mapM, List.mapM.loop, runCheck,
    checkStep, initState, firstLiveFrom, firstLiveAux, matchOf, cacheContains,
    emptyCache, finishTrue, callsSeq, frameId, newBitset, bitset.get, bitset.set,
    bitset.clone, bitset.hash, bitsetIndex, hstep, findPos, updateLongest,
    cacheInsert]

/-- Witness for C8: a single read of 0 against the register model. -/
theorem checkOperations_single_op_witness :
    checkOperationsFuel regModel [⟨0, (false, 0), 0, 0, 10⟩] false 4 =
      some (if (regModel.step regModel.init (false, 0) 0).1 then CheckResult.Ok
        else CheckResult.Illegal) :=
  checkOperations_single_op Nat (Bool × Nat) Nat regModel rfl
    ⟨0, (false, 0), 0, 0, 10⟩ (by decide)

/-- Counterexample for C3: a return-before-call event history is not
rejected with any distinct `InvalidHistory` result — the check runs the
ordinary search and returns `Illegal` (under a model accepting every
step, so the verdict comes from the malformed structure alone). -/
theorem checkEvents_no_invalidHistory_cex :
    checkEventsFuel acceptAll
      [⟨0, ReturnEvent, Sum.inr 9, 0⟩, ⟨0, CallEvent, Sum.inl 1, 0⟩] false 4 =
      some CheckResult.Illegal := by decide

/-- C3 (amended): the checker has no `InvalidHistory` result —
`CheckResult` has exactly the values `Unknown`, `Ok`, `Illegal` — and
malformed histories are not detected: a return-before-call event
history and an unmatched call are fed to the ordinary search (their
unmatched nodes are treated as returns, here yielding `Illegal` even
under a model that accepts every step). -/
theorem checkEvents_malformed_processed :
    (∀ r : CheckResult, r = CheckResult.Unknown ∨ r = CheckResult.Ok ∨
      r = CheckResult.Illegal) ∧
    checkEventsFuel acceptAll
      [⟨0, ReturnEvent, Sum.inr 9, 0⟩, ⟨0, CallEvent, Sum.inl 1, 0⟩] false 4 =
      some CheckResult.Illegal ∧
    checkEventsFuel acceptAll [⟨0, CallEvent, Sum.inl 1, 5⟩] false 4 =
      some CheckResult.Illegal := by
  refine ⟨fun r => ?_, by decide, by decide⟩
  cases r
  · exact Or.inl rfl
  · exact Or.inr (Or.inl rfl)
  · exact Or.inr (Or.inr rfl)

theorem matchOf_oob {I O : Type} (es : List (entry I O)) {p : Nat}
    (hp : es.length ≤ p) : matchOf es p = none := by
  unfold matchOf
  rw [List.getElem?_eq_none hp]

theorem matchOf_of_ret {I O : Type} (es : List (entry I O)) {p : Nat}
    (hp : p < es.length) (hr : (es.get ⟨p, hp⟩).kind = returnEntry) :
    matchOf es p = none := by
  unfold matchOf
  rw [List.getElem?_eq_getElem hp]
  have : es[p].kind = returnEntry := hr
  simp [this, returnEntry, callEntry]

theorem matchOf_some {I O : Type} (es : List (entry I O)) {p q : Nat}
    (h : matchOf es p = some q) :
    ∃ hp : p < es.length, (es.get ⟨p, hp⟩).kind = callEntry ∧ p < q ∧
      ∃ hq : q < es.length, (es.get ⟨q, hq⟩).kind = returnEntry ∧
        (es.get ⟨q, hq⟩).id = (es.get ⟨p, hp⟩).id ∧
        ∀ j, p < j → j < q → ∀ hj : j < es.length,
          ¬((es.get ⟨j, hj⟩).kind = returnEntry ∧
            (es.get ⟨j, hj⟩).id = (es.get ⟨p, hp⟩).id) := by
  unfold matchOf at h
  cases hpe : es[p]? with
  | none => simp only [hpe] at h; exact absurd h (by simp)
  | some e =>
    simp only [hpe] at h
    obtain ⟨hp, hpv⟩ := List.getElem?_eq_some.mp hpe
    by_cases hk : (e.kind == callEntry) = true
    · rw [if_pos hk] at h
      obtain ⟨hpq, hq, hpredq, hprev⟩ := findPos_drop_some _ es (p + 1) q h
      rw [Bool.and_eq_true, beq_iff_eq, beq_iff_eq] at hpredq
      refine ⟨hp, ?_⟩
      simp only [List.get_eq_getElem]
      refine ⟨?_, by omega, hq, hpredq.1, ?_, ?_⟩
      · rw [hpv]; exact beq_iff_eq.mp hk
      · rw [hpv]; exact hpredq.2
      · intro j hpj hjq hj hcon
        have hfalse := hprev j (by omega) hjq hj
        rw [hpv] at hcon
        rw [hcon.1, hcon.2] at hfalse
        simp at hfalse
    · rw [if_neg hk] at h
      exact absurd h (by simp)

theorem findPos_at_unique {I O : Type} (pred : entry I O → Bool)
    (es : List (entry I O)) (j : Nat) (hj : j < es.length)
    (hpred : pred es[j] = true)
    (huniq : ∀ k, ∀ hk : k < es.length, pred es[k] = true → k = j) :
    findPos pred es 0 = some j := by
  have hs : (findPos pred (es.drop 0) 0).isSome :=
    findPos_drop_isSome pred es 0 j (Nat.zero_le j) hj hpred
  rw [List.drop_zero] at hs
  obtain ⟨q, hq⟩ := Option.isSome_iff_exists.mp hs
  have hq0 : findPos pred (es.drop 0) 0 = some q := by rw [List.drop_zero]; exact hq
  obtain ⟨_, hql, hpq, _⟩ := findPos_drop_some pred es 0 q hq0
  rw [hq, huniq q hql hpq]

theorem matchOf_isSome_of_call {I O : Type} {es : List (entry I O)} {n : Nat}
    (wf : WFEntries es n) {p : Nat} (hp : p < es.length)
    (hc : (es.get ⟨p, hp⟩).kind = callEntry) : (matchOf es p).isSome := by
  have hid : (es.get ⟨p, hp⟩).id < n := wf.idlt ⟨p, hp⟩
  obtain ⟨r, hrk, hrid⟩ := wf.exRet ⟨(es.get ⟨p, hp⟩).id, hid⟩
  have hpr : p < (r : Nat) := wf.callBeforeRet ⟨p, hp⟩ r hc hrk (by rw [hrid])
  unfold matchOf
  simp only [List.getElem?_eq_getElem hp]
  have hkb : (es[p].kind == callEntry) = true := by rw [beq_iff_eq]; exact hc
  rw [if_pos hkb]
  refine findPos_drop_isSome _ es (p + 1) (r : Nat) hpr r.isLt ?_
  rw [Bool.and_eq_true, beq_iff_eq, beq_iff_eq]
  have h1 : es[(r : Nat)].kind = returnEntry := hrk
  have h2 : es[(r : Nat)].id = (es.get ⟨p, hp⟩).id := hrid
  exact ⟨h1, h2⟩

theorem callPos_of_call {I O : Type} {es : List (entry I O)} {n : Nat}
    (wf : WFEntries es n) {p : Nat} (hp : p < es.length)
    (hc : (es.get ⟨p, hp⟩).kind = callEntry) :
    callPos es (es.get ⟨p, hp⟩).id = some p := by
  unfold callPos
  refine findPos_at_unique _ es p hp ?_ ?_
  · rw [Bool.and_eq_true, beq_iff_eq, beq_iff_eq]
    exact ⟨hc, rfl⟩
  · intro k hk hpk
    rw [Bool.and_eq_true, beq_iff_eq, beq_iff_eq] at hpk
    have hk1 : (es.get ⟨k, hk⟩).kind = (es.get ⟨p, hp⟩).kind := by
      have : es[k].kind = callEntry := hpk.1
      rw [List.get_eq_getElem, List.get_eq_getElem]
      rw [this]
      exact hc.symm
    have hk2 : (es.get ⟨k, hk⟩).id = (es.get ⟨p, hp⟩).id := hpk.2
    exact congrArg Fin.val (wf.uniq ⟨k, hk⟩ ⟨p, hp⟩ hk1 hk2)

theorem retPos_of_ret {I O : Type} {es : List (entry I O)} {n : Nat}
    (wf : WFEntries es n) {r : Nat} (hr : r < es.length)
    (hk : (es.get ⟨r, hr⟩).kind = returnEntry) :
    retPos es (es.get ⟨r, hr⟩).id = some r := by
  unfold retPos
  refine findPos_at_unique _ es r hr ?_ ?_
  · rw [Bool.and_eq_true, beq_iff_eq, beq_iff_eq]
    exact ⟨hk, rfl⟩
  · intro k hkl hpk
    rw [Bool.and_eq_true, beq_iff_eq, beq_iff_eq] at hpk
    have hk1 : (es.get ⟨k, hkl⟩).kind = (es.get ⟨r, hr⟩).kind := by
      have : es[k].kind = returnEntry := hpk.1
      rw [List.get_eq_getElem, List.get_eq_getElem]
      rw [this]
      exact hk.symm
    have hk2 : (es.get ⟨k, hkl⟩).id = (es.get ⟨r, hr⟩).id := hpk.2
    exact congrArg Fin.val (wf.uniq ⟨k, hkl⟩ ⟨r, hr⟩ hk1 hk2)

theorem callPos_some {I O : Type} {es : List (entry I O)} {i c : Nat}
    (h : callPos es i = some c) :
    ∃ hc : c < es.length, (es.get ⟨c, hc⟩).kind = callEntry ∧
      (es.get ⟨c, hc⟩).id = i := by
  unfold callPos at h
  rw [← List.drop_zero es] at h
  obtain ⟨_, hc, hp, _⟩ := findPos_drop_some _ es 0 c h
  rw [Bool.and_eq_true, beq_iff_eq, beq_iff_eq] at hp
  exact ⟨hc, hp.1, hp.2⟩

theorem retPos_some {I O : Type} {es : List (entry I O)} {i r : Nat}
    (h : retPos es i = some r) :
    ∃ hr : r < es.length, (es.get ⟨r, hr⟩).kind = returnEntry ∧
      (es.get ⟨r, hr⟩).id = i := by
  unfold retPos at h
  rw [← List.drop_zero es] at h
  obtain ⟨_, hr, hp, _⟩ := findPos_drop_some _ es 0 r h
  rw [Bool.and_eq_true, beq_iff_eq, beq_iff_eq] at hp
  exact ⟨hr, hp.1, hp.2⟩

theorem matchOf_eq_retPos {I O : Type} {es : List (entry I O)} {n : Nat}
    (wf : WFEntries es n) {p q : Nat} (h : matchOf es p = some q) :
    ∃ hp : p < es.length, retPos es (es.get ⟨p, hp⟩).id = some q := by
  obtain ⟨hp, _, _, hq, hqk, hqid, _⟩ := matchOf_some es h
  refine ⟨hp, ?_⟩
  rw [← hqid]
  exact retPos_of_ret wf hq hqk

theorem stepAtPos_eq {S I O : Type} (m : Model S I O) {es : List (entry I O)}
    {n : Nat} (wf : WFEntries es n) {p : Nat} (hp : p < es.length)
    (hc : (es.get ⟨p, hp⟩).kind = callEntry) :
    ∃ (q : Nat) (input : I) (output : O),
      matchOf es p = some q ∧ (es.get ⟨p, hp⟩).value = Sum.inl input ∧
      (∃ hq : q < es.length, (es.get ⟨q, hq⟩).value = Sum.inr output) ∧
      ∀ s, stepAtPos m es s p = some (m.step s input output) := by
  obtain ⟨q, hq⟩ := Option.isSome_iff_exists.mp (matchOf_isSome_of_call wf hp hc)
  obtain ⟨hp2, _, _, hql, hqk, _, _⟩ := matchOf_some es hq
  obtain ⟨input, hin⟩ := Sum.isLeft_iff.mp (wf.callVal ⟨p, hp⟩ hc)
  obtain ⟨output, hout⟩ := Sum.isRight_iff.mp (wf.retVal ⟨q, hql⟩ hqk)
  refine ⟨q, input, output, hq, hin, ⟨hql, hout⟩, fun s => ?_⟩
  unfold stepAtPos
  rw [hq]
  have h1 : es[p]? = some (es.get ⟨p, hp⟩) := by
    rw [List.getElem?_eq_getElem hp]; rfl
  have h2 : es[q]? = some (es.get ⟨q, hql⟩) := by
    rw [List.getElem?_eq_getElem hql]; rfl
  simp only [h1, h2, hin, hout]

theorem exists_live_ret {I O : Type} {es : List (entry I O)} {n : Nat}
    (wf : WFEntries es n) (L : bitset) {j : Nat} (hj : j < es.length)
    (hlive : L.get (es.get ⟨j, hj⟩).id = false) :
    ∃ r, ∃ hr : r < es.length, (es.get ⟨r, hr⟩).kind = returnEntry ∧
      L.get (es.get ⟨r, hr⟩).id = false := by
  have hid : (es.get ⟨j, hj⟩).id < n := wf.idlt ⟨j, hj⟩
  obtain ⟨r, hrk, hrid⟩ := wf.exRet ⟨(es.get ⟨j, hj⟩).id, hid⟩
  have hrk2 : (es.get ⟨(r : Nat), r.isLt⟩).kind = returnEntry := hrk
  have hrid2 : (es.get ⟨(r : Nat), r.isLt⟩).id = (es.get ⟨j, hj⟩).id := hrid
  exact ⟨(r : Nat), r.isLt, hrk2, by rw [hrid2]; exact hlive⟩

theorem wordsNorm_newBitset (n : Nat) : wordsNorm (newBitset n) := by
  intro w hw
  unfold newBitset at hw
  rw [List.eq_of_mem_replicate hw]
  exact Nat.pos_pow_of_pos 64 (by omega)

theorem getD_mem_of_lt (b : bitset) {i : Nat} (hl : i < b.length) :
    b.getD i 0 ∈ b := by
  rw [List.getD_eq_getElem?_getD, List.getElem?_eq_getElem hl]
  exact List.getElem_mem hl

theorem getD_lt_two_pow {b : bitset} (hb : wordsNorm b) (i : Nat) :
    b.getD i 0 < 2 ^ 64 := by
  rcases Nat.lt_or_ge i b.length with hl | hl
  · exact hb _ (getD_mem_of_lt b hl)
  · rw [getD_oob _ hl]
    exact Nat.pos_pow_of_pos 64 (by omega)

theorem wordsNorm_set {b : bitset} (hb : wordsNorm b) (p : Nat) :
    wordsNorm (b.set p) := by
  intro w hw
  unfold bitset.set at hw
  rcases List.mem_or_eq_of_mem_set hw with hmem | heq
  · exact hb w hmem
  · subst heq
    refine Nat.or_lt_two_pow (getD_lt_two_pow hb _) ?_
    rw [Nat.shiftLeft_eq, one_mul]
    refine Nat.pow_lt_pow_right (by omega) ?_
    show p % 64 < 64
    exact Nat.mod_lt _ (by omega)

theorem wordsNorm_clear {b : bitset} (hb : wordsNorm b) (p : Nat) :
    wordsNorm (b.clear p) := by
  intro w hw
  unfold bitset.clear at hw
  rcases List.mem_or_eq_of_mem_set hw with hmem | heq
  · exact hb w hmem
  · subst heq
    exact Nat.lt_of_le_of_lt (Nat.and_le_left ..) (getD_lt_two_pow hb _)

theorem bitset.testBit_high {b : bitset} (hb : wordsNorm b) (i k : Nat)
    (hk : 64 ≤ k) : (b.getD i 0).testBit k = false := by
  refine Nat.testBit_lt_two_pow (Nat.lt_of_lt_of_le (getD_lt_two_pow hb i) ?_)
  exact Nat.pow_le_pow_right (by omega) hk

/-- Canonicity: same length, normalized words, same bits — same value. -/
theorem bitset.ext_norm {b1 b2 : bitset} (hlen : b1.length = b2.length)
    (h1 : wordsNorm b1) (h2 : wordsNorm b2)
    (hget : ∀ p, b1.get p = b2.get p) : b1 = b2 := by
  refine List.ext_getElem hlen ?_
  intro i hi1 hi2
  refine Nat.eq_of_testBit_eq ?_
  intro k
  rcases Nat.lt_or_ge k 64 with hk | hk
  · have hp := hget (64 * i + k)
    rw [bitset.get_eq_testBit, bitset.get_eq_testBit] at hp
    have hdiv : (64 * i + k) / 64 = i := by omega
    have hmod : (64 * i + k) % 64 = k := by omega
    rw [hdiv, hmod] at hp
    have e1 : b1.getD i 0 = b1[i] := by
      rw [List.getD_eq_getElem?_getD, List.getElem?_eq_getElem hi1]; rfl
    have e2 : b2.getD i 0 = b2[i] := by
      rw [List.getD_eq_getElem?_getD, List.getElem?_eq_getElem hi2]; rfl
    rw [e1, e2] at hp
    exact hp
  · have m1 : b1[i] < 2 ^ 64 := h1 _ (List.getElem_mem hi1)
    have m2 : b2[i] < 2 ^ 64 := h2 _ (List.getElem_mem hi2)
    have hle : (2 : Nat) ^ 64 ≤ 2 ^ k := Nat.pow_le_pow_right (by omega) hk
    have t1 := Nat.testBit_lt_two_pow (Nat.lt_of_lt_of_le m1 hle)
    have t2 := Nat.testBit_lt_two_pow (Nat.lt_of_lt_of_le m2 hle)
    exact t1.trans t2.symm

theorem length_foldl_set {b : bitset} {ids : List Nat} :
    (ids.foldl bitset.set b).length = b.length := by
  induction ids generalizing b with
  | nil => rfl
  | cons i t ih => rw [List.foldl_cons, ih, bitset.length_set]

theorem wordsNorm_foldl_set {b : bitset} (hb : wordsNorm b) (ids : List Nat) :
    wordsNorm (ids.foldl bitset.set b) := by
  induction ids generalizing b with
  | nil => exact hb
  | cons i t ih => exact ih (wordsNorm_set hb i)

theorem get_foldl_set {b : bitset} {ids : List Nat}
    (hids : ∀ i ∈ ids, i / 64 < b.length) (q : Nat) :
    (ids.foldl bitset.set b).get q = (b.get q || decide (q ∈ ids)) := by
  induction ids generalizing b with
  | nil => simp
  | cons i t ih =>
    rw [List.foldl_cons]
    rw [ih (fun j hj => by rw [bitset.length_set]; exact hids j (by simp [hj]))]
    rcases eq_or_ne q i with rfl | hne
    · rw [bitset.get_set_self b q (hids q (by simp))]
      simp
    · rw [bitset.get_set_ne b i q (Ne.symm hne)]
      simp [hne]

/-- Clearing a freshly set bit restores the canonical value. -/
theorem set_clear_cancel {b : bitset} (hb : wordsNorm b) {i : Nat}
    (hi : i / 64 < b.length) (hget : b.get i = false) :
    (b.set i).clear i = b := by
  refine bitset.ext_norm ?_ (wordsNorm_clear (wordsNorm_set hb i) i) hb ?_
  · rw [bitset.length_clear, bitset.length_set]
  · intro p
    rcases eq_or_ne p i with rfl | hne
    · rw [bitset.get_clear_self, hget]
    · rw [bitset.get_clear_ne _ _ _ (Ne.symm hne), bitset.get_set_ne _ _ _ (Ne.symm hne)]

theorem frameId_eq {S I O : Type} (es : List (entry I O)) (f : callsEntry S)
    (hf : f.entryIdx < es.length) : frameId es f = (es.get ⟨f.entryIdx, hf⟩).id := by
  unfold frameId
  rw [List.getElem?_eq_getElem hf]
  rfl

theorem bitsetIndex_major_lt {i n : Nat} (hi : i < n) :
    i / 64 < (newBitset n).length := by
  rw [bitset.length_newBitset]
  by_cases h : n % 64 = 0
  · rw [if_neg (by omega)]
    have hdvd : 64 ∣ n := Nat.dvd_of_mod_eq_zero h
    have := Nat.div_lt_div_of_lt_of_dvd hdvd hi
    omega
  · rw [if_pos (by omega)]
    have h2 : i / 64 ≤ n / 64 := Nat.div_le_div_right (Nat.le_of_lt hi)
    omega

theorem callsSeq_cons {S I O : Type} (es : List (entry I O)) (f : callsEntry S)
    (calls : List (callsEntry S)) :
    callsSeq es (f :: calls) = callsSeq es calls ++ [frameId es f] := by
  unfold callsSeq
  rw [List.reverse_cons, List.map_append]
  rfl

theorem stackBits_cons {S I O : Type} (es : List (entry I O)) (f : callsEntry S)
    (calls : List (callsEntry S)) :
    stackBits es (f :: calls) = (stackBits es calls).set (frameId es f) := by
  unfold stackBits
  rw [callsSeq_cons, List.foldl_append]
  rfl

theorem length_stackBits {S I O : Type} (es : List (entry I O))
    (calls : List (callsEntry S)) :
    (stackBits es calls).length = (newBitset (es.length / 2)).length :=
  length_foldl_set

theorem wordsNorm_stackBits {S I O : Type} (es : List (entry I O))
    (calls : List (callsEntry S)) : wordsNorm (stackBits es calls) :=
  wordsNorm_foldl_set (wordsNorm_newBitset _) _

theorem mem_callsSeq {S I O : Type} (es : List (entry I O))
    (calls : List (callsEntry S)) (q : Nat) :
    q ∈ callsSeq es calls ↔ ∃ f ∈ calls, frameId es f = q := by
  unfold callsSeq
  simp [List.mem_map, List.mem_reverse]

theorem get_stackBits {S I O : Type} (es : List (entry I O))
    (calls : List (callsEntry S))
    (hids : ∀ i ∈ callsSeq es calls, i < es.length / 2) (q : Nat) :
    (stackBits es calls).get q = decide (q ∈ callsSeq es calls) := by
  unfold stackBits
  rw [get_foldl_set (fun i hi => bitsetIndex_major_lt (hids i hi)) q]
  rw [bitset.get_newBitset]
  simp

theorem framesOk_append {S I O : Type} (m : Model S I O) (es : List (entry I O))
    (l : List (callsEntry S)) (f : callsEntry S) (s0 sfin : S) :
    framesOk m es s0 (l ++ [f]) sfin ↔
      ∃ smid, framesOk m es s0 l smid ∧ f.state = smid ∧
        stepAtPos m es smid f.entryIdx = some (true, sfin) := by
  induction l generalizing s0 with
  | nil =>
    simp only [List.nil_append]
    constructor
    · rintro ⟨hst, s1, hstep, hrest⟩
      exact ⟨s0, rfl, hst, by rw [show sfin = s1 from hrest]; exact hstep⟩
    · rintro ⟨smid, hmid, hst, hstep⟩
      rw [show smid = s0 from hmid] at hst hstep
      exact ⟨hst, sfin, hstep, rfl⟩
  | cons g t ih =>
    simp only [List.cons_append]
    constructor
    · rintro ⟨hst, s1, hstep, hrest⟩
      obtain ⟨smid, hmid, hfs, hfstep⟩ := (ih s1).mp hrest
      exact ⟨smid, ⟨hst, s1, hstep, hmid⟩, hfs, hfstep⟩
    · rintro ⟨smid, ⟨hst, s1, hstep, hmid⟩, hfs, hfstep⟩
      exact ⟨hst, s1, hstep, (ih s1).mpr ⟨smid, hmid, hfs, hfstep⟩⟩

theorem framesOk_idSeqRun {S I O : Type} {m : Model S I O} {es : List (entry I O)}
    {n : Nat} (wf : WFEntries es n) (l : List (callsEntry S))
    (hvalid : ∀ f ∈ l, ∃ hf : f.entryIdx < es.length,
      (es.get ⟨f.entryIdx, hf⟩).kind = callEntry)
    (s0 sfin : S) (h : framesOk m es s0 l sfin) :
    idSeqRun m es s0 (l.map (frameId es)) = some sfin := by
  induction l generalizing s0 with
  | nil => rw [show sfin = s0 from h]; rfl
  | cons f t ih =>
    obtain ⟨hst, s1, hstep, hrest⟩ := h
    obtain ⟨hf, hfk⟩ := hvalid f (by simp)
    rw [List.map_cons]
    show idSeqRun m es s0 (frameId es f :: t.map (frameId es)) = some sfin
    unfold idSeqRun
    rw [frameId_eq es f hf]
    simp only [callPos_of_call wf hf hfk, hstep]
    exact ih (fun g hg => hvalid g (by simp [hg])) s1 hrest

/-- The three productive outcomes of a loop iteration: descend into an
uncached accepted extension, skip the scanned call, or backtrack. -/
theorem checkStep_next_inv {S I O : Type} {m : Model S I O} {es : List (entry I O)}
    {verbose : Bool} {st st' : SearchState S}
    (h : checkStep m es verbose st = StepRes.next st') :
    ∃ p, st.pos = some p ∧ ∃ hp : p < es.length,
    ((∃ s2, stepAtPos m es st.state p = some (true, s2) ∧
        cacheContains m.sEq st.cache ⟨st.linearized.set (es.get ⟨p, hp⟩).id, s2⟩ = false ∧
        st' = { pos := firstLiveFrom es (st.linearized.set (es.get ⟨p, hp⟩).id) 0,
                linearized := st.linearized.set (es.get ⟨p, hp⟩).id,
                state := s2,
                cache := cacheInsert st.cache
                  (bitset.hash (st.linearized.set (es.get ⟨p, hp⟩).id))
                  ⟨st.linearized.set (es.get ⟨p, hp⟩).id, s2⟩,
                calls := ⟨p, st.state⟩ :: st.calls,
                longest := st.longest }) ∨
     (((∃ s2, stepAtPos m es st.state p = some (false, s2)) ∨
       (∃ s2, stepAtPos m es st.state p = some (true, s2) ∧
         cacheContains m.sEq st.cache ⟨st.linearized.set (es.get ⟨p, hp⟩).id, s2⟩ = true)) ∧
      st' = { st with pos := firstLiveFrom es st.linearized (p + 1) }) ∨
     (matchOf es p = none ∧ ∃ top rest, st.calls = top :: rest ∧
       ∃ htop : top.entryIdx < es.length,
       st' = { pos := firstLiveFrom es
                 (st.linearized.clear (es.get ⟨top.entryIdx, htop⟩).id)
                 (top.entryIdx + 1),
               linearized := st.linearized.clear (es.get ⟨top.entryIdx, htop⟩).id,
               state := top.state,
               cache := st.cache,
               calls := rest,
               longest := if verbose then updateLongest es st.calls st.longest
                 else st.longest })) := by
  unfold checkStep at h
  cases hfl : firstLiveFrom es st.linearized 0 with
  | none => simp only [hfl] at h; exact StepRes.noConfusion h
  | some fl =>
    simp only [hfl] at h
    cases hpos : st.pos with
    | none => simp only [hpos] at h; exact StepRes.noConfusion h
    | some p =>
      simp only [hpos] at h
      cases hpe : es[p]? with
      | none => simp only [hpe] at h; exact StepRes.noConfusion h
      | some e =>
        simp only [hpe] at h
        obtain ⟨hp, hpv⟩ := List.getElem?_eq_some.mp hpe
        subst hpv
        refine ⟨p, rfl, hp, ?_⟩
        simp only [List.get_eq_getElem]
        cases hmo : matchOf es p with
        | some mi =>
          simp only [hmo] at h
          cases hme : es[mi]? with
          | none => simp only [hme] at h; exact StepRes.noConfusion h
          | some matching =>
            simp only [hme] at h
            obtain ⟨hmi, hmv2⟩ := List.getElem?_eq_some.mp hme
            subst hmv2
            cases hev : es[p].value with
            | inr o => simp only [hev] at h; exact StepRes.noConfusion h
            | inl input =>
              cases hmv : es[mi].value with
              | inl i2 => simp only [hev, hmv] at h; exact StepRes.noConfusion h
              | inr output =>
                simp only [hev, hmv] at h
                have hstep : stepAtPos m es st.state p =
                    some (m.step st.state input output) := by
                  unfold stepAtPos
                  simp only [hmo, hpe, hme, hev, hmv]
                rcases hok : m.step st.state input output with ⟨ok, s2⟩
                rw [hok] at h hstep
                cases ok with
                | false =>
                  simp only at h
                  injection h with h
                  exact Or.inr (Or.inl ⟨Or.inl ⟨s2, hstep⟩, h.symm⟩)
                | true =>
                  simp only at h
                  by_cases hcc : cacheContains m.sEq st.cache
                      ⟨st.linearized.set es[p].id, s2⟩ = true
                  · rw [show (st.linearized.clone).set es[p].id =
                      st.linearized.set es[p].id from rfl] at h
                    simp only [hcc, Bool.not_true, if_neg] at h
                    injection h with h
                    exact Or.inr (Or.inl ⟨Or.inr ⟨s2, hstep, hcc⟩, h.symm⟩)
                  · have hccf : cacheContains m.sEq st.cache
                        ⟨st.linearized.set es[p].id, s2⟩ = false :=
                      Bool.not_eq_true _ ▸ Bool.of_not_eq_true hcc
                    rw [show (st.linearized.clone).set es[p].id =
                      st.linearized.set es[p].id from rfl] at h
                    simp only [hccf, Bool.not_false, if_pos] at h
                    injection h with h
                    exact Or.inl ⟨s2, hstep, hccf, h.symm⟩
        | none =>
          simp only [hmo] at h
          cases hcalls : st.calls with
          | nil => simp only [hcalls] at h; exact StepRes.noConfusion h
          | cons top rest =>
            simp only [hcalls] at h
            cases hte : es[top.entryIdx]? with
            | none => simp only [hte] at h; exact StepRes.noConfusion h
            | some topEntry =>
              simp only [hte] at h
              obtain ⟨htop, htv⟩ := List.getElem?_eq_some.mp hte
              subst htv
              injection h with h
              exact Or.inr (Or.inr ⟨rfl, top, rest, rfl, htop, h.symm⟩)

/-- The two terminal outcomes of a loop iteration. -/
theorem checkStep_done_inv {S I O : Type} {m : Model S I O} {es : List (entry I O)}
    {verbose acc : Bool} {st st' : SearchState S}
    (h : checkStep m es verbose st = StepRes.done acc st') :
    (acc = true ∧ firstLiveFrom es st.linearized 0 = none ∧ st' = finishTrue es st) ∨
    (acc = false ∧ st' = st ∧ st.calls = [] ∧
      (firstLiveFrom es st.linearized 0).isSome ∧
      ∃ p, st.pos = some p ∧ p < es.length ∧ matchOf es p = none) := by
  unfold checkStep at h
  cases hfl : firstLiveFrom es st.linearized 0 with
  | none =>
    simp only [hfl] at h
    injection h with h1 h2
    exact Or.inl ⟨h1.symm, rfl, h2.symm⟩
  | some fl =>
    simp only [hfl] at h
    cases hpos : st.pos with
    | none => simp only [hpos] at h; exact StepRes.noConfusion h
    | some p =>
      simp only [hpos] at h
      cases hpe : es[p]? with
      | none => simp only [hpe] at h; exact StepRes.noConfusion h
      | some e =>
        simp only [hpe] at h
        obtain ⟨hp, hpv⟩ := List.getElem?_eq_some.mp hpe
        cases hmo : matchOf es p with
        | some mi =>
          simp only [hmo] at h
          cases hme : es[mi]? with
          | none => simp only [hme] at h; exact StepRes.noConfusion h
          | some matching =>
            simp only [hme] at h
            cases hev : e.value with
            | inr o => simp only [hev] at h; exact StepRes.noConfusion h
            | inl input =>
              cases hmv : matching.value with
              | inl i2 => simp only [hev, hmv] at h; exact StepRes.noConfusion h
              | inr output =>
                simp only [hev, hmv] at h
                rcases hok : m.step st.state input output with ⟨ok, s2⟩
                rw [hok] at h
                cases ok with
                | false => simp only at h; exact StepRes.noConfusion h
                | true =>
                  simp only at h
                  by_cases hcc : cacheContains m.sEq st.cache
                      ⟨(st.linearized.clone).set e.id, s2⟩ = true
                  · simp only [hcc, Bool.not_true, if_neg] at h
                    exact StepRes.noConfusion h
                  · have hccf := Bool.not_eq_true _ ▸ Bool.of_not_eq_true hcc
                    simp only [hccf, Bool.not_false, if_pos] at h
                    exact StepRes.noConfusion h
        | none =>
          simp only [hmo] at h
          cases hcalls : st.calls with
          | nil =>
            simp only [hcalls] at h
            injection h with h1 h2
            exact Or.inr ⟨h1.symm, h2.symm, rfl, rfl, p, rfl, hp, hmo⟩
          | cons top rest =>
            simp only [hcalls] at h
            cases hte : es[top.entryIdx]? with
            | none => simp only [hte] at h; exact StepRes.noConfusion h
            | some topEntry => simp only [hte] at h; exact StepRes.noConfusion h

theorem mem_callsSeq_iff_map {S I O : Type} (es : List (entry I O))
    (calls : List (callsEntry S)) (q : Nat) :
    q ∈ callsSeq es calls ↔ q ∈ calls.map (frameId es) := by
  unfold callsSeq
  simp [List.mem_reverse]

theorem callsSeq_lt {S I O : Type} {es : List (entry I O)} {n : Nat}
    (wf : WFEntries es n) {calls : List (callsEntry S)}
    (hfw : ∀ f ∈ calls, ∃ hf : f.entryIdx < es.length,
      (es.get ⟨f.entryIdx, hf⟩).kind = callEntry) :
    ∀ i ∈ callsSeq es calls, i < es.length / 2 := by
  intro i hi
  obtain ⟨f, hf, hfi⟩ := (mem_callsSeq es calls i).mp hi
  obtain ⟨hlt, _⟩ := hfw f hf
  rw [← hfi, frameId_eq es f hlt]
  have := wf.idlt ⟨f.entryIdx, hlt⟩
  have hlen := wf.len
  omega

theorem get_stackBits_iff {S I O : Type} {es : List (entry I O)} {n : Nat}
    (wf : WFEntries es n) {calls : List (callsEntry S)}
    (hfw : ∀ f ∈ calls, ∃ hf : f.entryIdx < es.length,
      (es.get ⟨f.entryIdx, hf⟩).kind = callEntry) (q : Nat) :
    (stackBits es calls).get q = true ↔ q ∈ callsSeq es calls := by
  rw [get_stackBits es calls (callsSeq_lt wf hfw) q]
  simp

theorem scanOk_firstLive_zero {I O : Type} (es : List (entry I O)) (L : bitset) :
    scanOk es L (firstLiveFrom es L 0) := by
  cases hfl : firstLiveFrom es L 0 with
  | none =>
    intro j hj
    have := firstLiveFrom_none es L 0 hfl j (Nat.zero_le j) hj
    simpa using this
  | some q =>
    obtain ⟨_, hq, hlive, hbefore⟩ := firstLiveFrom_some es L 0 q hfl
    refine ⟨hq, by simpa using hlive, ?_⟩
    intro j hjq hj hlivej
    have := hbefore j (Nat.zero_le j) hjq hj
    rw [List.get_eq_getElem] at hlivej
    rw [this] at hlivej
    exact absurd hlivej (by simp)

theorem scanOk_after {I O : Type} {es : List (entry I O)} {n : Nat}
    (wf : WFEntries es n) (L : bitset) {c : Nat} (hc : c < es.length)
    (hcall : (es.get ⟨c, hc⟩).kind = callEntry)
    (hbefore : ∀ j, j < c → ∀ hj : j < es.length,
      L.get (es.get ⟨j, hj⟩).id = false → (es.get ⟨j, hj⟩).kind = callEntry) :
    scanOk es L (firstLiveFrom es L (c + 1)) := by
  have hle : ∀ j, j ≤ c → ∀ hj : j < es.length,
      L.get (es.get ⟨j, hj⟩).id = false → (es.get ⟨j, hj⟩).kind = callEntry := by
    intro j hj hjl hlive
    rcases Nat.lt_or_ge j c with h | h
    · exact hbefore j h hjl hlive
    · have : j = c := by omega
      subst this
      exact hcall
  cases hfl : firstLiveFrom es L (c + 1) with
  | none =>
    intro j hj
    by_contra hfalse
    have hlivej : L.get (es.get ⟨j, hj⟩).id = false := by
      cases hval : L.get (es.get ⟨j, hj⟩).id
      · rfl
      · exact absurd hval hfalse
    obtain ⟨r, hr, hrk, hrlive⟩ := exists_live_ret wf L hj hlivej
    rcases Nat.lt_or_ge r (c + 1) with hrc | hrc
    · have := hle r (by omega) hr hrlive
      rw [this] at hrk
      exact absurd hrk (by simp [callEntry, returnEntry])
    · have := firstLiveFrom_none es L (c + 1) hfl r hrc hr
      rw [List.get_eq_getElem] at hrlive
      rw [this] at hrlive
      exact absurd hrlive (by simp)
  | some q =>
    obtain ⟨hcq, hq, hlive, hmid⟩ := firstLiveFrom_some es L (c + 1) q hfl
    refine ⟨hq, by simpa using hlive, ?_⟩
    intro j hjq hj hlivej
    rcases Nat.lt_or_ge j (c + 1) with hjc | hjc
    · exact hle j (by omega) hj hlivej
    · have := hmid j hjc hjq hj
      rw [List.get_eq_getElem] at hlivej
      rw [this] at hlivej
      exact absurd hlivej (by simp)

theorem cacheInsert_wb {S : Type} {cache : Cache S} (hwb : wellBucketed cache)
    (e : cacheEntry S) : wellBucketed (cacheInsert cache e.linearized.hash e) := by
  intro h x hx
  unfold cacheInsert at hx
  rcases eq_or_ne h e.linearized.hash with rfl | hne
  · rw [Function.update_same] at hx
    rcases List.mem_append.mp hx with hmem | hmem
    · exact hwb _ x hmem
    · rw [List.mem_singleton.mp hmem]
  · rw [Function.update_noteq hne] at hx
    exact hwb _ x hx

theorem cacheInsert_mem {S : Type} (cache : Cache S) (hh : Nat) (e : cacheEntry S)
    {h : Nat} {x : cacheEntry S} (hx : x ∈ cache h) :
    x ∈ cacheInsert cache hh e h := by
  unfold cacheInsert
  rcases eq_or_ne h hh with rfl | hne
  · rw [Function.update_same]
    exact List.mem_append_left _ hx
  · rw [Function.update_noteq hne]
    exact hx

theorem cacheInsert_self {S : Type} (cache : Cache S) (hh : Nat) (e : cacheEntry S) :
    e ∈ cacheInsert cache hh e hh := by
  unfold cacheInsert
  rw [Function.update_same]
  exact List.mem_append_right _ (by simp)

theorem cacheInsert_mem_inv {S : Type} {cache : Cache S} {hh : Nat}
    {e : cacheEntry S} {h : Nat} {x : cacheEntry S}
    (hx : x ∈ cacheInsert cache hh e h) : x ∈ cache h ∨ x = e := by
  unfold cacheInsert at hx
  rcases eq_or_ne h hh with rfl | hne
  · rw [Function.update_same] at hx
    rcases List.mem_append.mp hx with hmem | hmem
    · exact Or.inl hmem
    · exact Or.inr (List.mem_singleton.mp hmem)
  · rw [Function.update_noteq hne] at hx
    exact Or.inl hx

theorem updateLongest_eq_foldl {S I O : Type} (es : List (entry I O))
    (calls : List (callsEntry S)) (lg : List (Option (List Nat))) :
    updateLongest es calls lg =
      calls.reverse.foldl (longestUpd es (callsSeq es calls) calls.length) lg := rfl

theorem longestUpd_length {S I O : Type} (es : List (entry I O)) (seq : List Nat)
    (cl : Nat) (lg : List (Option (List Nat))) (f : callsEntry S) :
    (longestUpd es seq cl lg f).length = lg.length := by
  unfold longestUpd
  dsimp only
  cases h : lg[frameId es f]? with
  | none => simp only [h]
  | some o =>
    cases o with
    | none => simp only [h, List.length_set]
    | some s =>
      simp only [h]
      split
      · simp [List.length_set]
      · rfl

theorem foldl_longestUpd_length {S I O : Type} (es : List (entry I O))
    (seq : List Nat) (cl : Nat) (fs : List (callsEntry S)) :
    ∀ lg, (fs.foldl (longestUpd es seq cl) lg).length = lg.length := by
  induction fs with
  | nil => intro lg; rfl
  | cons f t ih =>
    intro lg
    rw [List.foldl_cons, ih, longestUpd_length]

theorem longestUpd_getElem? {S I O : Type} (es : List (entry I O)) (seq : List Nat)
    (cl : Nat) (lg : List (Option (List Nat))) (f : callsEntry S) (i : Nat)
    (v : Option (List Nat)) (h : (longestUpd es seq cl lg f)[i]? = some v) :
    lg[i]? = some v ∨ (v = some seq ∧ i = frameId es f) := by
  unfold longestUpd at h
  dsimp only at h
  cases hl : lg[frameId es f]? with
  | none => rw [hl] at h; exact Or.inl h
  | some o =>
    rw [hl] at h
    have hvid : frameId es f < lg.length := (List.getElem?_eq_some.mp hl).1
    cases o with
    | none =>
      simp only at h
      rcases eq_or_ne i (frameId es f) with rfl | hne
      · rw [List.getElem?_set_self hvid] at h
        exact Or.inr ⟨(Option.some.injEq .. ▸ h).symm, rfl⟩
      · rw [List.getElem?_set_ne (Ne.symm hne)] at h
        exact Or.inl h
    | some s =>
      simp only at h
      by_cases hcl : cl > s.length
      · rw [if_pos hcl] at h
        rcases eq_or_ne i (frameId es f) with rfl | hne
        · rw [List.getElem?_set_self hvid] at h
          exact Or.inr ⟨(Option.some.injEq .. ▸ h).symm, rfl⟩
        · rw [List.getElem?_set_ne (Ne.symm hne)] at h
          exact Or.inl h
      · rw [if_neg hcl] at h
        exact Or.inl h

theorem foldl_longestUpd_getElem? {S I O : Type} (es : List (entry I O))
    (seq : List Nat) (cl : Nat) (fs : List (callsEntry S)) :
    ∀ lg i v, (fs.foldl (longestUpd es seq cl) lg)[i]? = some v →
      lg[i]? = some v ∨ (v = some seq ∧ i ∈ fs.map (frameId es)) := by
  induction fs with
  | nil => intro lg i v h; exact Or.inl h
  | cons f t ih =>
    intro lg i v h
    rw [List.foldl_cons] at h
    rcases ih _ i v h with h1 | h2
    · rcases longestUpd_getElem? es seq cl lg f i v h1 with h3 | ⟨hv, hi⟩
      · exact Or.inl h3
      · exact Or.inr ⟨hv, by rw [hi]; simp⟩
    · exact Or.inr ⟨h2.1, by simp [h2.2]⟩

theorem updateLongest_length {S I O : Type} (es : List (entry I O))
    (calls : List (callsEntry S)) (lg : List (Option (List Nat))) :
    (updateLongest es calls lg).length = lg.length := by
  rw [updateLongest_eq_foldl]
  exact foldl_longestUpd_length es _ _ _ lg

theorem updateLongest_getElem? {S I O : Type} (es : List (entry I O))
    (calls : List (callsEntry S)) (lg : List (Option (List Nat))) (i : Nat)
    (v : Option (List Nat)) (h : (updateLongest es calls lg)[i]? = some v) :
    lg[i]? = some v ∨ (v = some (callsSeq es calls) ∧ i ∈ calls.map (frameId es)) := by
  rw [updateLongest_eq_foldl] at h
  rcases foldl_longestUpd_getElem? es _ _ _ lg i v h with h1 | ⟨hv, hi⟩
  · exact Or.inl h1
  · refine Or.inr ⟨hv, ?_⟩
    rw [List.map_reverse, List.mem_reverse] at hi
    exact hi

theorem stepAtPos_call {S I O : Type} {m : Model S I O} {es : List (entry I O)}
    {s : S} {p : Nat} {x : Bool × S} (h : stepAtPos m es s p = some x) :
    ∃ hp : p < es.length, (es.get ⟨p, hp⟩).kind = callEntry := by
  unfold stepAtPos at h
  cases hmo : matchOf es p with
  | none => simp only [hmo] at h; exact absurd h (by simp)
  | some q =>
    obtain ⟨hp, hkind, _⟩ := matchOf_some es hmo
    exact ⟨hp, hkind⟩

theorem Inv_init {S I O : Type} (m : Model S I O) (es : List (entry I O)) :
    Inv m es (initState m es) := by
  refine ⟨rfl, scanOk_firstLive_zero es _, ?_, ?_, ?_, rfl, ?_, ?_, ?_⟩
  · intro f hf
    exact absurd hf (List.not_mem_nil f)
  · exact List.nodup_nil
  · intro k hk
    exact absurd hk (by simp [initState])
  · intro h e he
    exact absurd he (List.not_mem_nil e)
  · simp [initState]
  · intro i seq hseq
    simp only [initState, List.getElem?_replicate] at hseq
    split at hseq
    · exact absurd (Option.some.injEq .. ▸ hseq) (by simp)
    · exact absurd hseq (by simp)

theorem Inv_preserved {S I O : Type} {m : Model S I O} {es : List (entry I O)}
    {n : Nat} (wf : WFEntries es n) {verbose : Bool} {st st' : SearchState S}
    (hinv : Inv m es st) (h : checkStep m es verbose st = StepRes.next st') :
    Inv m es st' := by
  obtain ⟨p, hpos, hp, hcase⟩ := checkStep_next_inv h
  have hscan := hinv.posOk
  rw [hpos] at hscan
  obtain ⟨hp2, hplive, hprevcalls⟩ := hscan
  rcases hcase with ⟨s2, hstep, hcc, hst'⟩ | ⟨hskip, hst'⟩ |
    ⟨hmo, top, rest, hcalls, htop, hst'⟩
  · -- descend: push a frame for the call at p
    obtain ⟨_, hkind⟩ := stepAtPos_call hstep
    subst hst'
    have hlive : st.linearized.get (es.get ⟨p, hp⟩).id = false := hplive
    have hnewid : frameId es (⟨p, st.state⟩ : callsEntry S) = (es.get ⟨p, hp⟩).id :=
      frameId_eq es ⟨p, st.state⟩ hp
    have hnotin : (es.get ⟨p, hp⟩).id ∉ st.calls.map (frameId es) := by
      intro hmem
      have hseq := (mem_callsSeq_iff_map es st.calls _).mpr hmem
      have := (get_stackBits_iff wf hinv.framesWF _).mpr hseq
      rw [← hinv.linVal] at this
      rw [this] at hlive
      exact absurd hlive (by simp)
    refine ⟨?_, scanOk_firstLive_zero es _, ?_, ?_, ?_, ?_, ?_, ?_, ?_⟩
    · show st.linearized.set (es.get ⟨p, hp⟩).id =
        stackBits es (⟨p, st.state⟩ :: st.calls)
      rw [stackBits_cons, ← hinv.linVal, hnewid]
    · intro f hf
      rcases List.mem_cons.mp hf with rfl | hmem
      · exact ⟨hp, hkind⟩
      · exact hinv.framesWF f hmem
    · show (List.map (frameId es) (⟨p, st.state⟩ :: st.calls)).Nodup
      rw [List.map_cons, List.nodup_cons, hnewid]
      exact ⟨hnotin, hinv.framesNodup⟩
    · intro k hk j hj hjlen hnotinj
      cases k with
      | zero =>
        have hjp : j < p := hj
        have hdrop : ((⟨p, st.state⟩ :: st.calls).drop 1) = st.calls := rfl
        rw [hdrop] at hnotinj
        have hlivej : st.linearized.get (es.get ⟨j, hjlen⟩).id = false := by
          cases hval : st.linearized.get (es.get ⟨j, hjlen⟩).id
          · rfl
          · have hseq := hval
            rw [hinv.linVal] at hseq
            have := (get_stackBits_iff wf hinv.framesWF _).mp hseq
            exact absurd ((mem_callsSeq_iff_map es st.calls _).mp this) hnotinj
        exact hprevcalls j hjp hjlen hlivej
      | succ k2 =>
        have hk2 : k2 < st.calls.length := by
          have := hk
          simp only [List.length_cons] at this
          omega
        have hget : ((⟨p, st.state⟩ :: st.calls).get ⟨k2 + 1, hk⟩) =
            st.calls.get ⟨k2, hk2⟩ := rfl
        rw [hget] at hj
        have hdrop : ((⟨p, st.state⟩ :: st.calls).drop (k2 + 1 + 1)) =
            st.calls.drop (k2 + 1) := rfl
        rw [hdrop] at hnotinj
        exact hinv.framesRT k2 hk2 j hj hjlen hnotinj
    · show framesOk m es m.init ((⟨p, st.state⟩ :: st.calls).reverse) s2
      rw [List.reverse_cons]
      exact (framesOk_append m es st.calls.reverse ⟨p, st.state⟩ m.init s2).mpr
        ⟨st.state, hinv.replay, rfl, hstep⟩
    · exact cacheInsert_wb hinv.cacheWB ⟨st.linearized.set (es.get ⟨p, hp⟩).id, s2⟩
    · exact hinv.longestLen
    · exact hinv.longestOk
  · -- skip: the scan moves past p
    have hkind : (es.get ⟨p, hp⟩).kind = callEntry := by
      rcases hskip with ⟨s2, hstep⟩ | ⟨s2, hstep, _⟩
      · obtain ⟨_, hk⟩ := stepAtPos_call hstep
        exact hk
      · obtain ⟨_, hk⟩ := stepAtPos_call hstep
        exact hk
    subst hst'
    exact ⟨hinv.linVal, scanOk_after wf st.linearized hp hkind hprevcalls,
      hinv.framesWF, hinv.framesNodup, hinv.framesRT, hinv.replay, hinv.cacheWB,
      hinv.longestLen, hinv.longestOk⟩
  · -- backtrack: pop the top frame
    have hRT := hinv.framesRT
    have hWF := hinv.framesWF
    have hND := hinv.framesNodup
    have hLV := hinv.linVal
    have hreplay := hinv.replay
    rw [hcalls] at hRT hWF hND hLV hreplay
    obtain ⟨htop2, htopkind⟩ := hWF top (by simp)
    have hrestWF : ∀ f ∈ rest, ∃ hf : f.entryIdx < es.length,
        (es.get ⟨f.entryIdx, hf⟩).kind = callEntry :=
      fun f hf => hWF f (by simp [hf])
    rw [List.map_cons, List.nodup_cons] at hND
    obtain ⟨htopnotin, hrestND⟩ := hND
    have hfid : frameId es top = (es.get ⟨top.entryIdx, htop⟩).id :=
      frameId_eq es top htop
    have htidlt : (es.get ⟨top.entryIdx, htop⟩).id < es.length / 2 := by
      have := wf.idlt ⟨top.entryIdx, htop⟩
      have hlen := wf.len
      omega
    have hgetfalse : (stackBits es rest).get (es.get ⟨top.entryIdx, htop⟩).id
        = false := by
      cases hval : (stackBits es rest).get (es.get ⟨top.entryIdx, htop⟩).id
      · rfl
      · have := (get_stackBits_iff wf hrestWF _).mp hval
        have hm := (mem_callsSeq_iff_map es rest _).mp this
        rw [← hfid] at hm
        exact absurd hm htopnotin
    have hlin2 : st.linearized.clear (es.get ⟨top.entryIdx, htop⟩).id =
        stackBits es rest := by
      rw [hLV, stackBits_cons, hfid]
      exact set_clear_cancel (wordsNorm_stackBits es rest)
        (by rw [length_stackBits]; exact bitsetIndex_major_lt htidlt) hgetfalse
    subst hst'
    have hbefore : ∀ j, j < top.entryIdx → ∀ hj : j < es.length,
        (st.linearized.clear (es.get ⟨top.entryIdx, htop⟩).id).get
          (es.get ⟨j, hj⟩).id = false → (es.get ⟨j, hj⟩).kind = callEntry := by
      intro j hj hjlen hlivej
      rw [hlin2] at hlivej
      refine hRT 0 (by simp) j hj hjlen ?_
      intro hmem
      have : (es.get ⟨j, hjlen⟩).id ∈ callsSeq es rest :=
        (mem_callsSeq_iff_map es rest _).mpr (by simpa using hmem)
      have := (get_stackBits_iff wf hrestWF _).mpr this
      rw [this] at hlivej
      exact absurd hlivej (by simp)
    refine ⟨hlin2, scanOk_after wf _ htop htopkind hbefore, hrestWF, hrestND,
      ?_, ?_, hinv.cacheWB, ?_, ?_⟩
    · intro k hk j hj hjlen hnotinj
      have hkr : k < rest.length := hk
      have hk1 : k + 1 < (top :: rest).length := by
        simp only [List.length_cons]
        omega
      have hget : ((top :: rest).get ⟨k + 1, hk1⟩) = rest.get ⟨k, hkr⟩ := rfl
      have hj2 : j < (rest.get ⟨k, hkr⟩).entryIdx := hj
      refine hRT (k + 1) hk1 j (by rw [hget]; exact hj2) hjlen ?_
      have hdrop : ((top :: rest).drop (k + 1 + 1)) = rest.drop (k + 1) := rfl
      rw [hdrop]
      exact hnotinj
    · rw [List.reverse_cons] at hreplay
      obtain ⟨smid, hmid, htopstate, _⟩ :=
        (framesOk_append m es rest.reverse top m.init st.state).mp hreplay
      show framesOk m es m.init rest.reverse top.state
      rw [htopstate]
      exact hmid
    · show (if verbose then updateLongest es st.calls st.longest
        else st.longest).length = es.length / 2
      by_cases hv : verbose = true
      · rw [if_pos hv, updateLongest_length]
        exact hinv.longestLen
      · rw [if_neg hv]
        exact hinv.longestLen
    · intro i seq hseq
      show i ∈ seq ∧ ∃ s3, idSeqRun m es m.init seq = some s3
      by_cases hv : verbose = true
      · rw [show ((if verbose then updateLongest es st.calls st.longest
          else st.longest)) = updateLongest es st.calls st.longest from by
            rw [if_pos hv]] at hseq
        rcases updateLongest_getElem? es st.calls st.longest i _ hseq with
          hold | ⟨hv2, hmem⟩
        · exact hinv.longestOk i seq hold
        · have hseqval : seq = callsSeq es st.calls := Option.some.injEq .. ▸ hv2
          constructor
          · rw [hseqval]
            exact (mem_callsSeq_iff_map es st.calls i).mpr hmem
          · refine ⟨st.state, ?_⟩
            rw [hseqval]
            exact framesOk_idSeqRun wf st.calls.reverse
              (fun f hf => hinv.framesWF f (List.mem_reverse.mp hf)) m.init
              st.state hinv.replay
      · rw [show ((if verbose then updateLongest es st.calls st.longest
          else st.longest)) = st.longest from by rw [if_neg hv]] at hseq
        exact hinv.longestOk i seq hseq

theorem length_callsSeq {S I O : Type} (es : List (entry I O))
    (calls : List (callsEntry S)) : (callsSeq es calls).length = calls.length := by
  unfold callsSeq
  simp

theorem callsSeq_getElem {S I O : Type} (es : List (entry I O))
    (calls : List (callsEntry S)) {i : Nat} (hi : i < (callsSeq es calls).length)
    (hi2 : calls.length - 1 - i < calls.length) :
    (callsSeq es calls).get ⟨i, hi⟩ =
      frameId es (calls.get ⟨calls.length - 1 - i, hi2⟩) := by
  unfold callsSeq at hi ⊢
  rw [List.get_eq_getElem, List.getElem_map, List.getElem_reverse]
  simp [List.get_eq_getElem]

/-- Under the invariant a loop iteration never dereferences nil or hits
a payload of the wrong shape. -/
theorem checkStep_not_stuck {S I O : Type} {m : Model S I O} {es : List (entry I O)}
    {n : Nat} (wf : WFEntries es n) {verbose : Bool} {st : SearchState S}
    (hinv : Inv m es st) : checkStep m es verbose st ≠ StepRes.stuck := by
  intro h
  unfold checkStep at h
  cases hfl : firstLiveFrom es st.linearized 0 with
  | none => simp only [hfl] at h; exact StepRes.noConfusion h
  | some fl =>
    simp only [hfl] at h
    obtain ⟨_, hfll, hfllive, _⟩ := firstLiveFrom_some es st.linearized 0 fl hfl
    cases hpos : st.pos with
    | none =>
      have hscan := hinv.posOk
      rw [hpos] at hscan
      have := hscan fl hfll
      rw [List.get_eq_getElem] at this
      rw [this] at hfllive
      exact absurd hfllive (by simp)
    | some p =>
      simp only [hpos] at h
      have hscan := hinv.posOk
      rw [hpos] at hscan
      obtain ⟨hp, hplive, hprevcalls⟩ := hscan
      rw [List.getElem?_eq_getElem hp] at h
      simp only [] at h
      cases hmo : matchOf es p with
      | some mi =>
        simp only [hmo] at h
        obtain ⟨hp2, hpkind, hpmi, hmi, hmikind, hmiid, _⟩ := matchOf_some es hmo
        rw [List.getElem?_eq_getElem hmi] at h
        simp only [] at h
        cases hev : (es.get ⟨p, hp⟩).value with
        | inl input =>
          cases hmv : (es.get ⟨mi, hmi⟩).value with
          | inl i2 =>
            have := wf.retVal ⟨mi, hmi⟩ hmikind
            rw [hmv] at this
            exact absurd this (by simp)
          | inr output =>
            have hev2 : es[p].value = Sum.inl input := hev
            have hmv2 : es[mi].value = Sum.inr output := hmv
            rw [hev2, hmv2] at h
            simp only [] at h
            rcases hok : m.step st.state input output with ⟨ok, s2⟩
            rw [hok] at h
            cases ok with
            | false => simp only at h; exact StepRes.noConfusion h
            | true =>
              simp only at h
              by_cases hcc : cacheContains m.sEq st.cache
                  ⟨(st.linearized.clone).set (es.get ⟨p, hp⟩).id, s2⟩ = true
              · have hcc2 : cacheContains m.sEq st.cache
                    ⟨(st.linearized.clone).set es[p].id, s2⟩ = true := hcc
                simp only [hcc2, Bool.not_true, if_neg] at h
                exact StepRes.noConfusion h
              · have hccf : cacheContains m.sEq st.cache
                    ⟨(st.linearized.clone).set es[p].id, s2⟩ = false :=
                  Bool.not_eq_true _ ▸ Bool.of_not_eq_true hcc
                simp only [hccf, Bool.not_false, if_pos] at h
                exact StepRes.noConfusion h
        | inr o =>
          have := wf.callVal ⟨p, hp⟩ hpkind
          rw [hev] at this
          exact absurd this (by simp)
      | none =>
        simp only [hmo] at h
        cases hcalls : st.calls with
        | nil => simp only [hcalls] at h; exact StepRes.noConfusion h
        | cons top rest =>
          simp only [hcalls] at h
          obtain ⟨htop, _⟩ := hinv.framesWF top (by rw [hcalls]; simp)
          rw [List.getElem?_eq_getElem htop] at h
          simp only [] at h
          exact StepRes.noConfusion h

/-- At a successful exit the stack ids are a real-time-consistent
accepted permutation of all the ids. -/
theorem done_true_spec {S I O : Type} {m : Model S I O} {es : List (entry I O)}
    {n : Nat} (wf : WFEntries es n) {st : SearchState S} (hinv : Inv m es st)
    (hfl : firstLiveFrom es st.linearized 0 = none) :
    (callsSeq es st.calls).Perm (List.range n) ∧
    rtConsistent es (callsSeq es st.calls) ∧
    idSeqRun m es m.init (callsSeq es st.calls) = some st.state := by
  have hlen : (callsSeq es st.calls).length = st.calls.length :=
    length_callsSeq es st.calls
  have hsub1 : callsSeq es st.calls ⊆ List.range n := by
    intro q hq
    obtain ⟨f, hf, hfq⟩ := (mem_callsSeq es st.calls q).mp hq
    obtain ⟨hfl2, _⟩ := hinv.framesWF f hf
    rw [← hfq, frameId_eq es f hfl2]
    exact List.mem_range.mpr (wf.idlt ⟨f.entryIdx, hfl2⟩)
  have hnd : (callsSeq es st.calls).Nodup := by
    unfold callsSeq
    rw [List.map_reverse]
    exact List.nodup_reverse.mpr hinv.framesNodup
  have hcov : ∀ i, i < n → i ∈ callsSeq es st.calls := by
    intro i hi
    obtain ⟨j, hjk, hjid⟩ := wf.exCall ⟨i, hi⟩
    have hlive := firstLiveFrom_none es st.linearized 0 hfl (j : Nat)
      (Nat.zero_le _) j.isLt
    have hlive2 : st.linearized.get (es.get ⟨(j : Nat), j.isLt⟩).id = true := by
      rw [List.get_eq_getElem]
      exact hlive
    rw [hinv.linVal] at hlive2
    have hmem := (get_stackBits_iff wf hinv.framesWF _).mp hlive2
    have : (es.get ⟨(j : Nat), j.isLt⟩).id = i := hjid
    rw [← this]
    exact hmem
  have hperm : (callsSeq es st.calls).Perm (List.range n) :=
    (List.subperm_of_subset hnd hsub1).antisymm
      (List.subperm_of_subset (List.nodup_range n)
        (fun q hq => hcov q (List.mem_range.mp hq)))
  refine ⟨hperm, ?_, ?_⟩
  · intro a b ra cb hra hcb hracb
    obtain ⟨hral, hrak, hraid⟩ := retPos_some hra
    obtain ⟨hcbl, hcbk, hcbid⟩ := callPos_some hcb
    have han : a < n := by rw [← hraid]; exact wf.idlt ⟨ra, hral⟩
    have hbn : b < n := by rw [← hcbid]; exact wf.idlt ⟨cb, hcbl⟩
    have hain : a ∈ callsSeq es st.calls := hcov a han
    have hbin : b ∈ callsSeq es st.calls := hcov b hbn
    by_contra hcon
    push_neg at hcon
    rcases eq_or_ne a b with rfl | hne
    · have hcr := wf.callBeforeRet ⟨cb, hcbl⟩ ⟨ra, hral⟩ hcbk hrak
        (by rw [hcbid, hraid])
      have hcr2 : cb < ra := hcr
      omega
    · have hia := List.indexOf_lt_length.mpr hain
      have hib := List.indexOf_lt_length.mpr hbin
      have hane : List.indexOf b (callsSeq es st.calls) ≠
          List.indexOf a (callsSeq es st.calls) := by
        intro he
        have ha3 : (callsSeq es st.calls)[List.indexOf a (callsSeq es st.calls)]? =
            some a := by
          rw [List.getElem?_eq_getElem hia, List.getElem_indexOf hia]
        have hb3 : (callsSeq es st.calls)[List.indexOf b (callsSeq es st.calls)]? =
            some b := by
          rw [List.getElem?_eq_getElem hib, List.getElem_indexOf hib]
        rw [he] at hb3
        have := ha3.symm.trans hb3
        exact hne (Option.some.injEq .. ▸ this)
      have hiblt : List.indexOf b (callsSeq es st.calls) <
          List.indexOf a (callsSeq es st.calls) := lt_of_le_of_ne hcon hane
      have hibl : List.indexOf b (callsSeq es st.calls) < st.calls.length := by
        rw [← hlen]; exact hib
      have hkb : st.calls.length - 1 - List.indexOf b (callsSeq es st.calls) <
          st.calls.length := by omega
      have hgetb := callsSeq_getElem es st.calls hib hkb
      rw [List.indexOf_get hib] at hgetb
      obtain ⟨hkbl, hkbkind⟩ := hinv.framesWF
        (st.calls.get ⟨st.calls.length - 1 -
          List.indexOf b (callsSeq es st.calls), hkb⟩) (List.getElem_mem hkb)
      have hcbeq : (st.calls.get ⟨st.calls.length - 1 -
          List.indexOf b (callsSeq es st.calls), hkb⟩).entryIdx = cb := by
        have h1 := callPos_of_call wf hkbl hkbkind
        have h2 : (es.get ⟨(st.calls.get ⟨st.calls.length - 1 -
            List.indexOf b (callsSeq es st.calls), hkb⟩).entryIdx, hkbl⟩).id = b := by
          rw [← frameId_eq es _ hkbl]
          exact hgetb.symm
        rw [h2, hcb] at h1
        exact Option.some.injEq .. ▸ h1.symm
      have hnotin : (es.get ⟨ra, hral⟩).id ∉
          (st.calls.drop (st.calls.length - 1 -
            List.indexOf b (callsSeq es st.calls) + 1)).map (frameId es) := by
        intro hmem
        rw [hraid] at hmem
        obtain ⟨g, hg, hgid⟩ := List.mem_map.mp hmem
        obtain ⟨ig, hgl, hgeq⟩ := List.mem_iff_getElem.mp hg
        have hgidx : st.calls.length - 1 -
            List.indexOf b (callsSeq es st.calls) + 1 + ig < st.calls.length := by
          rw [List.length_drop] at hgl
          omega
        have hjg : st.calls.length - 1 - (st.calls.length - 1 -
            List.indexOf b (callsSeq es st.calls) + 1 + ig) <
            (callsSeq es st.calls).length := by
          rw [hlen]; omega
        have hjg2 : st.calls.length - 1 - (st.calls.length - 1 -
            (st.calls.length - 1 - List.indexOf b (callsSeq es st.calls) + 1 + ig)) <
            st.calls.length := by omega
        have hseqjg := callsSeq_getElem es st.calls hjg hjg2
        have hidx : st.calls.length - 1 - (st.calls.length - 1 -
            (st.calls.length - 1 - List.indexOf b (callsSeq es st.calls) + 1 + ig)) =
            st.calls.length - 1 - List.indexOf b (callsSeq es st.calls) + 1 + ig := by
          omega
        have hgeq2 : st.calls.get ⟨st.calls.length - 1 - (st.calls.length - 1 -
            (st.calls.length - 1 - List.indexOf b (callsSeq es st.calls) + 1 + ig)),
            hjg2⟩ = g := by
          have : st.calls[st.calls.length - 1 -
              List.indexOf b (callsSeq es st.calls) + 1 + ig] = g := by
            rw [← List.getElem_drop]
            exact hgeq
          rw [List.get_eq_getElem]
          conv in st.calls.length - 1 - (st.calls.length - 1 -
            (st.calls.length - 1 - List.indexOf b (callsSeq es st.calls) + 1 + ig)) =>
            rw [hidx]
          exact this
        rw [hgeq2, hgid] at hseqjg
        have hidxa := List.indexOf_getElem hnd _ hjg
        rw [List.get_eq_getElem] at hseqjg
        rw [hseqjg] at hidxa
        omega
      have := hinv.framesRT _ hkb ra (by rw [hcbeq]; exact hracb) hral hnotin
      rw [this] at hrak
      exact absurd hrak (by simp [callEntry, returnEntry])
  · show idSeqRun m es m.init (st.calls.reverse.map (frameId es)) = some st.state
    exact framesOk_idSeqRun wf st.calls.reverse
      (fun f hf => hinv.framesWF f (List.mem_reverse.mp hf)) m.init st.state
      hinv.replay

theorem finishTrue_parts {S I O : Type} {m : Model S I O} {es : List (entry I O)}
    {n : Nat} (wf : WFEntries es n) {st : SearchState S} (hinv : Inv m es st)
    (hfl : firstLiveFrom es st.linearized 0 = none) :
    (∀ i seq, (finishTrue es st).longest[i]? = some (some seq) →
      i ∈ seq ∧ ∃ s2, idSeqRun m es m.init seq = some s2) ∧
    (∃ seq, seq.Perm (List.range n) ∧ (∃ s2, idSeqRun m es m.init seq = some s2) ∧
      ∀ i, i < n → (finishTrue es st).longest[i]? = some (some seq)) := by
  obtain ⟨hperm, hrt, haccept⟩ := done_true_spec wf hinv hfl
  have hn2 : es.length / 2 = n := by
    have := wf.len
    omega
  constructor
  · intro i seq hseq
    simp only [finishTrue, List.getElem?_replicate] at hseq
    split at hseq
    · have hval := Option.some.injEq .. ▸ hseq
      have hsv : seq = callsSeq es st.calls := (Option.some.injEq .. ▸ hval).symm
      subst hsv
      constructor
      · refine hperm.mem_iff.mpr (List.mem_range.mpr ?_)
        omega
      · exact ⟨st.state, haccept⟩
    · exact absurd hseq (by simp)
  · refine ⟨callsSeq es st.calls, hperm, ⟨st.state, haccept⟩, ?_⟩
    intro i hi
    simp only [finishTrue, List.getElem?_replicate]
    rw [if_pos (by omega)]

theorem runCheck_longest {S I O : Type} {m : Model S I O} {es : List (entry I O)}
    {n : Nat} (wf : WFEntries es n) (verbose : Bool) :
    ∀ (fuel : Nat) (st : SearchState S), Inv m es st →
    ∀ r, runCheck m es verbose fuel st = r →
    (∀ st', (r = RunResult.done true st' ∨ r = RunResult.done false st' ∨
        r = RunResult.killed st') →
      ∀ i seq, st'.longest[i]? = some (some seq) →
        i ∈ seq ∧ ∃ s2, idSeqRun m es m.init seq = some s2) ∧
    (∀ st', r = RunResult.done true st' →
      ∃ seq, seq.Perm (List.range n) ∧
        (∃ s2, idSeqRun m es m.init seq = some s2) ∧
        ∀ i, i < n → st'.longest[i]? = some (some seq)) := by
  intro fuel
  induction fuel with
  | zero =>
    intro st hinv r hr
    simp only [runCheck] at hr
    cases hfl : firstLiveFrom es st.linearized 0 with
    | none =>
      rw [hfl] at hr
      obtain ⟨hpart1, hpart2⟩ := finishTrue_parts wf hinv hfl
      subst hr
      constructor
      · intro st' hst' i seq hseq
        rcases hst' with h1 | h1 | h1
        · injection h1 with _ h2
          rw [← h2] at hseq
          exact hpart1 i seq hseq
        · injection h1 with hacc _
          exact absurd hacc (by simp)
        · exact RunResult.noConfusion h1
      · intro st' hst'
        injection hst' with _ h2
        rw [← h2]
        exact hpart2
    | some fl =>
      rw [hfl] at hr
      subst hr
      constructor
      · intro st' hst' i seq hseq
        rcases hst' with h1 | h1 | h1
        · exact RunResult.noConfusion h1
        · exact RunResult.noConfusion h1
        · injection h1 with h2
          rw [← h2] at hseq
          exact hinv.longestOk i seq hseq
      · intro st' hst'
        exact RunResult.noConfusion hst'
  | succ f ih =>
    intro st hinv r hr
    cases hcs : checkStep m es verbose st with
    | next st2 =>
      simp only [runCheck, hcs] at hr
      exact ih st2 (Inv_preserved wf hinv hcs) r hr
    | done acc st2 =>
      simp only [runCheck, hcs] at hr
      subst hr
      rcases checkStep_done_inv hcs with ⟨hacc, hfl, hst2⟩ |
        ⟨hacc, hst2, _, _, _⟩
      · subst hacc
        subst hst2
        obtain ⟨hpart1, hpart2⟩ := finishTrue_parts wf hinv hfl
        constructor
        · intro st' hst' i seq hseq
          rcases hst' with h1 | h1 | h1
          · injection h1 with _ h2
            rw [← h2] at hseq
            exact hpart1 i seq hseq
          · injection h1 with hacc2 _
            exact absurd hacc2 (by simp)
          · exact RunResult.noConfusion h1
        · intro st' hst'
          injection hst' with _ h2
          rw [← h2]
          exact hpart2
      · subst hacc
        subst hst2
        constructor
        · intro st' hst' i seq hseq
          rcases hst' with h1 | h1 | h1
          · injection h1 with hacc2 _
            exact absurd hacc2 (by simp)
          · injection h1 with _ h2
            rw [← h2] at hseq
            exact hinv.longestOk i seq hseq
          · exact RunResult.noConfusion h1
        · intro st' hst'
          injection hst' with hacc2 _
          exact absurd hacc2 (by simp)
    | stuck =>
      simp only [runCheck, hcs] at hr
      subst hr
      constructor
      · intro st' hst'
        rcases hst' with h1 | h1 | h1
        · exact RunResult.noConfusion h1
        · exact RunResult.noConfusion h1
        · exact RunResult.noConfusion h1
      · intro st' hst'
        exact RunResult.noConfusion hst'

/-- C4: for every verbose run of the single-partition checker on a
well-formed entry sequence — whether it completes, rejects, or is
killed — every sequence referenced by the returned `longest[i]`
contains `i` and is a prefix accepted by the model from `init`; and
when the checker returns accepted = true, every `longest[i]` references
one complete linearization covering every id. -/
theorem checkSingle_longest_ok {S I O : Type} (m : Model S I O)
    (es : List (entry I O)) (n : Nat) (wf : WFEntries es n) (fuel : Nat)
    (r : RunResult S) (h : runCheck m es true fuel (initState m es) = r) :
    (∀ st', (r = RunResult.done true st' ∨ r = RunResult.done false st' ∨
        r = RunResult.killed st') →
      ∀ i seq, st'.longest[i]? = some (some seq) →
        i ∈ seq ∧ ∃ s2, idSeqRun m es m.init seq = some s2) ∧
    (∀ st', r = RunResult.done true st' →
      ∃ seq, seq.Perm (List.range n) ∧
        (∃ s2, idSeqRun m es m.init seq = some s2) ∧
        ∀ i, i < n → st'.longest[i]? = some (some seq)) :=
  runCheck_longest wf true fuel (initState m es) (Inv_init m es) r h

/-- Witness for C4: the claim instantiated on a one-read register run. -/
theorem checkSingle_longest_ok_witness :
    (∀ st', (wRun4 = RunResult.done true st' ∨ wRun4 = RunResult.done false st' ∨
        wRun4 = RunResult.killed st') →
      ∀ i seq, st'.longest[i]? = some (some seq) →
        i ∈ seq ∧ ∃ s2, idSeqRun regModel wEs4 regModel.init seq = some s2) ∧
    (∀ st', wRun4 = RunResult.done true st' →
      ∃ seq, seq.Perm (List.range 1) ∧
        (∃ s2, idSeqRun regModel wEs4 regModel.init seq = some s2) ∧
        ∀ i, i < 1 → st'.longest[i]? = some (some seq)) :=
  checkSingle_longest_ok regModel wEs4 1
    ⟨by decide, by decide, by decide, by decide, by decide, by decide, by decide,
      by decide⟩ 4 wRun4 rfl

theorem hornerVal_append (B : Nat) (ds : List Nat) (d : Nat) :
    hornerVal B (ds ++ [d]) = hornerVal B ds * B + d := by
  unfold hornerVal
  rw [List.foldl_append]
  rfl

theorem hornerVal_lt (B : Nat) (ds : List Nat) (hd : ∀ d ∈ ds, d < B) :
    hornerVal B ds < B ^ ds.length := by
  suffices h : ∀ acc, ds.foldl (fun a d => a * B + d) acc < (acc + 1) * B ^ ds.length by
    have := h 0
    unfold hornerVal
    simpa using this
  induction ds with
  | nil => intro acc; simp
  | cons d t ih =>
    intro acc
    rw [List.foldl_cons, List.length_cons]
    have hdB : d < B := hd d (by simp)
    have h1 := ih (fun x hx => hd x (by simp [hx])) (acc * B + d)
    refine Nat.lt_of_lt_of_le h1 ?_
    have h2 : acc * B + d + 1 ≤ (acc + 1) * B := by
      have : acc * B + d + 1 ≤ acc * B + B := by omega
      calc acc * B + d + 1 ≤ acc * B + B := this
        _ = (acc + 1) * B := by ring
    calc (acc * B + d + 1) * B ^ t.length ≤ ((acc + 1) * B) * B ^ t.length :=
          Nat.mul_le_mul_right _ h2
      _ = (acc + 1) * B ^ (t.length + 1) := by ring

theorem padVal_lt_pow {B : Nat} (hB : 0 < B) (M : Nat) (ds : List Nat)
    (hd : ∀ d ∈ ds, d < B) (hlen : ds.length ≤ M) : padVal B M ds < B ^ M := by
  unfold padVal
  have h1 := hornerVal_lt B ds hd
  calc hornerVal B ds * B ^ (M - ds.length) < B ^ ds.length * B ^ (M - ds.length) :=
        (Nat.mul_lt_mul_right (Nat.pos_pow_of_pos _ hB)).mpr h1
    _ = B ^ M := by rw [← pow_add]; congr 1; omega

theorem padVal_append_digit {B M : Nat} (hB : 0 < B) (ds : List Nat) {d : Nat}
    (hd : 0 < d) (hlen : ds.length < M) :
    padVal B M ds < padVal B M (ds ++ [d]) := by
  unfold padVal
  rw [hornerVal_append, List.length_append, List.length_singleton]
  have he : M - ds.length = (M - (ds.length + 1)) + 1 := by omega
  rw [he, pow_succ]
  calc hornerVal B ds * (B ^ (M - (ds.length + 1)) * B) =
        (hornerVal B ds * B) * B ^ (M - (ds.length + 1)) := by ring
    _ < (hornerVal B ds * B + d) * B ^ (M - (ds.length + 1)) := by
        refine (Nat.mul_lt_mul_right (Nat.pos_pow_of_pos _ hB)).mpr ?_
        omega

theorem padVal_last_digit {B M : Nat} (hB : 0 < B) (ds : List Nat) {d1 d2 : Nat}
    (hlt : d1 < d2) :
    padVal B M (ds ++ [d1]) < padVal B M (ds ++ [d2]) := by
  unfold padVal
  rw [hornerVal_append, hornerVal_append, List.length_append, List.length_append]
  refine (Nat.mul_lt_mul_right (Nat.pos_pow_of_pos _ hB)).mpr ?_
  omega

theorem padVal_pop {B M : Nat} (hB : 0 < B) (ds : List Nat) {d e d2 : Nat}
    (hd : d < d2) (he : e < B) (hlen : ds.length + 2 ≤ M) :
    padVal B M (ds ++ [d, e]) < padVal B M (ds ++ [d2]) := by
  unfold padVal
  have hsplit : ds ++ [d, e] = (ds ++ [d]) ++ [e] := by simp
  rw [hsplit, hornerVal_append, hornerVal_append, hornerVal_append]
  simp only [List.length_append, List.length_singleton]
  have he1 : M - (ds.length + 1 + 1) = M - (ds.length + 1) - 1 := by omega
  have he2 : M - (ds.length + 1) = (M - (ds.length + 1) - 1) + 1 := by omega
  rw [he1, he2, pow_succ]
  have hstep : (hornerVal B ds * B + d) * B + e <
      (hornerVal B ds * B + d2) * B := by
    have h1 : (hornerVal B ds * B + d) * B + e < (hornerVal B ds * B + d + 1) * B := by
      have : (hornerVal B ds * B + d + 1) * B = (hornerVal B ds * B + d) * B + B := by
        ring
      omega
    have h2 : (hornerVal B ds * B + d + 1) * B ≤ (hornerVal B ds * B + d2) * B :=
      Nat.mul_le_mul_right _ (by omega)
    omega
  calc ((hornerVal B ds * B + d) * B + e) * B ^ (M - (ds.length + 1) - 1) <
        ((hornerVal B ds * B + d2) * B) * B ^ (M - (ds.length + 1) - 1) :=
          (Nat.mul_lt_mul_right (Nat.pos_pow_of_pos _ hB)).mpr hstep
    _ = (hornerVal B ds * B + d2) * (B ^ (M - (ds.length + 1) - 1) * B) := by ring

theorem scanDigit_pos {I O : Type} (es : List (entry I O)) (o : Option Nat) :
    0 < scanDigit es o := by
  cases o <;> simp [scanDigit]

theorem stack_length_le {S I O : Type} {m : Model S I O} {es : List (entry I O)}
    {n : Nat} (wf : WFEntries es n) {st : SearchState S} (hinv : Inv m es st) :
    st.calls.length ≤ es.length / 2 := by
  have hsub : st.calls.map (frameId es) ⊆ List.range n := by
    intro q hq
    obtain ⟨f, hf, hfq⟩ := List.mem_map.mp hq
    obtain ⟨hfl, _⟩ := hinv.framesWF f hf
    rw [← hfq, frameId_eq es f hfl]
    exact List.mem_range.mpr (wf.idlt ⟨f.entryIdx, hfl⟩)
  have hle := (List.subperm_of_subset hinv.framesNodup hsub).length_le
  rw [List.length_map, List.length_range] at hle
  have := wf.len
  omega

theorem digitsOf_lt {S I O : Type} {m : Model S I O} {es : List (entry I O)}
    {st : SearchState S} (hinv : Inv m es st) :
    ∀ d ∈ digitsOf es st, d < es.length + 3 := by
  intro d hd
  unfold digitsOf at hd
  rcases List.mem_append.mp hd with hmem | hmem
  · obtain ⟨f, hf, hfd⟩ := List.mem_map.mp hmem
    obtain ⟨hfl, _⟩ := hinv.framesWF f (List.mem_reverse.mp hf)
    omega
  · rw [List.mem_singleton.mp hmem]
    cases hpos : st.pos with
    | none => simp [scanDigit]
    | some p =>
      have hscan := hinv.posOk
      rw [hpos] at hscan
      obtain ⟨hp, _, _⟩ := hscan
      simp only [scanDigit]
      omega

theorem digitsOf_length {S I O : Type} (es : List (entry I O))
    (st : SearchState S) : (digitsOf es st).length = st.calls.length + 1 := by
  unfold digitsOf
  simp

theorem measureOf_lt_bound {S I O : Type} {m : Model S I O} {es : List (entry I O)}
    {n : Nat} (wf : WFEntries es n) {st : SearchState S} (hinv : Inv m es st) :
    measureOf es st < (es.length + 3) ^ (es.length / 2 + 2) := by
  unfold measureOf
  refine padVal_lt_pow (by omega) _ _ (digitsOf_lt hinv) ?_
  rw [digitsOf_length]
  have := stack_length_le wf hinv
  omega

theorem measureOf_increase {S I O : Type} {m : Model S I O} {es : List (entry I O)}
    {n : Nat} (wf : WFEntries es n) {verbose : Bool} {st st' : SearchState S}
    (hinv : Inv m es st) (h : checkStep m es verbose st = StepRes.next st') :
    measureOf es st < measureOf es st' := by
  have hinv2 := Inv_preserved wf hinv h
  obtain ⟨p, hpos, hp, hcase⟩ := checkStep_next_inv h
  have hB : 0 < es.length + 3 := by omega
  rcases hcase with ⟨s2, hstep, hcc, hst'⟩ | ⟨hskip, hst'⟩ |
    ⟨hmo, top, rest, hcalls, htop, hst'⟩
  · -- push: one more digit
    have hds : digitsOf es st =
        (st.calls.reverse.map (fun f => f.entryIdx + 1)) ++ [p + 1] := by
      unfold digitsOf
      rw [hpos]
      rfl
    have hlen2 := stack_length_le wf hinv2
    rw [hst'] at hlen2
    simp only [List.length_cons] at hlen2
    have hds2 : digitsOf es st' =
        ((st.calls.reverse.map (fun f => f.entryIdx + 1)) ++ [p + 1]) ++
          [scanDigit es st'.pos] := by
      unfold digitsOf
      rw [hst']
      simp only [List.reverse_cons, List.map_append]
      rfl
    unfold measureOf
    rw [hds, hds2]
    refine padVal_append_digit hB _ (scanDigit_pos es _) ?_
    simp only [List.length_append, List.length_map, List.length_reverse,
      List.length_singleton]
    omega
  · -- skip: the scan digit increases
    have hds : digitsOf es st =
        (st.calls.reverse.map (fun f => f.entryIdx + 1)) ++ [p + 1] := by
      unfold digitsOf
      rw [hpos]
      rfl
    have hds2 : digitsOf es st' =
        (st.calls.reverse.map (fun f => f.entryIdx + 1)) ++
          [scanDigit es (firstLiveFrom es st.linearized (p + 1))] := by
      unfold digitsOf
      rw [hst']
    unfold measureOf
    rw [hds, hds2]
    refine padVal_last_digit hB _ ?_
    cases hfl : firstLiveFrom es st.linearized (p + 1) with
    | none =>
      simp only [scanDigit]
      omega
    | some q =>
      obtain ⟨hpq, _, _, _⟩ := firstLiveFrom_some es st.linearized (p + 1) q hfl
      simp only [scanDigit]
      omega
  · -- pop: the popped frame digit is replaced by a larger scan digit
    have hds : digitsOf es st =
        (rest.reverse.map (fun f => f.entryIdx + 1)) ++
          [top.entryIdx + 1, p + 1] := by
      unfold digitsOf
      rw [hpos, hcalls]
      simp only [List.reverse_cons, List.map_append]
      rw [List.append_assoc]
      rfl
    have hds2 : digitsOf es st' =
        (rest.reverse.map (fun f => f.entryIdx + 1)) ++
          [scanDigit es st'.pos] := by
      unfold digitsOf
      rw [hst']
    have hlenrest := stack_length_le wf hinv
    rw [hcalls] at hlenrest
    simp only [List.length_cons] at hlenrest
    unfold measureOf
    rw [hds, hds2]
    refine padVal_pop hB _ ?_ (by omega) ?_
    · rw [hst']
      cases hfl : firstLiveFrom es
          (st.linearized.clear (es.get ⟨top.entryIdx, htop⟩).id)
          (top.entryIdx + 1) with
      | none =>
        simp only [scanDigit]
        omega
      | some q =>
        obtain ⟨hpq, _, _, _⟩ := firstLiveFrom_some es _ _ q hfl
        simp only [scanDigit]
        omega
    · simp only [List.length_map, List.length_reverse]
      omega

theorem runCheck_done_exists {S I O : Type} {m : Model S I O}
    {es : List (entry I O)} {n : Nat} (wf : WFEntries es n) (verbose : Bool) :
    ∀ (fuel : Nat) (st : SearchState S), Inv m es st →
    (es.length + 3) ^ (es.length / 2 + 2) - measureOf es st ≤ fuel →
    ∃ acc st', runCheck m es verbose fuel st = RunResult.done acc st' := by
  intro fuel
  induction fuel with
  | zero =>
    intro st hinv hfuel
    have := measureOf_lt_bound wf hinv
    omega
  | succ f ih =>
    intro st hinv hfuel
    cases hcs : checkStep m es verbose st with
    | next st2 =>
      have hlt := measureOf_increase wf hinv hcs
      have hbound := measureOf_lt_bound wf (Inv_preserved wf hinv hcs)
      obtain ⟨acc, st3, hrun⟩ := ih st2 (Inv_preserved wf hinv hcs) (by omega)
      refine ⟨acc, st3, ?_⟩
      simp only [runCheck, hcs]
      exact hrun
    | done acc st2 =>
      refine ⟨acc, st2, ?_⟩
      simp only [runCheck, hcs]
    | stuck => exact absurd hcs (checkStep_not_stuck wf hinv)

theorem extClosed_mono {S I O : Type} {m : Model S I O} {es : List (entry I O)}
    {cache : Cache S} {L : bitset} {s : S} {c : Nat}
    (h : extClosed m es cache L s c) (hh : Nat) (e : cacheEntry S) :
    extClosed m es (cacheInsert cache hh e) L s c := by
  intro s2 hs2
  obtain ⟨h2, elem, hmem, hlin, hstate⟩ := h s2 hs2
  exact ⟨h2, elem, cacheInsert_mem cache hh e hmem, hlin, hstate⟩

theorem aboveState_cons {S : Type} (x : S) (f : callsEntry S)
    (pre : List (callsEntry S)) :
    aboveState x (f :: pre) = aboveState f.state pre := by
  cases pre with
  | nil => rfl
  | cons g t =>
    unfold aboveState
    rw [List.getLast?_cons_cons]
    cases hgl : (g :: t).getLast? with
    | none => exact absurd hgl (by simp)
    | some y => simp only [hgl]

theorem checkStep_next_firstLive {S I O : Type} {m : Model S I O}
    {es : List (entry I O)} {verbose : Bool} {st st' : SearchState S}
    (h : checkStep m es verbose st = StepRes.next st') :
    (firstLiveFrom es st.linearized 0).isSome := by
  unfold checkStep at h
  cases hfl : firstLiveFrom es st.linearized 0 with
  | none => simp only [hfl] at h; exact StepRes.noConfusion h
  | some fl => rfl

theorem idSeqRun_append {S I O : Type} (m : Model S I O) (es : List (entry I O))
    (l1 l2 : List Nat) (s : S) :
    idSeqRun m es s (l1 ++ l2) =
      (idSeqRun m es s l1).bind (fun s1 => idSeqRun m es s1 l2) := by
  induction l1 generalizing s with
  | nil => rfl
  | cons i t ih =>
    have hsplit : (i :: t) ++ l2 = i :: (t ++ l2) := rfl
    cases hcp : callPos es i with
    | none =>
      have h1 : idSeqRun m es s (i :: (t ++ l2)) = none := by
        unfold idSeqRun
        simp only [hcp]
      have h2 : idSeqRun m es s (i :: t) = none := by
        unfold idSeqRun
        simp only [hcp]
      rw [hsplit, h1, h2]
      rfl
    | some c =>
      cases hsp : stepAtPos m es s c with
      | none =>
        have h1 : idSeqRun m es s (i :: (t ++ l2)) = none := by
          unfold idSeqRun
          simp only [hcp, hsp]
        have h2 : idSeqRun m es s (i :: t) = none := by
          unfold idSeqRun
          simp only [hcp, hsp]
        rw [hsplit, h1, h2]
        rfl
      | some r =>
        rcases r with ⟨ok, s2⟩
        cases ok with
        | false =>
          have h1 : idSeqRun m es s (i :: (t ++ l2)) = none := by
            unfold idSeqRun
            simp only [hcp, hsp]
          have h2 : idSeqRun m es s (i :: t) = none := by
            unfold idSeqRun
            simp only [hcp, hsp]
          rw [hsplit, h1, h2]
          rfl
        | true =>
          have h1 : idSeqRun m es s (i :: (t ++ l2)) = idSeqRun m es s2 (t ++ l2) := by
            conv_lhs => unfold idSeqRun
            simp only [hcp, hsp]
          have h2 : idSeqRun m es s (i :: t) = idSeqRun m es s2 t := by
            conv_lhs => unfold idSeqRun
            simp only [hcp, hsp]
          rw [hsplit, h1, h2, ih s2]

theorem candidate_ge_firstLive {I O : Type} {es : List (entry I O)} {L : bitset}
    {c : Nat} (hcand : candidate es L c) :
    ∃ q, firstLiveFrom es L 0 = some q ∧ q ≤ c := by
  obtain ⟨hc, hlive, _, _⟩ := hcand
  have hlive2 : L.get es[c].id = false := by
    rw [List.get_eq_getElem] at hlive
    exact hlive
  have hs := firstLiveFrom_isSome es L 0 c (Nat.zero_le c) hc hlive2
  obtain ⟨q, hq⟩ := Option.isSome_iff_exists.mp hs
  refine ⟨q, hq, ?_⟩
  obtain ⟨_, hql, _, hmid⟩ := firstLiveFrom_some es L 0 q hq
  by_contra hqc
  push_neg at hqc
  have := hmid c (Nat.zero_le c) hqc hc
  rw [this] at hlive2
  exact absurd hlive2 (by simp)

theorem CompInv_init {S I O : Type} (m : Model S I O) (es : List (entry I O)) :
    CompInv m es (initState m es) := by
  refine ⟨?_, ?_, ?_, ?_, ?_⟩
  · intro c hcand hlt
    obtain ⟨q, hq, hqc⟩ := candidate_ge_firstLive hcand
    have := hlt q hq
    omega
  · intro pre f rest hdec
    exact absurd hdec (by simp [initState])
  · intro pre f rest hdec
    exact absurd hdec (by simp [initState])
  · intro h elem hmem
    exact absurd hmem (List.not_mem_nil elem)
  · intro h elem hmem
    exact absurd hmem (List.not_mem_nil elem)

theorem entryIdAt_eq {I O : Type} (es : List (entry I O)) {c : Nat}
    (hc : c < es.length) : entryIdAt es c = (es.get ⟨c, hc⟩).id := by
  unfold entryIdAt
  rw [List.getElem?_eq_getElem hc]
  rfl

theorem equals_eq {b1 b2 : bitset} (h : b1.equals b2 = true) : b1 = b2 := by
  unfold bitset.equals at h
  exact beq_iff_eq.mp h

theorem CompInv_preserved {S I O : Type} {m : Model S I O} {es : List (entry I O)}
    {n : Nat} (wf : WFEntries es n) (hEq : ∀ a b, m.sEq a b = true ↔ a = b)
    {verbose : Bool} {st st' : SearchState S} (hinv : Inv m es st)
    (hcinv : CompInv m es st) (h : checkStep m es verbose st = StepRes.next st') :
    CompInv m es st' := by
  have hflsome := checkStep_next_firstLive h
  obtain ⟨p, hpos, hp, hcase⟩ := checkStep_next_inv h
  have hscan := hinv.posOk
  rw [hpos] at hscan
  obtain ⟨hp2, hplive, hprevcalls⟩ := hscan
  have hposlt : ∀ {c : Nat}, (∀ p3, st.pos = some p3 → c < p3) → c < p := by
    intro c hlt
    exact hlt p hpos
  rcases hcase with ⟨s2, hstep, hcc, hst'⟩ | ⟨hskip, hst'⟩ |
    ⟨hmo, top, rest, hcalls, htop, hst'⟩
  · -- descend
    have hbitseq : st.linearized.set (es.get ⟨p, hp⟩).id =
        stackBits es (⟨p, st.state⟩ :: st.calls) := by
      rw [stackBits_cons, ← hinv.linVal, frameId_eq es ⟨p, st.state⟩ hp]
    subst hst'
    refine ⟨?_, ?_, ?_, ?_, ?_⟩
    · intro c hcand hlt
      obtain ⟨q, hq, hqc⟩ := candidate_ge_firstLive hcand
      have := hlt q hq
      omega
    · intro pre f rest2 hdec c hcand hclt
      cases pre with
      | nil =>
        simp only [List.nil_append] at hdec
        injection hdec with hf hrest
        subst hf
        subst hrest
        have hcand2 : candidate es st.linearized c := by
          rw [hinv.linVal]
          exact hcand
        have hold := hcinv.topFrontier c hcand2 (fun p3 hp3 => by
          rw [hpos] at hp3
          injection hp3 with hh
          rw [← hh]
          exact hclt)
        rw [← hinv.linVal]
        exact extClosed_mono hold _ _
      | cons g pre2 =>
        simp only [List.cons_append] at hdec
        injection hdec with hg hrest
        exact extClosed_mono (hcinv.stackFrontier pre2 f rest2 hrest c hcand hclt)
          _ _
    · intro pre f rest2 hdec
      cases pre with
      | nil =>
        simp only [List.nil_append] at hdec
        injection hdec with hf hrest
        subst hf
        subst hrest
        exact ⟨bitset.hash (st.linearized.set (es.get ⟨p, hp⟩).id),
          ⟨st.linearized.set (es.get ⟨p, hp⟩).id, s2⟩, cacheInsert_self _ _ _,
          hbitseq, rfl⟩
      | cons g pre2 =>
        simp only [List.cons_append] at hdec
        injection hdec with hg hrest
        obtain ⟨h2, elem, hmem, hlin, hstate⟩ := hcinv.onPath pre2 f rest2 hrest
        refine ⟨h2, elem, cacheInsert_mem _ _ _ hmem, hlin, ?_⟩
        subst hg
        rw [aboveState_cons]
        exact hstate
    · intro h2 elem hmem
      rcases cacheInsert_mem_inv hmem with hold | rfl
      · rcases hcinv.cachedClosed h2 elem hold with
          ⟨pre, f, rest2, hdec, hlin, hstate⟩ | hclosed
        · refine Or.inl ⟨⟨p, st.state⟩ :: pre, f, rest2,
            by rw [List.cons_append, hdec], hlin, ?_⟩
          rw [aboveState_cons]
          exact hstate
        · exact Or.inr (fun c hcand => extClosed_mono (hclosed c hcand) _ _)
      · exact Or.inl ⟨[], ⟨p, st.state⟩, st.calls, rfl, hbitseq, rfl⟩
    · intro h2 elem hmem
      rcases cacheInsert_mem_inv hmem with hold | rfl
      · rcases hcinv.notFull h2 elem hold with hlive | hnone
        · exact Or.inl hlive
        · rw [hnone] at hflsome
          exact absurd hflsome (by simp)
      · cases hfl2 : firstLiveFrom es
            (st.linearized.set (es.get ⟨p, hp⟩).id) 0 with
        | none => exact Or.inr rfl
        | some q =>
          obtain ⟨_, hql, hqlive, _⟩ := firstLiveFrom_some es _ 0 q hfl2
          refine Or.inl ⟨q, hql, ?_⟩
          rw [List.get_eq_getElem]
          exact hqlive
  · -- skip
    have hkind : (es.get ⟨p, hp⟩).kind = callEntry := by
      rcases hskip with ⟨s2, hstepx⟩ | ⟨s2, hstepx, _⟩
      · exact (stepAtPos_call hstepx).2
      · exact (stepAtPos_call hstepx).2
    subst hst'
    refine ⟨?_, hcinv.stackFrontier, hcinv.onPath, hcinv.cachedClosed,
      hcinv.notFull⟩
    intro c hcand hlt
    rcases Nat.lt_trichotomy c p with hcp | rfl | hpc
    · exact hcinv.topFrontier c hcand (fun p3 hp3 => by
        rw [hpos] at hp3
        injection hp3 with hh
        rw [← hh]
        exact hcp)
    · intro s2x hs2x
      rcases hskip with ⟨s2, hstepf⟩ | ⟨s2, hstept, hcc⟩
      · rw [hstepf] at hs2x
        injection hs2x with hpair
        have := congrArg Prod.fst hpair
        exact absurd this (by simp)
      · rw [hstept] at hs2x
        injection hs2x with hpair
        have hs2eq : s2 = s2x := congrArg Prod.snd hpair
        have hcontains := hcc
        rw [cacheContains_spec m.sEq st.cache _ hinv.cacheWB] at hcontains
        obtain ⟨h2, elem, hmem, heqb, hseq⟩ := hcontains
        refine ⟨h2, elem, hmem, ?_, ?_⟩
        · have hbeq := equals_eq heqb
          rw [← hbeq, entryIdAt_eq es hp]
        · have := (hEq s2 elem.state).mp hseq
          rw [← this, hs2eq]
    · obtain ⟨hc, hlivec, _, _⟩ := hcand
      rw [List.get_eq_getElem] at hlivec
      cases hfl2 : firstLiveFrom es st.linearized (p + 1) with
      | none =>
        have := firstLiveFrom_none es st.linearized (p + 1) hfl2 c (by omega) hc
        rw [this] at hlivec
        exact absurd hlivec (by simp)
      | some q =>
        have hcq := hlt q hfl2
        obtain ⟨_, _, _, hmid⟩ := firstLiveFrom_some es st.linearized (p + 1) q hfl2
        have := hmid c (by omega) hcq hc
        rw [this] at hlivec
        exact absurd hlivec (by simp)
  · -- backtrack
    have hLV := hinv.linVal
    rw [hcalls] at hLV
    have hWF := hinv.framesWF
    rw [hcalls] at hWF
    obtain ⟨htop2, htopkind⟩ := hWF top (by simp)
    have hND := hinv.framesNodup
    rw [hcalls, List.map_cons, List.nodup_cons] at hND
    obtain ⟨htopnotin, hrestND⟩ := hND
    have hrestWF : ∀ f ∈ rest, ∃ hf : f.entryIdx < es.length,
        (es.get ⟨f.entryIdx, hf⟩).kind = callEntry :=
      fun f hf => hWF f (by simp [hf])
    have hfid : frameId es top = (es.get ⟨top.entryIdx, htop⟩).id :=
      frameId_eq es top htop
    have htidlt : (es.get ⟨top.entryIdx, htop⟩).id < es.length / 2 := by
      have := wf.idlt ⟨top.entryIdx, htop⟩
      have hlen := wf.len
      omega
    have hgetfalse : (stackBits es rest).get (es.get ⟨top.entryIdx, htop⟩).id
        = false := by
      cases hval : (stackBits es rest).get (es.get ⟨top.entryIdx, htop⟩).id
      · rfl
      · have := (get_stackBits_iff wf hrestWF _).mp hval
        have hm := (mem_callsSeq_iff_map es rest _).mp this
        rw [← hfid] at hm
        exact absurd hm htopnotin
    have hlin2 : st.linearized.clear (es.get ⟨top.entryIdx, htop⟩).id =
        stackBits es rest := by
      rw [hLV, stackBits_cons, hfid]
      exact set_clear_cancel (wordsNorm_stackBits es rest)
        (by rw [length_stackBits]; exact bitsetIndex_major_lt htidlt) hgetfalse
    have hpret : (es.get ⟨p, hp⟩).kind = returnEntry := by
      cases hk : (es.get ⟨p, hp⟩).kind with
      | true => rfl
      | false =>
        have := matchOf_isSome_of_call wf hp hk
        rw [hmo] at this
        exact absurd this (by simp)
    have hreplay := hinv.replay
    rw [hcalls, List.reverse_cons] at hreplay
    obtain ⟨smid, hmid, htopstate, hsteptop⟩ :=
      (framesOk_append m es rest.reverse top m.init st.state).mp hreplay
    rw [← htopstate] at hsteptop
    subst hst'
    refine ⟨?_, ?_, ?_, ?_, ?_⟩
    · intro c hcand hlt
      have hcand2 : candidate es (stackBits es rest) c := by
        rw [← hlin2]
        exact hcand
      rcases Nat.lt_trichotomy c top.entryIdx with hclt | rfl | hcgt
      · have hold := hcinv.stackFrontier [] top rest (by rw [hcalls]; rfl) c
          hcand2 hclt
        intro s2x hs2x
        rw [hlin2] at hs2x ⊢
        exact hold s2x hs2x
      · intro s2x hs2x
        have hs2x2 : stepAtPos m es top.state top.entryIdx = some (true, s2x) :=
          hs2x
        rw [hsteptop] at hs2x2
        injection hs2x2 with hpair
        have hs2eq : st.state = s2x := congrArg Prod.snd hpair
        obtain ⟨h2, elem, hmem, hlin, hstate⟩ :=
          hcinv.onPath [] top rest (by rw [hcalls]; rfl)
        refine ⟨h2, elem, hmem, ?_, ?_⟩
        · rw [hlin, stackBits_cons, hlin2, entryIdAt_eq es htop, hfid]
        · rw [hstate, ← hs2eq]
          rfl
      · obtain ⟨hc, hlivec0, _, _⟩ := hcand
        have hlivec : (st.linearized.clear
            (es.get ⟨top.entryIdx, htop⟩).id).get es[c].id = false := by
          rw [List.get_eq_getElem] at hlivec0
          exact hlivec0
        cases hfl2 : firstLiveFrom es
            (st.linearized.clear (es.get ⟨top.entryIdx, htop⟩).id)
            (top.entryIdx + 1) with
        | none =>
          have := firstLiveFrom_none es _ _ hfl2 c (by omega) hc
          rw [this] at hlivec
          exact absurd hlivec (by simp)
        | some q =>
          have hcq := hlt q hfl2
          obtain ⟨_, _, _, hmid2⟩ := firstLiveFrom_some es _ _ q hfl2
          have := hmid2 c (by omega) hcq hc
          rw [this] at hlivec
          exact absurd hlivec (by simp)
    · intro pre f rest2 hdec c hcand hclt
      have hdec2 : rest = pre ++ f :: rest2 := hdec
      exact hcinv.stackFrontier (top :: pre) f rest2
        (by rw [hcalls]; show top :: rest = top :: (pre ++ f :: rest2);
            rw [hdec2]) c hcand hclt
    · intro pre f rest2 hdec
      have hdec2 : rest = pre ++ f :: rest2 := hdec
      obtain ⟨h2, elem, hmem, hlin, hstate⟩ := hcinv.onPath (top :: pre) f rest2
        (by rw [hcalls]; show top :: rest = top :: (pre ++ f :: rest2);
            rw [hdec2])
      refine ⟨h2, elem, hmem, hlin, ?_⟩
      rw [aboveState_cons] at hstate
      exact hstate
    · intro h2 elem hmem
      rcases hcinv.cachedClosed h2 elem hmem with
        ⟨pre, f, rest2, hdec, hlin, hstate⟩ | hclosed
      · cases pre with
        | nil =>
          simp only [List.nil_append] at hdec
          rw [hcalls] at hdec
          injection hdec with hg hrest
          subst hg
          subst hrest
          refine Or.inr ?_
          intro c hcand
          have hlineq : elem.linearized = st.linearized := by
            rw [hlin, ← hLV]
          have hcand2 : candidate es st.linearized c := by
            rw [← hlineq]
            exact hcand
          have hclt : c < p := by
            obtain ⟨hc, hlivec, hkindc, hbeforec⟩ := hcand2
            rcases Nat.lt_trichotomy c p with h1 | rfl | h1
            · exact h1
            · rw [hkindc] at hpret
              exact absurd hpret (by simp [callEntry, returnEntry])
            · have := hbeforec p h1 hp hplive
              rw [this] at hpret
              exact absurd hpret (by simp [callEntry, returnEntry])
          have hold := hcinv.topFrontier c hcand2 (fun p3 hp3 => by
            rw [hpos] at hp3
            injection hp3 with hh
            rw [← hh]
            exact hclt)
          intro s2x hs2x
          have hstel : elem.state = st.state := hstate
          have hs2x2 : stepAtPos m es st.state c = some (true, s2x) := by
            rw [← hstel]
            exact hs2x
          obtain ⟨h3, elem2, hmem2, hlin2b, hstate2⟩ := hold s2x hs2x2
          refine ⟨h3, elem2, hmem2, ?_, hstate2⟩
          rw [hlin2b, hlineq]
        | cons g pre2 =>
          simp only [List.cons_append] at hdec
          rw [hcalls] at hdec
          injection hdec with hg hrest
          subst hg
          refine Or.inl ⟨pre2, f, rest2, hrest, hlin, ?_⟩
          rw [aboveState_cons] at hstate
          exact hstate
      · exact Or.inr hclosed
    · intro h2 elem hmem
      rcases hcinv.notFull h2 elem hmem with hlive | hnone
      · exact Or.inl hlive
      · rw [hnone] at hflsome
        exact absurd hflsome (by simp)

/-- A failed exit with all invariants refutes every candidate
linearization: its configurations would all have been cached, the full
one included, which is impossible. -/
theorem done_false_refutes {S I O : Type} {m : Model S I O} {es : List (entry I O)}
    {n : Nat} (wf : WFEntries es n) {st : SearchState S}
    (hinv : Inv m es st) (hcinv : CompInv m es st)
    (hcalls : st.calls = [])
    (hflsome : (firstLiveFrom es st.linearized 0).isSome)
    {p : Nat} (hpos : st.pos = some p) (hp : p < es.length)
    (hmo : matchOf es p = none) :
    ¬ LinearizableEntries m es n := by
  rintro ⟨sigma, hperm, hrt, sfin, haccept⟩
  have hlen2 : es.length / 2 = n := by
    have := wf.len
    omega
  have hroot : st.linearized = newBitset (es.length / 2) := by
    have h0 := hinv.linVal
    rw [hcalls] at h0
    exact h0
  have hstinit : st.state = m.init := by
    have h0 := hinv.replay
    rw [hcalls] at h0
    exact h0
  have hscan := hinv.posOk
  rw [hpos] at hscan
  obtain ⟨hp2, hplive, hprevcalls⟩ := hscan
  have hpret : (es.get ⟨p, hp2⟩).kind = returnEntry := by
    cases hk : (es.get ⟨p, hp2⟩).kind with
    | true => rfl
    | false =>
      have := matchOf_isSome_of_call wf hp2 hk
      rw [hmo] at this
      exact absurd this (by simp)
  have hrootclosed : ∀ c, candidate es st.linearized c →
      extClosed m es st.cache st.linearized st.state c := by
    intro c hcand
    have hclt : c < p := by
      obtain ⟨hc, hlivec, hkindc, hbeforec⟩ := hcand
      rcases Nat.lt_trichotomy c p with h1 | rfl | h1
      · exact h1
      · rw [hkindc] at hpret
        exact absurd hpret (by simp [callEntry, returnEntry])
      · have := hbeforec p h1 hp2 hplive
        rw [this] at hpret
        exact absurd hpret (by simp [callEntry, returnEntry])
    exact hcinv.topFrontier c hcand (fun p3 hp3 => by
      rw [hpos] at hp3
      injection hp3 with hh
      rw [← hh]
      exact hclt)
  have hcachedclosed : ∀ h2 elem, elem ∈ st.cache h2 → ∀ c,
      candidate es elem.linearized c →
      extClosed m es st.cache elem.linearized elem.state c := by
    intro h2 elem hmem c hcand
    rcases hcinv.cachedClosed h2 elem hmem with ⟨pre, f, rest, hdec, _, _⟩ | hcl
    · rw [hcalls] at hdec
      exact absurd hdec (by simp)
    · exact hcl c hcand
  have hnonfull : ∀ h2 elem, elem ∈ st.cache h2 →
      ∃ j, ∃ hj : j < es.length,
        elem.linearized.get (es.get ⟨j, hj⟩).id = false := by
    intro h2 elem hmem
    rcases hcinv.notFull h2 elem hmem with hl | hnone
    · exact hl
    · rw [hnone] at hflsome
      exact absurd hflsome (by simp)
  have hsnd : sigma.Nodup := hperm.nodup_iff.mpr (List.nodup_range n)
  have hsmem : ∀ i, i ∈ sigma ↔ i < n := fun i => by
    rw [hperm.mem_iff, List.mem_range]
  have hids : ∀ k, ∀ i ∈ sigma.take k, i / 64 < (newBitset (es.length / 2)).length := by
    intro k i hi
    refine bitsetIndex_major_lt ?_
    have hm := (hsmem i).mp (List.mem_of_mem_take hi)
    omega
  have hbitsget : ∀ k q,
      ((sigma.take k).foldl bitset.set (newBitset (es.length / 2))).get q =
        decide (q ∈ sigma.take k) := by
    intro k q
    rw [get_foldl_set (hids k) q, bitset.get_newBitset]
    simp
  have main : ∀ k, k ≤ sigma.length → ∃ sk,
      idSeqRun m es m.init (sigma.take k) = some sk ∧
      (((sigma.take k).foldl bitset.set (newBitset (es.length / 2)) =
          st.linearized ∧ sk = st.state) ∨
       ∃ (h2 : Nat) (elem : cacheEntry S), elem ∈ st.cache h2 ∧
         elem.linearized =
           (sigma.take k).foldl bitset.set (newBitset (es.length / 2)) ∧
         elem.state = sk) := by
    intro k
    induction k with
    | zero =>
      intro _
      refine ⟨m.init, rfl, Or.inl ⟨?_, hstinit.symm⟩⟩
      rw [hroot]
      rfl
    | succ k ih =>
      intro hk1
      have hk : k < sigma.length := by omega
      obtain ⟨sk, hrun, hloc⟩ := ih (by omega)
      have hsplit := idSeqRun_append m es (sigma.take k) (sigma.drop k) m.init
      rw [List.take_append_drop, haccept, hrun] at hsplit
      have hdrop : idSeqRun m es sk (sigma.drop k) = some sfin := by
        have h0 : (some sk).bind (fun s1 => idSeqRun m es s1 (sigma.drop k)) =
            idSeqRun m es sk (sigma.drop k) := rfl
        rw [h0] at hsplit
        exact hsplit.symm
      have hdropeq : sigma.drop k = sigma[k] :: sigma.drop (k + 1) :=
        List.drop_eq_getElem_cons hk
      rw [hdropeq] at hdrop
      have hkn : sigma[k] < n := (hsmem _).mp (List.getElem_mem hk)
      obtain ⟨j, hjk0, hjid0⟩ := wf.exCall ⟨sigma[k], hkn⟩
      have hja : (es.get ⟨(j : Nat), j.isLt⟩).id = sigma[k] := hjid0
      have hjb : (es.get ⟨(j : Nat), j.isLt⟩).kind = callEntry := hjk0
      have hcp : callPos es sigma[k] = some (j : Nat) := by
        have h0 := callPos_of_call wf j.isLt hjb
        rw [hja] at h0
        exact h0
      cases hsp : stepAtPos m es sk (j : Nat) with
      | none =>
        have hnone : idSeqRun m es sk (sigma[k] :: sigma.drop (k + 1)) = none := by
          unfold idSeqRun
          simp only [hcp, hsp]
        rw [hnone] at hdrop
        exact absurd hdrop (by simp)
      | some r =>
        rcases r with ⟨ok, sk1⟩
        cases ok with
        | false =>
          have hnone : idSeqRun m es sk (sigma[k] :: sigma.drop (k + 1)) = none := by
            unfold idSeqRun
            simp only [hcp, hsp]
          rw [hnone] at hdrop
          exact absurd hdrop (by simp)
        | true =>
          have htake1 : sigma.take (k + 1) = sigma.take k ++ [sigma[k]] :=
            (List.take_concat_get' sigma k hk).symm
          have hsingle : idSeqRun m es sk [sigma[k]] = some sk1 := by
            unfold idSeqRun
            simp only [hcp, hsp]
            rfl
          have hrun1 : idSeqRun m es m.init (sigma.take (k + 1)) = some sk1 := by
            rw [htake1, idSeqRun_append, hrun]
            exact hsingle
          have hnotintake : sigma[k] ∉ sigma.take k := by
            intro hmem2
            obtain ⟨i2, hi2, hieq⟩ := List.mem_take_iff_getElem.mp hmem2
            have hi2k : i2 < k := lt_of_lt_of_le hi2 (min_le_left ..)
            have hi2len : i2 < sigma.length := lt_of_lt_of_le hi2 (min_le_right ..)
            have := (List.Nodup.getElem_inj_iff hsnd).mp hieq
            omega
          have hcand : candidate es
              ((sigma.take k).foldl bitset.set (newBitset (es.length / 2)))
              (j : Nat) := by
            refine ⟨j.isLt, ?_, hjb, ?_⟩
            · rw [show (es.get ⟨(j : Nat), j.isLt⟩).id = sigma[k] from hja,
                hbitsget k sigma[k]]
              simp [hnotintake]
            · intro j2 hj2 hj2len hlive2
              by_contra hnotcall
              have hret2 : (es.get ⟨j2, hj2len⟩).kind = returnEntry := by
                cases hkk : (es.get ⟨j2, hj2len⟩).kind with
                | false => exact absurd hkk hnotcall
                | true => rfl
              have hu := wf.idlt ⟨j2, hj2len⟩
              have hrp : retPos es (es.get ⟨j2, hj2len⟩).id = some j2 :=
                retPos_of_ret wf hj2len hret2
              have hulive : (es.get ⟨j2, hj2len⟩).id ∉ sigma.take k := by
                intro hmem3
                rw [hbitsget] at hlive2
                rw [decide_eq_true hmem3] at hlive2
                exact absurd hlive2 (by simp)
              have hrtuse := hrt (es.get ⟨j2, hj2len⟩).id sigma[k] j2 (j : Nat)
                hrp hcp hj2
              have hidxk : List.indexOf sigma[k] sigma = k :=
                List.indexOf_getElem hsnd k hk
              rw [hidxk] at hrtuse
              have humem : (es.get ⟨j2, hj2len⟩).id ∈ sigma := (hsmem _).mpr hu
              have hidxu := List.indexOf_lt_length.mpr humem
              have hintake : (es.get ⟨j2, hj2len⟩).id ∈ sigma.take k :=
                List.mem_take_iff_getElem.mpr
                  ⟨List.indexOf (es.get ⟨j2, hj2len⟩).id sigma,
                    lt_min hrtuse hidxu, List.getElem_indexOf hidxu⟩
              exact hulive hintake
          have hclosed : extClosed m es st.cache
              ((sigma.take k).foldl bitset.set (newBitset (es.length / 2))) sk
              (j : Nat) := by
            rcases hloc with ⟨hb, hs⟩ | ⟨h2, elem, hmem, hlin, hstate⟩
            · rw [hb, hs]
              refine hrootclosed _ ?_
              rw [← hb]
              exact hcand
            · have h0 := hcachedclosed h2 elem hmem (j : Nat)
                (by rw [hlin]; exact hcand)
              rw [hlin, hstate] at h0
              exact h0
          obtain ⟨h3, elem2, hmem2, hlin2, hstate2⟩ := hclosed sk1 hsp
          refine ⟨sk1, hrun1, Or.inr ⟨h3, elem2, hmem2, ?_, hstate2⟩⟩
          rw [hlin2, htake1, List.foldl_append]
          rw [entryIdAt_eq es j.isLt, hja]
          rfl
  obtain ⟨send, hrunend, hlocend⟩ := main sigma.length (le_refl _)
  rw [List.take_length] at hlocend
  have hfull : ∀ j2, ∀ hj2 : j2 < es.length,
      (sigma.foldl bitset.set (newBitset (es.length / 2))).get
        (es.get ⟨j2, hj2⟩).id = true := by
    intro j2 hj2
    have h0 : (es.get ⟨j2, hj2⟩).id ∈ sigma := (hsmem _).mpr (wf.idlt _)
    have h1 := hbitsget sigma.length (es.get ⟨j2, hj2⟩).id
    rw [List.take_length] at h1
    rw [h1, decide_eq_true h0]
  rcases hlocend with ⟨hb, _⟩ | ⟨h2, elem, hmem, hlin, _⟩
  · have h1 := hfull p hp2
    rw [hb] at h1
    rw [h1] at hplive
    exact absurd hplive (by simp)
  · obtain ⟨j2, hj2, hjlive⟩ := hnonfull h2 elem hmem
    have h1 := hfull j2 hj2
    rw [← hlin] at h1
    rw [h1] at hjlive
    exact absurd hjlive (by simp)

theorem runCheck_exit {S I O : Type} {m : Model S I O} {es : List (entry I O)}
    {n : Nat} (wf : WFEntries es n) (hEq : ∀ a b, m.sEq a b = true ↔ a = b)
    (verbose : Bool) :
    ∀ (fuel : Nat) (st : SearchState S), Inv m es st → CompInv m es st →
    ∀ acc st', runCheck m es verbose fuel st = RunResult.done acc st' →
    (acc = true → LinearizableEntries m es n) ∧
    (acc = false → ¬ LinearizableEntries m es n) := by
  intro fuel
  induction fuel with
  | zero =>
    intro st hinv hcinv acc st' hr
    simp only [runCheck] at hr
    cases hfl : firstLiveFrom es st.linearized 0 with
    | none =>
      rw [hfl] at hr
      injection hr with hacc _
      obtain ⟨hperm, hrt, haccept⟩ := done_true_spec wf hinv hfl
      refine ⟨fun _ => ⟨callsSeq es st.calls, hperm, hrt, st.state, haccept⟩, ?_⟩
      intro hfalse
      rw [hfalse] at hacc
      exact absurd hacc (by simp)
    | some fl =>
      rw [hfl] at hr
      exact RunResult.noConfusion hr
  | succ f ih =>
    intro st hinv hcinv acc st' hr
    cases hcs : checkStep m es verbose st with
    | next st2 =>
      simp only [runCheck, hcs] at hr
      exact ih st2 (Inv_preserved wf hinv hcs)
        (CompInv_preserved wf hEq hinv hcinv hcs) acc st' hr
    | done acc2 st2 =>
      simp only [runCheck, hcs] at hr
      injection hr with hacc2 hst2
      subst hacc2
      rcases checkStep_done_inv hcs with ⟨hacc, hfl, _⟩ |
        ⟨hacc, _, hcalls, hflsome, p, hpos, hp, hmo⟩
      · subst hacc
        obtain ⟨hperm, hrt, haccept⟩ := done_true_spec wf hinv hfl
        refine ⟨fun _ => ⟨callsSeq es st.calls, hperm, hrt, st.state, haccept⟩, ?_⟩
        intro hfalse
        exact absurd hfalse (by simp)
      · subst hacc
        refine ⟨fun htrue => absurd htrue (by simp), fun _ => ?_⟩
        exact done_false_refutes wf hinv hcinv hcalls hflsome hpos hp hmo
    | stuck =>
      simp only [runCheck, hcs] at hr
      exact RunResult.noConfusion hr

/-- The single-partition run with enough fuel terminates with a
definite verdict that decides entry-level linearizability. -/
theorem runCheck_decides {S I O : Type} {m : Model S I O} {es : List (entry I O)}
    {n : Nat} (wf : WFEntries es n) (hEq : ∀ a b, m.sEq a b = true ↔ a = b)
    (verbose : Bool) :
    ∃ acc st', runCheck m es verbose ((es.length + 3) ^ (es.length / 2 + 2))
        (initState m es) = RunResult.done acc st' ∧
      (acc = true ↔ LinearizableEntries m es n) := by
  obtain ⟨acc, st', hrun⟩ := runCheck_done_exists wf verbose
    ((es.length + 3) ^ (es.length / 2 + 2)) (initState m es) (Inv_init m es)
    (Nat.sub_le _ _)
  obtain ⟨h1, h2⟩ := runCheck_exit wf hEq verbose _ (initState m es)
    (Inv_init m es) (CompInv_init m es) acc st' hrun
  refine ⟨acc, st', hrun, ?_⟩
  constructor
  · exact h1
  · intro hlin
    cases hacc : acc with
    | true => rfl
    | false => exact absurd hlin (h2 hacc)

theorem opEntries_eq_flatMap {I O : Type} (h : List (Operation I O)) :
    opEntries h = (List.enumFrom 0 h).flatMap opEntryPair := rfl

theorem enumFrom_opEntries_mem {I O : Type} (h : List (Operation I O)) :
    ∀ (k : Nat) (e : entry I O),
      e ∈ (List.enumFrom k h).flatMap opEntryPair ↔
      ∃ i, ∃ hi : i < h.length,
        e = callEntryOf (k + i) (h.get ⟨i, hi⟩) ∨
        e = retEntryOf (k + i) (h.get ⟨i, hi⟩) := by
  induction h with
  | nil =>
    intro k e
    simp [List.enumFrom]
  | cons op t ih =>
    intro k e
    rw [show List.enumFrom k (op :: t) = (k, op) :: List.enumFrom (k + 1) t from rfl]
    rw [List.flatMap_cons, List.mem_append]
    constructor
    · rintro (hblock | hrest)
      · rcases List.mem_cons.mp hblock with h1 | h1
        · exact ⟨0, by simp, Or.inl (by simpa using h1)⟩
        · rw [List.mem_singleton] at h1
          exact ⟨0, by simp, Or.inr (by simpa using h1)⟩
      · obtain ⟨i, hi, hor⟩ := (ih (k + 1) e).mp hrest
        refine ⟨i + 1, by simpa using hi, ?_⟩
        have harith : k + 1 + i = k + (i + 1) := by omega
        rw [harith] at hor
        exact hor
    · rintro ⟨i, hi, hor⟩
      cases i with
      | zero =>
        refine Or.inl ?_
        rcases hor with h1 | h1
        · exact List.mem_cons.mpr (Or.inl (by simpa using h1))
        · refine List.mem_cons.mpr (Or.inr ?_)
          rw [List.mem_singleton]
          simpa using h1
      | succ i2 =>
        refine Or.inr ((ih (k + 1) e).mpr ⟨i2,
          by simp only [List.length_cons] at hi; omega, ?_⟩)
        have harith : k + 1 + i2 = k + (i2 + 1) := by omega
        rw [harith]
        exact hor

theorem enumFrom_opEntries_length {I O : Type} (h : List (Operation I O)) :
    ∀ k, ((List.enumFrom k h).flatMap opEntryPair).length = 2 * h.length := by
  induction h with
  | nil => intro k; rfl
  | cons op t ih =>
    intro k
    rw [show List.enumFrom k (op :: t) = (k, op) :: List.enumFrom (k + 1) t from rfl]
    rw [List.flatMap_cons, List.length_append, ih (k + 1)]
    simp [opEntryPair]
    omega

theorem enumFrom_opEntries_pairs_nodup {I O : Type} (h : List (Operation I O)) :
    ∀ k, (((List.enumFrom k h).flatMap opEntryPair).map
      (fun e => (e.kind, e.id))).Nodup := by
  induction h with
  | nil => intro k; simp [List.enumFrom]
  | cons op t ih =>
    intro k
    rw [show List.enumFrom k (op :: t) = (k, op) :: List.enumFrom (k + 1) t from rfl]
    rw [List.flatMap_cons, List.map_append, List.nodup_append]
    refine ⟨?_, ih (k + 1), ?_⟩
    · simp [opEntryPair, callEntryOf, retEntryOf, callEntry, returnEntry]
    · intro pr hpr hpr2
      obtain ⟨e, hmem, hpe⟩ := List.mem_map.mp hpr2
      obtain ⟨i, hi, hor⟩ := (enumFrom_opEntries_mem t (k + 1) e).mp hmem
      have hid : e.id = k + 1 + i := by
        rcases hor with h1 | h1 <;> rw [h1] <;> rfl
      simp only [opEntryPair, List.map_cons, List.map_nil, List.mem_cons,
        List.mem_singleton] at hpr
      rcases hpr with h1 | h1
      · rw [h1] at hpe
        have : (callEntryOf k op).id = e.id := congrArg Prod.snd hpe.symm
        rw [hid] at this
        have h2 : (callEntryOf k op).id = k := rfl
        omega
      · rcases h1 with h1 | h1
        · rw [h1] at hpe
          have : (retEntryOf k op).id = e.id := congrArg Prod.snd hpe.symm
          rw [hid] at this
          have h2 : (retEntryOf k op).id = k := rfl
          omega
        · exact absurd h1 (List.not_mem_nil pr)

theorem makeEntries_mem_char {I O : Type} (h : List (Operation I O))
    (e : entry I O) :
    e ∈ makeEntries h ↔ ∃ i, ∃ hi : i < h.length,
      e = callEntryOf i (h.get ⟨i, hi⟩) ∨ e = retEntryOf i (h.get ⟨i, hi⟩) := by
  rw [(makeEntries_perm h).mem_iff, opEntries_eq_flatMap]
  have := enumFrom_opEntries_mem h 0 e
  simpa using this

theorem makeEntries_pairs_nodup {I O : Type} (h : List (Operation I O)) :
    ((makeEntries h).map (fun e => (e.kind, e.id))).Nodup := by
  refine ((makeEntries_perm h).map (fun e => (e.kind, e.id))).nodup_iff.mpr ?_
  rw [opEntries_eq_flatMap]
  exact enumFrom_opEntries_pairs_nodup h 0

theorem length_makeEntries {I O : Type} (h : List (Operation I O)) :
    (makeEntries h).length = 2 * h.length := by
  rw [(makeEntries_perm h).length_eq, opEntries_eq_flatMap]
  exact enumFrom_opEntries_length h 0

theorem makeEntries_rank_sorted {I O : Type} (h : List (Operation I O))
    {j k : Nat} (hj : j < (makeEntries h).length) (hk : k < (makeEntries h).length)
    (hjk : j < k) :
    entryRank ((makeEntries h).get ⟨j, hj⟩) ≤
      entryRank ((makeEntries h).get ⟨k, hk⟩) := by
  have hs := makeEntries_sorted h
  have hle := List.pairwise_iff_get.mp hs ⟨j, hj⟩ ⟨k, hk⟩ hjk
  rw [byTimeLE_iff_rank] at hle
  exact hle

theorem makeEntries_WF {I O : Type} (h : List (Operation I O))
    (hwf : ∀ op ∈ h, op.call ≤ op.ret) :
    WFEntries (makeEntries h) h.length := by
  have hchar := makeEntries_mem_char h
  refine ⟨length_makeEntries h, ?_, ?_, ?_, ?_, ?_, ?_, ?_⟩
  · -- ids below n
    intro j
    obtain ⟨i, hi, hor⟩ := (hchar _).mp (List.get_mem _ _ _)
    rcases hor with h1 | h1 <;> rw [h1] <;> exact hi
  · -- (kind, id) determines the position
    intro j k hkind hid
    have hnd := makeEntries_pairs_nodup h
    have hj2 : (j : Nat) < ((makeEntries h).map (fun e => (e.kind, e.id))).length := by
      rw [List.length_map]; exact j.isLt
    have hk2 : (k : Nat) < ((makeEntries h).map (fun e => (e.kind, e.id))).length := by
      rw [List.length_map]; exact k.isLt
    have heq : ((makeEntries h).map (fun e => (e.kind, e.id)))[(j : Nat)] =
        ((makeEntries h).map (fun e => (e.kind, e.id)))[(k : Nat)] := by
      rw [List.getElem_map, List.getElem_map]
      have e1 : (makeEntries h)[(j : Nat)] = (makeEntries h).get j := rfl
      have e2 : (makeEntries h)[(k : Nat)] = (makeEntries h).get k := rfl
      rw [e1, e2, hkind, hid]
    have := (List.Nodup.getElem_inj_iff hnd).mp heq
    exact Fin.ext this
  · -- a call entry for every id
    intro i
    have hmem : callEntryOf (i : Nat) (h.get ⟨(i : Nat), i.isLt⟩) ∈ makeEntries h :=
      (hchar _).mpr ⟨(i : Nat), i.isLt, Or.inl rfl⟩
    obtain ⟨j, hjl, hje⟩ := List.mem_iff_getElem.mp hmem
    refine ⟨⟨j, hjl⟩, ?_, ?_⟩
    · show ((makeEntries h)[j]).kind = callEntry
      rw [hje]
      rfl
    · show ((makeEntries h)[j]).id = (i : Nat)
      rw [hje]
      rfl
  · -- a return entry for every id
    intro i
    have hmem : retEntryOf (i : Nat) (h.get ⟨(i : Nat), i.isLt⟩) ∈ makeEntries h :=
      (hchar _).mpr ⟨(i : Nat), i.isLt, Or.inr rfl⟩
    obtain ⟨j, hjl, hje⟩ := List.mem_iff_getElem.mp hmem
    refine ⟨⟨j, hjl⟩, ?_, ?_⟩
    · show ((makeEntries h)[j]).kind = returnEntry
      rw [hje]
      rfl
    · show ((makeEntries h)[j]).id = (i : Nat)
      rw [hje]
      rfl
  · -- every call entry precedes the matching return entry
    intro j k hjc hkr hid
    obtain ⟨i1, hi1, hor1⟩ := (hchar _).mp (List.get_mem _ _ _)
    obtain ⟨i2, hi2, hor2⟩ := (hchar _).mp (List.get_mem _ _ _)
    have hj1 : (makeEntries h).get j = callEntryOf i1 (h.get ⟨i1, hi1⟩) := by
      rcases hor1 with h1 | h1
      · exact h1
      · rw [h1] at hjc
        exact absurd hjc (by simp [retEntryOf, callEntry, returnEntry])
    have hk1 : (makeEntries h).get k = retEntryOf i2 (h.get ⟨i2, hi2⟩) := by
      rcases hor2 with h1 | h1
      · rw [h1] at hkr
        exact absurd hkr (by simp [callEntryOf, callEntry, returnEntry])
      · exact h1
    have hi12 : i1 = i2 := by
      have e1 : ((makeEntries h).get j).id = i1 := by rw [hj1]; rfl
      have e2 : ((makeEntries h).get k).id = i2 := by rw [hk1]; rfl
      rw [e1, e2] at hid
      exact hid
    subst hi12
    have hcr : (h.get ⟨i1, hi1⟩).call ≤ (h.get ⟨i1, hi1⟩).ret :=
      hwf _ (List.get_mem _ _ _)
    have hrj : entryRank ((makeEntries h).get j) = 2 * (h.get ⟨i1, hi1⟩).call := by
      rw [hj1]
      simp [entryRank, callEntryOf, callEntry]
    have hrk : entryRank ((makeEntries h).get k) =
        2 * (h.get ⟨i1, hi1⟩).ret + 1 := by
      rw [hk1]
      simp [entryRank, retEntryOf, returnEntry]
    rcases Nat.lt_trichotomy (j : Nat) (k : Nat) with h1 | h1 | h1
    · exact h1
    · exfalso
      have : (makeEntries h).get j = (makeEntries h).get k := by
        congr 1
        exact Fin.ext h1
      rw [this, hk1] at hjc
      exact absurd hjc (by simp [retEntryOf, callEntry, returnEntry])
    · exfalso
      have := makeEntries_rank_sorted h k.isLt j.isLt h1
      have ej : (makeEntries h).get ⟨(j : Nat), j.isLt⟩ = (makeEntries h).get j :=
        rfl
      have ek : (makeEntries h).get ⟨(k : Nat), k.isLt⟩ = (makeEntries h).get k :=
        rfl
      rw [ej, ek, hrj, hrk] at this
      omega
  · -- calls carry inputs
    intro j hjc
    obtain ⟨i, hi, hor⟩ := (hchar _).mp (List.get_mem _ _ _)
    rcases hor with h1 | h1
    · rw [h1]
      rfl
    · rw [h1] at hjc
      exact absurd hjc (by simp [retEntryOf, callEntry, returnEntry])
  · -- returns carry outputs
    intro j hjr
    obtain ⟨i, hi, hor⟩ := (hchar _).mp (List.get_mem _ _ _)
    rcases hor with h1 | h1
    · rw [h1] at hjr
      exact absurd hjr (by simp [callEntryOf, callEntry, returnEntry])
    · rw [h1]
      rfl

theorem makeEntries_callPos {I O : Type} {h : List (Operation I O)}
    (hwf : ∀ op ∈ h, op.call ≤ op.ret) {i : Nat} (hi : i < h.length) :
    ∃ ci, ∃ hci : ci < (makeEntries h).length,
      callPos (makeEntries h) i = some ci ∧
      (makeEntries h).get ⟨ci, hci⟩ = callEntryOf i (h.get ⟨i, hi⟩) := by
  have wf := makeEntries_WF h hwf
  have hmem : callEntryOf i (h.get ⟨i, hi⟩) ∈ makeEntries h :=
    (makeEntries_mem_char h _).mpr ⟨i, hi, Or.inl rfl⟩
  obtain ⟨j, hjl, hje⟩ := List.mem_iff_getElem.mp hmem
  have hje2 : (makeEntries h).get ⟨j, hjl⟩ = callEntryOf i (h.get ⟨i, hi⟩) := hje
  have hkind : ((makeEntries h).get ⟨j, hjl⟩).kind = callEntry := by
    rw [hje2]
    rfl
  have hid : ((makeEntries h).get ⟨j, hjl⟩).id = i := by
    rw [hje2]
    rfl
  have h0 := callPos_of_call wf hjl hkind
  rw [hid] at h0
  exact ⟨j, hjl, h0, hje2⟩

theorem makeEntries_retPos {I O : Type} {h : List (Operation I O)}
    (hwf : ∀ op ∈ h, op.call ≤ op.ret) {i : Nat} (hi : i < h.length) :
    ∃ ri, ∃ hri : ri < (makeEntries h).length,
      retPos (makeEntries h) i = some ri ∧
      (makeEntries h).get ⟨ri, hri⟩ = retEntryOf i (h.get ⟨i, hi⟩) := by
  have wf := makeEntries_WF h hwf
  have hmem : retEntryOf i (h.get ⟨i, hi⟩) ∈ makeEntries h :=
    (makeEntries_mem_char h _).mpr ⟨i, hi, Or.inr rfl⟩
  obtain ⟨j, hjl, hje⟩ := List.mem_iff_getElem.mp hmem
  have hje2 : (makeEntries h).get ⟨j, hjl⟩ = retEntryOf i (h.get ⟨i, hi⟩) := hje
  have hkind : ((makeEntries h).get ⟨j, hjl⟩).kind = returnEntry := by
    rw [hje2]
    rfl
  have hid : ((makeEntries h).get ⟨j, hjl⟩).id = i := by
    rw [hje2]
    rfl
  have h0 := retPos_of_ret wf hjl hkind
  rw [hid] at h0
  exact ⟨j, hjl, h0, hje2⟩

theorem callPos_payload {I O : Type} {h : List (Operation I O)} {i ci : Nat}
    (hcp : callPos (makeEntries h) i = some ci) :
    ∃ hci : ci < (makeEntries h).length, ∃ hi : i < h.length,
      (makeEntries h).get ⟨ci, hci⟩ = callEntryOf i (h.get ⟨i, hi⟩) := by
  obtain ⟨hci, hkind, hid⟩ := callPos_some hcp
  obtain ⟨i2, hi2, hor⟩ := (makeEntries_mem_char h _).mp (List.get_mem _ _ _)
  rcases hor with h1 | h1
  · have hid2 : i2 = i := by
      have : ((makeEntries h).get ⟨ci, hci⟩).id = i2 := by rw [h1]; rfl
      rw [this] at hid
      exact hid
    subst hid2
    exact ⟨hci, hi2, h1⟩
  · rw [h1] at hkind
    exact absurd hkind (by simp [retEntryOf, callEntry, returnEntry])

theorem retPos_payload {I O : Type} {h : List (Operation I O)} {i ri : Nat}
    (hrp : retPos (makeEntries h) i = some ri) :
    ∃ hri : ri < (makeEntries h).length, ∃ hi : i < h.length,
      (makeEntries h).get ⟨ri, hri⟩ = retEntryOf i (h.get ⟨i, hi⟩) := by
  obtain ⟨hri, hkind, hid⟩ := retPos_some hrp
  obtain ⟨i2, hi2, hor⟩ := (makeEntries_mem_char h _).mp (List.get_mem _ _ _)
  rcases hor with h1 | h1
  · rw [h1] at hkind
    exact absurd hkind (by simp [callEntryOf, callEntry, returnEntry])
  · have hid2 : i2 = i := by
      have : ((makeEntries h).get ⟨ri, hri⟩).id = i2 := by rw [h1]; rfl
      rw [this] at hid
      exact hid
    subst hid2
    exact ⟨hri, hi2, h1⟩

theorem idSeqRun_eq_opsRun {S I O : Type} (m : Model S I O)
    (h : List (Operation I O)) (hwf : ∀ op ∈ h, op.call ≤ op.ret) :
    ∀ (order : List Nat), (∀ i ∈ order, i < h.length) → ∀ s,
      idSeqRun m (makeEntries h) s order = opsRun m h s order := by
  have wf := makeEntries_WF h hwf
  intro order
  induction order with
  | nil => intro _ s; rfl
  | cons i t ih =>
    intro hmem s
    have hi : i < h.length := hmem i (by simp)
    obtain ⟨ci, hci, hcp, hcval⟩ := makeEntries_callPos hwf hi
    have hkind : ((makeEntries h).get ⟨ci, hci⟩).kind = callEntry := by
      rw [hcval]
      rfl
    obtain ⟨q, input, output, hmo, hinval, ⟨hq, houtval⟩, hstepall⟩ :=
      stepAtPos_eq m wf hci hkind
    have hinp : input = (h.get ⟨i, hi⟩).input := by
      rw [hcval] at hinval
      have : Sum.inl (α := I) (β := O) (h.get ⟨i, hi⟩).input = Sum.inl input :=
        hinval
      exact (Sum.inl.injEq .. ▸ this).symm
    have hout : output = (h.get ⟨i, hi⟩).output := by
      obtain ⟨hp3, hretp⟩ := matchOf_eq_retPos wf hmo
      have hid3 : ((makeEntries h).get ⟨ci, hp3⟩).id = i := by
        have e0 : (makeEntries h).get ⟨ci, hp3⟩ = (makeEntries h).get ⟨ci, hci⟩ :=
          rfl
        rw [e0, hcval]
        rfl
      rw [hid3] at hretp
      obtain ⟨hq2, hi2, hqval⟩ := retPos_payload hretp
      have e1 : (makeEntries h).get ⟨q, hq⟩ = (makeEntries h).get ⟨q, hq2⟩ := rfl
      rw [e1, hqval] at houtval
      have : Sum.inr (α := I) (β := O) (h.get ⟨i, hi2⟩).output = Sum.inr output :=
        houtval
      exact (Sum.inr.injEq .. ▸ this).symm
    have hstep := hstepall s
    rw [hinp, hout] at hstep
    have hops : opsRun m h s (i :: t) =
        (let r := m.step s (h.get ⟨i, hi⟩).input (h.get ⟨i, hi⟩).output
         if r.1 then opsRun m h r.2 t else none) := by
      conv_lhs => unfold opsRun
      rw [List.getElem?_eq_getElem hi]
      rfl
    rcases hr : m.step s (h.get ⟨i, hi⟩).input (h.get ⟨i, hi⟩).output with ⟨ok, s2⟩
    rw [hr] at hstep
    cases ok with
    | true =>
      have hseq : idSeqRun m (makeEntries h) s (i :: t) =
          idSeqRun m (makeEntries h) s2 t := by
        conv_lhs => unfold idSeqRun
        simp only [hcp, hstep]
      rw [hseq, hops, hr]
      simp only [if_pos]
      exact ih (fun x hx => hmem x (by simp [hx])) s2
    | false =>
      have hseq : idSeqRun m (makeEntries h) s (i :: t) = none := by
        conv_lhs => unfold idSeqRun
        simp only [hcp, hstep]
      rw [hseq, hops, hr]
      simp

theorem rt_bridge {I O : Type} (h : List (Operation I O))
    (hwf : ∀ op ∈ h, op.call ≤ op.ret) (order : List Nat) :
    rtConsistent (makeEntries h) order ↔ rtConsistentOps h order := by
  constructor
  · intro hrt a b ha hb hlt
    obtain ⟨ra, hra, hrp, hrval⟩ := makeEntries_retPos hwf ha
    obtain ⟨cb, hcb, hcp, hcval⟩ := makeEntries_callPos hwf hb
    refine hrt a b ra cb hrp hcp ?_
    have hrka : entryRank ((makeEntries h).get ⟨ra, hra⟩) =
        2 * (h.get ⟨a, ha⟩).ret + 1 := by
      rw [hrval]
      simp [entryRank, retEntryOf, returnEntry]
    have hrkb : entryRank ((makeEntries h).get ⟨cb, hcb⟩) =
        2 * (h.get ⟨b, hb⟩).call := by
      rw [hcval]
      simp [entryRank, callEntryOf, callEntry]
    rcases Nat.lt_trichotomy ra cb with h1 | h1 | h1
    · exact h1
    · exfalso
      subst h1
      have : (makeEntries h).get ⟨ra, hra⟩ = (makeEntries h).get ⟨ra, hcb⟩ := rfl
      rw [this, hcval] at hrval
      have := congrArg entry.kind hrval
      simp [callEntryOf, retEntryOf, callEntry, returnEntry] at this
    · exfalso
      have hsorted := makeEntries_rank_sorted h hcb hra h1
      rw [hrka, hrkb] at hsorted
      omega
  · intro hrt a b ra cb hrp hcp hlt
    obtain ⟨hra, ha, hrval⟩ := retPos_payload hrp
    obtain ⟨hcb, hb, hcval⟩ := callPos_payload hcp
    refine hrt a b ha hb ?_
    have hsorted := makeEntries_rank_sorted h hra hcb hlt
    have hrka : entryRank ((makeEntries h).get ⟨ra, hra⟩) =
        2 * (h.get ⟨a, ha⟩).ret + 1 := by
      rw [hrval]
      simp [entryRank, retEntryOf, returnEntry]
    have hrkb : entryRank ((makeEntries h).get ⟨cb, hcb⟩) =
        2 * (h.get ⟨b, hb⟩).call := by
      rw [hcval]
      simp [entryRank, callEntryOf, callEntry]
    rw [hrka, hrkb] at hsorted
    omega

theorem LinearizableEntries_iff_ops {S I O : Type} (m : Model S I O)
    (h : List (Operation I O)) (hwf : ∀ op ∈ h, op.call ≤ op.ret) :
    LinearizableEntries m (makeEntries h) h.length ↔ LinearizableOps m h := by
  constructor
  · rintro ⟨order, hperm, hrt, s2, hacc⟩
    refine ⟨order, hperm, (rt_bridge h hwf order).mp hrt, s2, ?_⟩
    rw [← idSeqRun_eq_opsRun m h hwf order
      (fun i hi2 => List.mem_range.mp (hperm.mem_iff.mp hi2))]
    exact hacc
  · rintro ⟨order, hperm, hrt, s2, hacc⟩
    refine ⟨order, hperm, (rt_bridge h hwf order).mpr hrt, s2, ?_⟩
    rw [idSeqRun_eq_opsRun m h hwf order
      (fun i hi2 => List.mem_range.mp (hperm.mem_iff.mp hi2))]
    exact hacc

/-- C1: for every model with decisive state equality and every
well-formed operation history (the default partitioner, each call
timestamp at most its return timestamp; `makeEntries` then produces
one matching return per call and dense ids), the check terminates with
a definite verdict, and the verdict is `Ok` if and only if some total
order of the operations consistent with real-time precedence (closed
intervals: an operation precedes another when its return timestamp is
strictly before the other's call timestamp) is accepted step by step
by the model from `init`. -/
theorem check_ok_iff_linearizable {S I O : Type} (m : Model S I O)
    (hpart : m.partition = none) (hEq : ∀ a b, m.sEq a b = true ↔ a = b)
    (history : List (Operation I O))
    (hwfh : ∀ op ∈ history, op.call ≤ op.ret) :
    ∃ fuel res, checkOperationsFuel m history false fuel = some res ∧
      res ≠ CheckResult.Unknown ∧
      (res = CheckResult.Ok ↔ LinearizableOps m history) := by
  have wf := makeEntries_WF history hwfh
  obtain ⟨acc, st', hrun, hiff⟩ := runCheck_decides wf hEq false
  have hbridge := LinearizableEntries_iff_ops m history hwfh
  refine ⟨((makeEntries history).length + 3) ^
      ((makeEntries history).length / 2 + 2),
    if acc then CheckResult.Ok else CheckResult.Illegal, ?_, ?_, ?_⟩
  · unfold checkOperationsFuel modelPartition
    rw [hpart]
    simp only [Option.getD_none, noPartition, List.map_cons, List.map_nil]
    unfold checkPartitionsFuel
    simp only [List.mapM, List.mapM.loop, hrun]
    cases acc <;> rfl
  · cases acc <;> simp
  · cases acc with
    | true =>
      constructor
      · intro _
        exact hbridge.mp (hiff.mp rfl)
      · intro _
        rfl
    | false =>
      constructor
      · intro hcon
        exact absurd hcon (by simp)
      · intro hlin
        have h9 := hiff.mpr (hbridge.mpr hlin)
        exact absurd h9 (by simp)

/-- Witness for C1: the register model with a write and a concurrent
read, where the check and the spec-side order both exist. -/
theorem check_ok_iff_linearizable_witness :
    ∃ fuel res, checkOperationsFuel regModel
        [⟨0, (true, 7), 0, 0, 10⟩, ⟨1, (false, 0), 5, 7, 15⟩] false fuel =
          some res ∧
      res ≠ CheckResult.Unknown ∧
      (res = CheckResult.Ok ↔ LinearizableOps regModel
        [⟨0, (true, 7), 0, 0, 10⟩, ⟨1, (false, 0), 5, 7, 15⟩]) :=
  check_ok_iff_linearizable regModel rfl (fun a b => beq_iff_eq)
    [⟨0, (true, 7), 0, 0, 10⟩, ⟨1, (false, 0), 5, 7, 15⟩] (by decide)

end Porcupine
